import Mathlib

/-!
# Verification of the PESU material downloader scripts

Shallow embedding of `download_material.py` and `download_using_lib.py`.

Python strings are modelled as Lean `String` (operated on through their
`List Char` data, restricted to the ASCII behaviour the scripts rely on:
`str.upper`/`str.lower` are modelled by `Char.toUpper`/`Char.toLower` and
`str.strip()` by stripping the ASCII whitespace characters).
`os.path` functions are modelled after CPython's `posixpath`.
The filesystem is modelled as an association list from paths to file
contents, where a file's content is an abstract page list (`List Nat`).

The file is organised as definitions first, then the theorems.
-/

namespace Pesu

/-- The character class of `re.sub(r'[\\/:*?"<>|\r\n\t]', "_", name)` in
`sanitize_filename`. -/
def forbiddenChars : List Char :=
  ['\\', '/', ':', '*', '?', Char.ofNat 34, '<', '>', '|', '\r', '\n', '\t']

/-- Whether `c` is replaced by `_` in `sanitize_filename`. -/
def isForbidden (c : Char) : Bool := forbiddenChars.contains c

/-- Python `s.strip(bad)` on a character list: drop the characters of `bad`
from both ends. -/
def stripCharsList (bad : List Char) (l : List Char) : List Char :=
  ((l.dropWhile (fun c => bad.contains c)).reverse.dropWhile
    (fun c => bad.contains c)).reverse

/-- Python `s.strip(bad)` on strings. -/
def pyStrip (bad : List Char) (s : String) : String :=
  ⟨stripCharsList bad s.data⟩

/-- Python `s.strip()` (no argument): strip ASCII whitespace. -/
def pyStripWS (s : String) : String :=
  pyStrip [' ', '\t', '\n', '\r', '\x0b', '\x0c'] s

/-- Python `s.upper()` (ASCII model). -/
def pyUpper (s : String) : String := ⟨s.data.map Char.toUpper⟩

/-- Python `s.lower()` (ASCII model). -/
def pyLower (s : String) : String := ⟨s.data.map Char.toLower⟩

/-- The `reserved_names` set of `sanitize_filename`. -/
def reserved_names : List String :=
  ["CON", "PRN", "AUX", "NUL",
   "COM1", "COM2", "COM3", "COM4", "COM5", "COM6", "COM7", "COM8", "COM9",
   "LPT1", "LPT2", "LPT3", "LPT4", "LPT5", "LPT6", "LPT7", "LPT8", "LPT9"]

/-- Step 1 of `sanitize_filename`: `re.sub(r'[\\/:*?"<>|\r\n\t]', "_", name)`. -/
def replaceForbidden (s : String) : String :=
  ⟨s.data.map (fun c => if isForbidden c then '_' else c)⟩

/-- Steps 1-2 of `sanitize_filename`: replace the forbidden characters and
then `strip(" .")`. -/
def sanitizeStripped (s : String) : String :=
  pyStrip [' ', '.'] (replaceForbidden s)

/-- `sanitize_filename` up to (and excluding) the final length truncation:
the reserved-name / empty-name handling of lines 47-48. -/
def sanitizePre (name : String) : String :=
  let s := sanitizeStripped name
  if pyUpper s ∈ reserved_names ∨ s = "" then
    (if s = "" then "unnamed" else "file_" ++ s)
  else s

/-- `sanitize_filename` from `download_material.py` lines 13-54 (identical in
`download_using_lib.py`): replace forbidden characters with `_`, strip
leading/trailing spaces and dots, guard reserved/empty names, truncate to
255 characters as `s[:252] + "..."`. -/
def sanitize_filename (name : String) : String :=
  let s := sanitizePre name
  if 255 < s.length then ⟨s.data.take 252⟩ ++ "..." else s

/-! ## `os.path` (CPython `posixpath`) -/

/-- Not a path separator. -/
def notSep (c : Char) : Bool := c ≠ '/'

/-- Not a dot. -/
def notDot (c : Char) : Bool := c ≠ '.'

/-- A dot. -/
def isDot (c : Char) : Bool := c = '.'

/-- Split a character list at its last `/`: returns the head part including
the trailing `/` (CPython `p[:i]` with `i = p.rfind('/') + 1`) and the tail
after the last `/`. -/
def splitLastSep (l : List Char) : List Char × List Char :=
  let rev := l.reverse
  (((rev.dropWhile notSep).reverse), ((rev.takeWhile notSep).reverse))

/-- CPython `posixpath.splitext` on a character list: split at the last dot
of the component after the last `/`, provided some character strictly
between the last `/` and that dot is not a dot (leading dots do not start
an extension). -/
def splitextList (l : List Char) : List Char × List Char :=
  let dir := (splitLastSep l).1
  let base := (splitLastSep l).2
  let rev := base.reverse
  let afterDot := rev.takeWhile notDot
  match rev.dropWhile notDot with
  | [] => (l, [])
  | _ :: revPre =>
    if revPre.all isDot then (l, [])
    else (dir ++ revPre.reverse, '.' :: afterDot.reverse)

/-- `os.path.splitext`. -/
def splitext (s : String) : String × String :=
  (⟨(splitextList s.data).1⟩, ⟨(splitextList s.data).2⟩)

/-- `os.path.basename`. -/
def basename (s : String) : String := ⟨(splitLastSep s.data).2⟩

/-- `os.path.dirname` (posix): head up to the last `/`, with trailing
slashes stripped unless the head consists only of slashes. -/
def dirname (s : String) : String :=
  let head := (splitLastSep s.data).1
  if head.isEmpty || head.all (fun c => c = '/') then ⟨head⟩
  else ⟨(head.reverse.dropWhile (fun c => c = '/')).reverse⟩

/-- `os.path.join` (posix, two arguments as used by the scripts). -/
def joinPath (a b : String) : String :=
  if b.data.head? = some '/' then b
  else if a = "" ∨ a.data.getLast? = some '/' then a ++ b
  else a ++ "/" ++ b

/-! ## Extension resolver -/

/-- Match the regex `filename[*]?=([^;]+)` at the head of the list,
returning the capture group. -/
def matchFilenameAt (l : List Char) : Option (List Char) :=
  match l with
  | 'f' :: 'i' :: 'l' :: 'e' :: 'n' :: 'a' :: 'm' :: 'e' :: rest =>
    match rest with
    | '*' :: '=' :: r =>
      let g := r.takeWhile (fun c => c ≠ ';')
      if g.isEmpty then none else some g
    | '=' :: r =>
      let g := r.takeWhile (fun c => c ≠ ';')
      if g.isEmpty then none else some g
    | _ => none
  | _ => none

/-- `re.search(r"filename[*]?=([^;]+)", s)`: the capture group of the
leftmost match. -/
def reSearchFilename : List Char → Option (List Char)
  | [] => none
  | c :: cs =>
    match matchFilenameAt (c :: cs) with
    | some g => some g
    | none => reSearchFilename cs

/-- Python `.strip("'\"")` used on the matched filename. -/
def stripQuotes (l : List Char) : List Char :=
  stripCharsList [Char.ofNat 39, Char.ofNat 34] l

/-- Lines 72-82 of `get_file_extension_from_headers`: the extension taken
from the `Content-Disposition` header, when the header is present, carries
a `filename`, and that filename has a non-empty extension. -/
def dispositionExt (cd : String) : Option String :=
  if cd = "" then none
  else
    match reSearchFilename cd.data with
    | some g =>
      let fn := stripQuotes g
      let ext := (splitextList fn).2
      if ext.isEmpty then none else some (pyLower ⟨ext⟩)
    | none => none

/-- `get_file_extension_from_headers` from `download_material.py` lines
70-89.  The `headers` mapping is represented by the value of its
`Content-Disposition` key, with `""` when the header is absent (the
function reads no other header, and `headers.get` defaults to `""`). -/
def get_file_extension_from_headers (cd url : String)
    (default_ext : String := ".pdf") : String :=
  match dispositionExt cd with
  | some e => e
  | none =>
    let urlExt := (splitext url).2
    if urlExt = "" then default_ext else pyLower urlExt

/-- The lower-cased extension of the URL as computed by lines 83-86, as an
option: `none` when `os.path.splitext(url)[1]` is empty. -/
def urlExtLower (url : String) : Option String :=
  if (splitext url).2 = "" then none else some (pyLower (splitext url).2)

/-! ## Decimal rendering of the collision counter

`f"{filename}_{counter}{extension}"` renders `counter` in decimal, i.e. via
`Nat.repr`.  We characterise `Nat.repr` by a structural function and prove
it injective; injectivity feeds the pigeonhole argument that bounds the
collision-resolution loop. -/

/-- The decimal digit characters of `n`, most significant first. -/
def decDigits (n : Nat) : List Char :=
  if n < 10 then [Nat.digitChar n]
  else decDigits (n / 10) ++ [Nat.digitChar (n % 10)]
decreasing_by
  exact Nat.div_lt_self (by omega) (by omega)

/-- The numeric value of a decimal digit character. -/
def digitVal (c : Char) : Nat := c.toNat - 48

/-! ## `get_unique_filename` (collision resolver)

`download_material.py` lines 92-108.  The filesystem snapshot is a list of
the paths that exist.  The unbounded `while` loop is modelled with explicit
fuel `|fs| + 1`; the pigeonhole lemma below shows this fuel always suffices,
so the model computes exactly the loop's result (the first free counter). -/

/-- The candidate file name for counter `m`: `f"{filename}_{m}{extension}"`
with `filename, extension = os.path.splitext(os.path.basename(filepath))`. -/
def uniqueCandName (fp : String) (m : Nat) : String :=
  (splitext (basename fp)).1 ++ "_" ++ Nat.repr m ++ (splitext (basename fp)).2

/-- The candidate path for counter `m`:
`os.path.join(directory, f"{filename}_{m}{extension}")`. -/
def uniqueCand (fp : String) (m : Nat) : String :=
  joinPath (dirname fp) (uniqueCandName fp m)

/-- The `while True` search loop of `get_unique_filename`, with fuel. -/
def searchUnique (fs : List String) (fp : String) : Nat → Nat → String
  | 0, c => uniqueCand fp c
  | fuel + 1, c =>
    if uniqueCand fp c ∈ fs then searchUnique fs fp fuel (c + 1)
    else uniqueCand fp c

/-- `get_unique_filename(filepath)` against the filesystem snapshot `fs`
(the list of existing paths, i.e. `os.path.exists` is list membership). -/
def get_unique_filename (fs : List String) (fp : String) : String :=
  if fp ∈ fs then searchUnique fs fp (fs.length + 1) 2 else fp

/-! ## Data model of the traversal

The remote hierarchy (course → units → topics → materials) is modelled by
the data the collaborator calls return; network transfers by a `fetch`
oracle returning status code, `Content-Disposition` value and body (the
body is an abstract page list); and `PdfMerger.append` success by an
`appendOk` oracle on the appended file's content. -/

structure Material where
  title : String
  url : String
deriving DecidableEq

structure MTopic where
  title : String
  materials : List Material
deriving DecidableEq

structure MUnit where
  title : String
  topics : List MTopic
deriving DecidableEq

structure Env where
  units : List MUnit
  fetch : String → Nat × String × List Nat
  appendOk : List Nat → Bool

/-- All materials of a unit, in listing order (topics in listing order,
materials in listing order within each topic). -/
def unitMaterials (u : MUnit) : List Material :=
  u.topics.flatMap (fun t => t.materials)

/-- All materials of the run, in traversal order. -/
def allMaterials (env : Env) : List Material :=
  env.units.flatMap unitMaterials

/-- `download_file(session, url, dest)` without the write: the returned
headers (`none` on a non-200 status, in which case nothing is written) and
the lines printed. -/
def download_file (env : Env) (url : String) :
    Option (String × List Nat) × List String :=
  let r := env.fetch url
  if r.1 = 200 then (some (r.2.1, r.2.2), [])
  else (none, ["Failed to download " ++ url ++ " (status " ++ Nat.repr r.1 ++ ")"])

/-! ## Filesystem model

An association list from paths to contents; `fsWrite` models
`open(dest, "wb").write` (create or overwrite), `fsRename` models
`os.rename`, `fsErase` models `os.remove`. -/

abbrev Fs := List (String × List Nat)

def fsErase (fs : Fs) (p : String) : Fs :=
  fs.filter (fun e => e.1 ≠ p)

def fsWrite (fs : Fs) (p : String) (c : List Nat) : Fs :=
  (p, c) :: fsErase fs p

def fsGet (fs : Fs) (p : String) : Option (List Nat) :=
  (fs.find? (fun e => e.1 = p)).map (fun e => e.2)

def fsKeys (fs : Fs) : List String :=
  fs.map (fun e => e.1)

/-- `os.rename(src, dst)`.  In the modelled runs the source always exists;
the `none` case is unreachable there. -/
def fsRename (fs : Fs) (src dst : String) : Fs :=
  match fsGet fs src with
  | some c => fsWrite (fsErase fs src) dst c
  | none => fs

/-- `os.makedirs(d, exist_ok=True)` on the set of created directories. -/
def insertDir (dirs : List String) (d : String) : List String :=
  if d ∈ dirs then dirs else dirs ++ [d]

/-- The sanitized stripped title `sanitize_filename(material.title.strip())`. -/
def safeOf (m : Material) : String :=
  sanitize_filename (pyStripWS m.title)

/-- `os.path.splitext(material.url)[1] or ".pdf"` from
`download_using_lib.py` lines 117 and 132. -/
def libExt (m : Material) : String :=
  let e := (splitext m.url).2
  if e = "" then ".pdf" else e

/-- `f"{safe_title}{ext}"` from `download_using_lib.py` lines 119 and 136. -/
def libDest (m : Material) : String :=
  safeOf m ++ libExt m

/-! ## `download_material.py`, folder mode (lines 151-197) -/

/-- State of the folder-mode run of `download_material.py`: created
directories, the filesystem, the printed download failures, and (ghost
instrumentation) the list of `unique_final_path` values of the successful
placements, in placement order. -/
structure DmFolderSt where
  dirs : List String
  fs : Fs
  failLog : List String
  placed : List String
deriving DecidableEq

/-- Lines 161-197: one material of one topic, folder mode. -/
def dmFolderMaterial (env : Env) (topicFolder : String)
    (st : DmFolderSt) (m : Material) : DmFolderSt :=
  let safe := safeOf m
  let tempPath := joinPath topicFolder ("temp_" ++ safe)
  match download_file env m.url with
  | (none, msgs) => { st with failLog := st.failLog ++ msgs }
  | (some (cd, body), _) =>
    let fs1 := fsWrite st.fs tempPath body
    let actualExt := get_file_extension_from_headers cd m.url
    let finalExt := if pyLower actualExt = ".ppt" then ".pptx" else actualExt
    let finalPath := joinPath topicFolder (safe ++ finalExt)
    let uniquePath := get_unique_filename (fsKeys fs1) finalPath
    { st with
        fs := fsRename fs1 tempPath uniquePath
        placed := st.placed ++ [uniquePath] }

/-- Lines 157-197: one topic, folder mode. -/
def dmFolderTopic (env : Env) (unitFolder : String)
    (st : DmFolderSt) (t : MTopic) : DmFolderSt :=
  let topicFolder := joinPath unitFolder (sanitize_filename (pyStripWS t.title))
  let st1 := { st with dirs := insertDir st.dirs topicFolder }
  t.materials.foldl (dmFolderMaterial env topicFolder) st1

/-- Lines 153-197: one unit, folder mode. -/
def dmFolderUnit (env : Env) (outputName : String)
    (st : DmFolderSt) (u : MUnit) : DmFolderSt :=
  let unitFolder := joinPath outputName (sanitize_filename (pyStripWS u.title))
  let st1 := { st with dirs := insertDir st.dirs unitFolder }
  u.topics.foldl (dmFolderTopic env unitFolder) st1

/-- The folder-mode run of `download_material.py` (lines 151-197). -/
def dmRunFolder (env : Env) (outputName : String) : DmFolderSt :=
  env.units.foldl (dmFolderUnit env outputName)
    { dirs := [outputName], fs := [], failLog := [], placed := [] }

/-! ## `download_material.py`, merge mode (lines 198-276)

`tempfile.TemporaryDirectory()` yields a fresh directory distinct from the
output directory, shared by all units; scratch files are modelled by their
file names inside that directory (every scratch path is
`os.path.join(tmpdir, name)`, and joining a fixed directory with slash-free
names is injective), and the per-unit merged outputs by a list of written
`(file name, merged document)` pairs aligned with the unit list. -/

/-- State while processing the materials of one unit in merge mode. -/
structure DmUnitSt where
  scratch : Fs
  pdfPaths : List String
  failLog : List String
  placedPdf : List String
deriving DecidableEq

/-- Lines 206-249: one material, merge mode.  `placedPdf` is ghost
instrumentation recording the unique paths of the placements that survive
classification (`.pdf`), across all units. -/
def dmMergeMaterial (env : Env) (st : DmUnitSt) (m : Material) : DmUnitSt :=
  let safe := safeOf m
  let tempName := "temp_" ++ safe
  match download_file env m.url with
  | (none, msgs) => { st with failLog := st.failLog ++ msgs }
  | (some (cd, body), _) =>
    let scratch1 := fsWrite st.scratch tempName body
    let actualExt := get_file_extension_from_headers cd m.url
    let actualName := safe ++ actualExt
    let uniqueName := get_unique_filename (fsKeys scratch1) actualName
    let scratch2 := fsRename scratch1 tempName uniqueName
    if pyLower actualExt = ".pptx" ∨ pyLower actualExt = ".ppt" then
      { st with scratch := fsErase scratch2 uniqueName }
    else if pyLower actualExt = ".pdf" then
      { st with
          scratch := scratch2
          pdfPaths := st.pdfPaths ++ [uniqueName]
          placedPdf := st.placedPdf ++ [uniqueName] }
    else
      { st with scratch := fsErase scratch2 uniqueName }

/-- Lines 257-263: one `merger.append(pdf)` with its `try`/`except`.  The
accumulator holds the merged pages and `successful_merges`. -/
def dmMergeAppend (env : Env) (scratch : Fs)
    (acc : List Nat × Nat) (p : String) : List Nat × Nat :=
  match fsGet scratch p with
  | some c => if env.appendOk c then (acc.1 ++ c, acc.2 + 1) else acc
  | none => acc

/-- State of the whole merge-mode run: the scratch directory, one optional
`(unit pdf name, merged pages)` write per unit, the printed download
failures, and the ghost `placedPdf` list. -/
structure DmMergeSt where
  scratch : Fs
  outWrites : List (Option (String × List Nat))
  failLog : List String
  placedPdf : List String
deriving DecidableEq

/-- Lines 201-276: one unit, merge mode. -/
def dmMergeUnit (env : Env) (st : DmMergeSt) (u : MUnit) : DmMergeSt :=
  let ust0 : DmUnitSt :=
    { scratch := st.scratch, pdfPaths := [], failLog := st.failLog,
      placedPdf := st.placedPdf }
  let ust := (unitMaterials u).foldl (dmMergeMaterial env) ust0
  if ust.pdfPaths = [] then
    { scratch := ust.scratch, outWrites := st.outWrites ++ [none],
      failLog := ust.failLog, placedPdf := ust.placedPdf }
  else
    let merged := ust.pdfPaths.foldl (dmMergeAppend env ust.scratch) ([], 0)
    if merged.2 = 0 then
      { scratch := ust.scratch, outWrites := st.outWrites ++ [none],
        failLog := ust.failLog, placedPdf := ust.placedPdf }
    else
      { scratch := ust.scratch,
        outWrites := st.outWrites ++
          [some (sanitize_filename (pyStripWS u.title) ++ ".pdf", merged.1)],
        failLog := ust.failLog, placedPdf := ust.placedPdf }

/-- The merge-mode run of `download_material.py` (lines 198-276). -/
def dmRunMerge (env : Env) : DmMergeSt :=
  env.units.foldl (dmMergeUnit env)
    { scratch := [], outWrites := [], failLog := [], placedPdf := [] }

/-! ## `download_using_lib.py`, folder mode (lines 106-122) -/

structure LibFolderSt where
  dirs : List String
  fs : Fs
  failLog : List String
  dests : List String
deriving DecidableEq

/-- Lines 116-122: one material, folder mode of `download_using_lib.py`.
`dests` is ghost instrumentation recording the `dest_path` of every
successful download, in order. -/
def libFolderMaterial (env : Env) (topicFolder : String)
    (st : LibFolderSt) (m : Material) : LibFolderSt :=
  let dest := joinPath topicFolder (libDest m)
  match download_file env m.url with
  | (none, msgs) => { st with failLog := st.failLog ++ msgs }
  | (some (_, body), _) =>
    { st with fs := fsWrite st.fs dest body, dests := st.dests ++ [dest] }

def libFolderTopic (env : Env) (unitFolder : String)
    (st : LibFolderSt) (t : MTopic) : LibFolderSt :=
  let topicFolder := joinPath unitFolder (sanitize_filename (pyStripWS t.title))
  let st1 := { st with dirs := insertDir st.dirs topicFolder }
  t.materials.foldl (libFolderMaterial env topicFolder) st1

def libFolderUnit (env : Env) (outputName : String)
    (st : LibFolderSt) (u : MUnit) : LibFolderSt :=
  let unitFolder := joinPath outputName (sanitize_filename (pyStripWS u.title))
  let st1 := { st with dirs := insertDir st.dirs unitFolder }
  u.topics.foldl (libFolderTopic env unitFolder) st1

/-- The folder-mode run of `download_using_lib.py` (lines 106-122). -/
def libRunFolder (env : Env) (outputName : String) : LibFolderSt :=
  env.units.foldl (libFolderUnit env outputName)
    { dirs := [outputName], fs := [], failLog := [], dests := [] }

/-! ## `download_using_lib.py`, merge mode (lines 123-151)

The `merger.append(pdf)` calls of this script are not wrapped in
`try`/`except`: a missing file (failed download) or a failing append raises
an uncaught exception that aborts the whole run.  `aborted` records this;
after an abort no further unit produces output. -/

/-- Lines 131-140: one material.  The state is
(scratch, unit_pdf_paths, failure log).  Note the `dest_path` is appended
to `unit_pdf_paths` whether or not the download succeeded. -/
def libMergeMaterial (env : Env)
    (st : Fs × List String × List String) (m : Material) :
    Fs × List String × List String :=
  if pyLower (libExt m) ≠ ".pdf" then st
  else
    let dest := libDest m
    match download_file env m.url with
    | (none, msgs) => (st.1, st.2.1 ++ [dest], st.2.2 ++ msgs)
    | (some (_, body), _) =>
      (fsWrite st.1 dest body, st.2.1 ++ [dest], st.2.2)

/-- Lines 145-146: append every recorded path; `none` models the uncaught
exception (missing file or failed append). -/
def libMergeAppendAll (env : Env) (scratch : Fs) :
    List String → Option (List Nat)
  | [] => some []
  | p :: ps =>
    match fsGet scratch p with
    | none => none
    | some c =>
      if env.appendOk c then (libMergeAppendAll env scratch ps).map (fun d => c ++ d)
      else none

structure LibMergeSt where
  scratch : Fs
  outWrites : List (Option (String × List Nat))
  failLog : List String
  aborted : Bool
deriving DecidableEq

/-- Lines 126-151: one unit of the merge-mode run.  Once aborted, nothing
further executes (the entry stays `none`). -/
def libMergeUnit (env : Env) (st : LibMergeSt) (u : MUnit) : LibMergeSt :=
  if st.aborted then { st with outWrites := st.outWrites ++ [none] }
  else
    let r := (unitMaterials u).foldl (libMergeMaterial env)
      (st.scratch, [], st.failLog)
    if r.2.1 = [] then
      { scratch := r.1, outWrites := st.outWrites ++ [none],
        failLog := r.2.2, aborted := false }
    else
      match libMergeAppendAll env r.1 r.2.1 with
      | none =>
        { scratch := r.1, outWrites := st.outWrites ++ [none],
          failLog := r.2.2, aborted := true }
      | some pages =>
        { scratch := r.1,
          outWrites := st.outWrites ++
            [some (sanitize_filename (pyStripWS u.title) ++ ".pdf", pages)],
          failLog := r.2.2, aborted := false }

/-- The merge-mode run of `download_using_lib.py` (lines 123-151). -/
def libRunMerge (env : Env) : LibMergeSt :=
  env.units.foldl (libMergeUnit env)
    { scratch := [], outWrites := [], failLog := [], aborted := false }

/-! ## Specification-side derived definitions

These re-state, per material, what the runs compute, and are used to phrase
the run invariants. -/

/-- The resolved extension of a fetched material (the `".pdf"` default is a
dummy for unfetched materials, whose extension is never computed). -/
def extOf (env : Env) (m : Material) : String :=
  match (download_file env m.url).1 with
  | some (cd, _) => get_file_extension_from_headers cd m.url
  | none => ".pdf"

/-- The extension used in the final file name of folder mode
(`.ppt` normalised to `.pptx`, lines 178-182). -/
def dmFinalExt (env : Env) (m : Material) : String :=
  if pyLower (extOf env m) = ".ppt" then ".pptx" else extOf env m

/-- The final file name computed at line 185:
`f"{safe_title}{final_ext}"` (before collision resolution). -/
def dmFinalFilename (env : Env) (m : Material) : String :=
  safeOf m ++ dmFinalExt env m

/-- The scratch name a fetched material is renamed to in merge mode, when
no collision occurs: `f"{safe_title}{actual_ext}"` (line 223). -/
def eNameOf (env : Env) (m : Material) : String :=
  safeOf m ++ extOf env m

/-- The scratch entry a material contributes in merge mode of
`download_material.py`: its name and content if it is fetched and
classified `.pdf`, nothing otherwise. -/
def dmStepSpec (env : Env) (m : Material) : Option (String × List Nat) :=
  match (download_file env m.url).1 with
  | none => none
  | some (cd, body) =>
    let ext := get_file_extension_from_headers cd m.url
    if pyLower ext = ".pdf" then some (safeOf m ++ ext, body) else none

/-- The pages a material contributes to its unit's merged document:
defined when it is fetched, classified `.pdf`, and its append succeeds. -/
def mergeContrib (env : Env) (m : Material) : Option (List Nat) :=
  match dmStepSpec env m with
  | some e => if env.appendOk e.2 then some e.2 else none
  | none => none

/-- The expected per-unit output of merge mode of `download_material.py`:
no file when no append succeeds, otherwise the unit's pdf name and the
concatenation, in listing order, of the contributing materials' pages. -/
def dmUnitWriteSpec (env : Env) (u : MUnit) : Option (String × List Nat) :=
  if (unitMaterials u).filterMap (mergeContrib env) = [] then none
  else
    some (sanitize_filename (pyStripWS u.title) ++ ".pdf",
      ((unitMaterials u).filterMap (mergeContrib env)).flatten)

/-- Whether `download_using_lib.py`'s merge mode treats the material as a
pdf (by its URL extension, line 133). -/
def libPdfIsh (m : Material) : Prop := pyLower (libExt m) = ".pdf"

instance (m : Material) : Decidable (libPdfIsh m) := by
  unfold libPdfIsh; infer_instance

/-- The path recorded into `unit_pdf_paths` (recorded regardless of the
download outcome). -/
def libRecord (m : Material) : Option String :=
  if libPdfIsh m then some (libDest m) else none

/-- The scratch file written by `download_using_lib.py`'s merge mode. -/
def libPlace (env : Env) (m : Material) : Option (String × List Nat) :=
  if libPdfIsh m then
    (download_file env m.url).1.map (fun r => (libDest m, r.2))
  else none

/-- The pages a material contributes to its unit's merged document in
`download_using_lib.py`: URL classified `.pdf`, fetched, append succeeds. -/
def libContrib (env : Env) (m : Material) : Option (List Nat) :=
  if libPdfIsh m then
    match (download_file env m.url).1 with
    | some r => if env.appendOk r.2 then some r.2 else none
    | none => none
  else none

/-- Whether the merge step of a unit raises in `download_using_lib.py`:
some path was recorded and some recorded material is missing or fails to
append. -/
def libUnitAborts (env : Env) (u : MUnit) : Prop :=
  (unitMaterials u).filterMap libRecord ≠ [] ∧
  ¬ (∀ m ∈ unitMaterials u, libPdfIsh m → libContrib env m ≠ none)

instance (env : Env) (u : MUnit) : Decidable (libUnitAborts env u) := by
  unfold libUnitAborts; infer_instance

/-- The expected output of a single non-aborted unit of merge mode of
`download_using_lib.py`: no file when no path was recorded or when the
merge raises, otherwise the unit's pdf name and the concatenation, in
listing order, of the contributing materials' pages. -/
def libUnitWrite (env : Env) (u : MUnit) : Option (String × List Nat) :=
  if (unitMaterials u).filterMap libRecord = [] then none
  else if ∀ m ∈ unitMaterials u, libPdfIsh m → libContrib env m ≠ none then
    some (sanitize_filename (pyStripWS u.title) ++ ".pdf",
      ((unitMaterials u).filterMap (libContrib env)).flatten)
  else none

/-- The expected per-unit outputs of merge mode of `download_using_lib.py`,
with the abort cut-off: after the first aborting unit nothing is written. -/
def libWritesSpec (env : Env) : List MUnit → List (Option (String × List Nat))
  | [] => []
  | u :: us =>
    libUnitWrite env u ::
      (if libUnitAborts env u then us.map (fun _ => none)
       else libWritesSpec env us)

/-- Whether some unit aborts the merge-mode run of `download_using_lib.py`. -/
def libAbortedSpec (env : Env) : List MUnit → Bool
  | [] => false
  | u :: us =>
    if libUnitAborts env u then true else libAbortedSpec env us

/-- Shape of every resolved extension: a dot followed by characters that
contain neither a dot nor a slash. -/
def ExtShape (e : String) : Prop :=
  ∃ cs, e.data = '.' :: cs ∧ '.' ∉ cs ∧ '/' ∉ cs

/-- The staging marker `temp_` as a character list. -/
def tempMark : List Char := ['t', 'e', 'm', 'p', '_']

/-- The hypothesis under which staging temp files cannot collide with
placed files: the sanitized title, followed by `_`, does not start with
`temp_` (i.e. the title is neither `temp` nor starts with `temp_`). -/
def TempFree (m : Material) : Prop :=
  ¬ tempMark <+: (safeOf m ++ "_").data

instance (m : Material) : Decidable (TempFree m) := by
  unfold TempFree; infer_instance

/-- Invariant threaded through the folder-mode run of
`download_material.py`: the placed final paths are pairwise distinct,
each is still present in the filesystem, and no placed path's base name
starts with the staging marker `temp_`. -/
def DmPlacedInv (st : DmFolderSt) : Prop :=
  st.placed.Nodup ∧
  (∀ p ∈ st.placed, p ∈ fsKeys st.fs) ∧
  (∀ p ∈ st.placed, ¬ tempMark <+: (basename p).data)

/-- Invariant threaded through the merge-mode run of
`download_material.py` (scratch files are bare names inside `tmpdir`):
the placed pdf names are pairwise distinct, each is still present in the
scratch directory, and none starts with the staging marker `temp_`. -/
def DmPdfInv (scratch : Fs) (placedPdf : List String) : Prop :=
  placedPdf.Nodup ∧
  (∀ p ∈ placedPdf, p ∈ fsKeys scratch) ∧
  (∀ p ∈ placedPdf, ¬ tempMark <+: p.data)

/-! ## Concrete inputs for the counterexamples and witnesses -/

/-- Two materials with the same title `"a"` (hence the same sanitized
title) in one unit; the first body is page `[1]`, the second `[2]`. -/
def dupEnv : Env :=
  { units := [⟨"U", [⟨"T", [⟨"a", "x/a1.pdf"⟩, ⟨"a", "x/a2.pdf"⟩]⟩]⟩],
    fetch := fun url =>
      if url = "x/a1.pdf" then (200, "", [1])
      else if url = "x/a2.pdf" then (200, "", [2])
      else (404, "", []),
    appendOk := fun _ => true }

/-- Unit 1 has a single material whose fetch fails (status 404); unit 2 has
a single healthy material. -/
def failEnv : Env :=
  { units := [⟨"U1", [⟨"T", [⟨"a", "x/a.pdf"⟩]⟩]⟩,
              ⟨"U2", [⟨"T", [⟨"b", "x/b.pdf"⟩]⟩]⟩],
    fetch := fun url =>
      if url = "x/b.pdf" then (200, "", [2]) else (404, "", []),
    appendOk := fun _ => true }

/-- A small healthy environment: one unit, one topic, two distinct
materials. -/
def okEnv : Env :=
  { units := [⟨"U", [⟨"T", [⟨"a", "x/a.pdf"⟩, ⟨"b", "x/b.pdf"⟩]⟩]⟩],
    fetch := fun url =>
      if url = "x/a.pdf" then (200, "", [1])
      else if url = "x/b.pdf" then (200, "", [2])
      else (404, "", []),
    appendOk := fun _ => true }

/-- An environment where every fetch fails. -/
def allFailEnv : Env :=
  { units := [⟨"U", [⟨"T", [⟨"a", "x/a.pdf"⟩]⟩, ⟨"T2", []⟩]⟩],
    fetch := fun _ => (500, "", []),
    appendOk := fun _ => true }

/-- 256 copies of `a`: an input long enough to trigger truncation. -/
def longA : String := ⟨List.replicate 256 'a'⟩

/-- A material whose URL carries a query string after the extension. -/
def queryMat : Material := ⟨"notes", "http://x/a.pdf?y=1"⟩

/-- An environment serving `queryMat` with no `Content-Disposition`. -/
def queryEnv : Env :=
  { units := [⟨"U", [⟨"T", [queryMat]⟩]⟩],
    fetch := fun _ => (200, "", [1]),
    appendOk := fun _ => true }

/-! # Theorems -/

example : sanitize_filename "Lecture/1" = "Lecture_1" := by decide
example : sanitize_filename " con " = "file_con" := by decide
example : sanitize_filename "  " = "unnamed" := by decide
example : sanitize_filename "" = "unnamed" := by decide
example : sanitize_filename "unnamed" = "unnamed" := by decide
example : splitext "http://x/slides.pptx?x=1" = ("http://x/slides", ".pptx?x=1") := by decide
example : splitext "notes.docx" = ("notes", ".docx") := by decide
example : splitext "a/.bashrc" = ("a/.bashrc", "") := by decide
example : splitext "a.b/c" = ("a.b/c", "") := by decide
example : basename "a/b/c.pdf" = "c.pdf" := by decide
example : dirname "a/b/c.pdf" = "a/b" := by decide
example : dirname "c.pdf" = "" := by decide
example : joinPath "" "x.pdf" = "x.pdf" := by decide
example : joinPath "a/b" "x.pdf" = "a/b/x.pdf" := by decide
example :
    get_file_extension_from_headers "attachment; filename=\"notes.docx\"" "http://h/x.bin" = ".docx" := by
  decide
example :
    get_file_extension_from_headers "" "http://x/slides.pptx?x=1" = ".pptx?x=1" := by
  decide
example : get_file_extension_from_headers "" "http://x/file" = ".pdf" := by decide
example : get_unique_filename ["a.pdf", "a_2.pdf"] "a.pdf" = "a_3.pdf" := by decide
example : get_unique_filename ["b.pdf"] "a.pdf" = "a.pdf" := by decide
example : get_unique_filename ["d/a.x.pdf"] "d/a.x.pdf" = "d/a.x_2.pdf" := by decide

theorem decDigits_lt (n : Nat) (h : n < 10) : decDigits n = [Nat.digitChar n] := by
  rw [decDigits, if_pos h]

theorem decDigits_ge (n : Nat) (h : ¬ n < 10) :
    decDigits n = decDigits (n / 10) ++ [Nat.digitChar (n % 10)] := by
  conv_lhs => rw [decDigits]
  rw [if_neg h]

theorem toDigitsCore_eq_decDigits :
    ∀ (f n : Nat) (acc : List Char), n < f →
      Nat.toDigitsCore 10 f n acc = decDigits n ++ acc := by
  intro f
  induction f with
  | zero => intro n acc h; omega
  | succ f ih =>
    intro n acc _h
    rw [Nat.toDigitsCore]
    by_cases h10 : n / 10 = 0
    · have hn10 : n < 10 := by omega
      simp only [h10, if_true]
      rw [decDigits_lt n hn10, Nat.mod_eq_of_lt hn10]
      simp
    · have hn10 : ¬ n < 10 := by
        intro hc
        exact h10 (Nat.div_eq_of_lt hc)
      simp only [h10, if_false]
      have hdivlt : n / 10 < f := by
        have h1 : n / 10 < n := Nat.div_lt_self (by omega) (by omega)
        omega
      rw [ih (n / 10) _ hdivlt, decDigits_ge n hn10]
      simp

theorem digitVal_digitChar (n : Nat) (h : n < 10) :
    digitVal (Nat.digitChar n) = n := by
  interval_cases n <;> decide

theorem decDigits_eval (n : Nat) :
    (decDigits n).foldl (fun a c => 10 * a + digitVal c) 0 = n := by
  induction n using Nat.strong_induction_on with
  | _ n ih =>
    by_cases h : n < 10
    · rw [decDigits_lt n h]
      simp [digitVal_digitChar n h]
    · rw [decDigits_ge n h]
      rw [List.foldl_append]
      have hdiv : n / 10 < n := Nat.div_lt_self (by omega) (by omega)
      rw [ih (n / 10) hdiv]
      simp only [List.foldl_cons, List.foldl_nil]
      rw [digitVal_digitChar (n % 10) (Nat.mod_lt n (by omega))]
      omega

theorem decDigits_injective : Function.Injective decDigits := by
  intro a b h
  have := decDigits_eval a
  rw [h, decDigits_eval b] at this
  omega

theorem natRepr_eq (n : Nat) : Nat.repr n = ⟨decDigits n⟩ := by
  show (Nat.toDigits 10 n).asString = _
  rw [Nat.toDigits, toDigitsCore_eq_decDigits (n + 1) n [] (by omega)]
  simp [List.asString]

theorem natRepr_injective : Function.Injective Nat.repr := by
  intro a b h
  rw [natRepr_eq, natRepr_eq] at h
  exact decDigits_injective (congrArg String.data h)

theorem uniqueCandName_head (fp : String) (m : Nat) :
    (uniqueCandName fp m).data.head? =
      ((splitext (basename fp)).1.data.head?).getD '_' := by
  show ((splitext (basename fp)).1 ++ "_" ++ Nat.repr m ++
      (splitext (basename fp)).2).data.head? = _
  rw [String.data_append, String.data_append, String.data_append]
  cases h : (splitext (basename fp)).1.data with
  | nil => simp [h]
  | cons c cs => simp [h]

theorem append_inj_of_append {s t : List Char} {x y : List Char}
    (h : s ++ x ++ t = s ++ y ++ t) : x = y := by
  have h1 : s ++ (x ++ t) = s ++ (y ++ t) := by
    simpa [List.append_assoc] using h
  have h2 := List.append_cancel_left h1
  exact List.append_cancel_right h2

theorem uniqueCandName_injective (fp : String) :
    Function.Injective (uniqueCandName fp) := by
  intro m₁ m₂ h
  apply natRepr_injective
  apply String.ext
  have hd := congrArg String.data h
  show (Nat.repr m₁).data = (Nat.repr m₂).data
  apply append_inj_of_append (s := ((splitext (basename fp)).1 ++ "_").data)
    (t := (splitext (basename fp)).2.data)
  simpa [uniqueCandName, String.data_append, List.append_assoc] using hd

theorem joinPath_inj_same_head {a b₁ b₂ : String}
    (hh : b₁.data.head? = b₂.data.head?)
    (h : joinPath a b₁ = joinPath a b₂) : b₁ = b₂ := by
  unfold joinPath at h
  rw [hh] at h
  by_cases h1 : b₂.data.head? = some '/'
  · rw [if_pos h1, if_pos h1] at h
    exact h
  · rw [if_neg h1, if_neg h1] at h
    by_cases h2 : a = "" ∨ a.data.getLast? = some '/'
    · rw [if_pos h2, if_pos h2] at h
      apply String.ext
      have := congrArg String.data h
      rw [String.data_append, String.data_append] at this
      exact List.append_cancel_left this
    · rw [if_neg h2, if_neg h2] at h
      apply String.ext
      have := congrArg String.data h
      simpa [String.data_append, List.append_assoc] using this

theorem uniqueCand_injective (fp : String) :
    Function.Injective (uniqueCand fp) := by
  intro m₁ m₂ h
  apply uniqueCandName_injective fp
  exact joinPath_inj_same_head
    (by rw [uniqueCandName_head, uniqueCandName_head]) h

theorem exists_free_uniqueCand (fs : List String) (fp : String) :
    ∃ k, k < fs.length + 1 ∧ uniqueCand fp (2 + k) ∉ fs := by
  by_contra hc
  push_neg at hc
  have hinj : Function.Injective (fun k => uniqueCand fp (2 + k)) := by
    intro k₁ k₂ h
    have := uniqueCand_injective fp h
    omega
  have hnodup : ((List.range (fs.length + 1)).map
      (fun k => uniqueCand fp (2 + k))).Nodup :=
    (List.nodup_range _).map hinj
  have hlen : ((List.range (fs.length + 1)).map
      (fun k => uniqueCand fp (2 + k))).length = fs.length + 1 := by
    simp
  have hsub : ((List.range (fs.length + 1)).map
      (fun k => uniqueCand fp (2 + k))).toFinset ⊆ fs.toFinset := by
    intro x hx
    rw [List.mem_toFinset] at hx ⊢
    obtain ⟨k, hk, rfl⟩ := List.mem_map.mp hx
    exact hc k (by simpa using List.mem_range.mp hk)
  have h1 := Finset.card_le_card hsub
  rw [List.toFinset_card_of_nodup hnodup, hlen] at h1
  have h2 := List.toFinset_card_le fs
  omega

theorem searchUnique_spec (fs : List String) (fp : String) :
    ∀ (fuel c : Nat), (∃ k, k < fuel ∧ uniqueCand fp (c + k) ∉ fs) →
      ∃ m, searchUnique fs fp fuel c = uniqueCand fp m ∧ c ≤ m ∧
        uniqueCand fp m ∉ fs ∧ ∀ j, c ≤ j → j < m → uniqueCand fp j ∈ fs := by
  intro fuel
  induction fuel with
  | zero =>
    intro c hex
    obtain ⟨k, hk, _⟩ := hex
    omega
  | succ fuel ih =>
    intro c hex
    rw [searchUnique]
    by_cases hc : uniqueCand fp c ∈ fs
    · rw [if_pos hc]
      obtain ⟨k, hk, hfree⟩ := hex
      have hk0 : k ≠ 0 := by
        intro h0
        rw [h0] at hfree
        simp at hfree
        exact hfree hc
      obtain ⟨m, hm1, hm2, hm3, hm4⟩ := ih (c + 1)
        ⟨k - 1, by omega, by
          have : c + 1 + (k - 1) = c + k := by omega
          rw [this]; exact hfree⟩
      refine ⟨m, hm1, by omega, hm3, ?_⟩
      intro j hj1 hj2
      rcases Nat.eq_or_lt_of_le hj1 with h | h
      · rw [← h]; exact hc
      · exact hm4 j (by omega) hj2
    · rw [if_neg hc]
      exact ⟨c, rfl, le_refl c, hc, by omega⟩

theorem get_unique_filename_spec (fs : List String) (fp : String)
    (h : fp ∈ fs) :
    ∃ m, 2 ≤ m ∧ get_unique_filename fs fp = uniqueCand fp m ∧
      uniqueCand fp m ∉ fs ∧ ∀ j, 2 ≤ j → j < m → uniqueCand fp j ∈ fs := by
  rw [get_unique_filename, if_pos h]
  obtain ⟨k, hk, hfree⟩ := exists_free_uniqueCand fs fp
  obtain ⟨m, hm1, hm2, hm3, hm4⟩ :=
    searchUnique_spec fs fp (fs.length + 1) 2 ⟨k, hk, hfree⟩
  exact ⟨m, hm2, hm1, hm3, hm4⟩

theorem get_unique_filename_not_mem (fs : List String) (fp : String) :
    get_unique_filename fs fp ∉ fs := by
  by_cases h : fp ∈ fs
  · obtain ⟨m, _, heq, hfree, _⟩ := get_unique_filename_spec fs fp h
    rw [heq]
    exact hfree
  · rw [get_unique_filename, if_neg h]
    exact h

theorem get_unique_filename_of_not_mem (fs : List String) (fp : String)
    (h : fp ∉ fs) : get_unique_filename fs fp = fp := by
  rw [get_unique_filename, if_neg h]

/-! ### Properties of `strip` -/

theorem strip_subset (bad : List Char) (l : List Char) :
    ∀ c ∈ stripCharsList bad l, c ∈ l := by
  intro c hc
  unfold stripCharsList at hc
  have h1 : c ∈ (l.dropWhile (fun c => bad.contains c)).reverse.dropWhile
      (fun c => bad.contains c) := by
    simpa using hc
  have h2 : c ∈ (l.dropWhile (fun c => bad.contains c)).reverse :=
    List.IsSuffix.mem h1 (List.dropWhile_suffix _)
  have h3 : c ∈ l.dropWhile (fun c => bad.contains c) := by simpa using h2
  exact List.IsSuffix.mem h3 (List.dropWhile_suffix _)

theorem dropWhile_head_false {p : Char → Bool} :
    ∀ (l : List Char) (c : Char) (cs : List Char),
      l.dropWhile p = c :: cs → p c = false := by
  intro l
  induction l with
  | nil => intro c cs h; simp [List.dropWhile] at h
  | cons a as ih =>
    intro c cs h
    rw [List.dropWhile_cons] at h
    by_cases hp : p a
    · rw [if_pos hp] at h; exact ih c cs h
    · rw [if_neg hp] at h
      cases h
      simpa using hp

theorem strip_head_false (bad : List Char) (l : List Char) {c : Char}
    {cs : List Char} (h : stripCharsList bad l = c :: cs) :
    bad.contains c = false := by
  have hpre : stripCharsList bad l <+:
      l.dropWhile (fun c => bad.contains c) := by
    unfold stripCharsList
    have h1 : (l.dropWhile (fun c => bad.contains c)).reverse.dropWhile
        (fun c => bad.contains c) <:+
        (l.dropWhile (fun c => bad.contains c)).reverse :=
      List.dropWhile_suffix _
    have := List.reverse_prefix.mpr h1
    simpa using this
  obtain ⟨t, ht⟩ := hpre
  rw [h] at ht
  exact dropWhile_head_false l c (cs ++ t) (by rw [← ht]; simp)

theorem strip_getLast_false (bad : List Char) (l : List Char) {c : Char}
    (h : (stripCharsList bad l).getLast? = some c) :
    bad.contains c = false := by
  unfold stripCharsList at h
  rw [List.getLast?_reverse] at h
  cases hB : (l.dropWhile (fun c => bad.contains c)).reverse.dropWhile
      (fun c => bad.contains c) with
  | nil => rw [hB] at h; simp at h
  | cons b bs =>
    rw [hB] at h
    have hc : c = b := by simpa using h.symm
    rw [hc]
    exact dropWhile_head_false _ b bs hB

theorem stripCharsList_eq_self {bad l}
    (h1 : ∀ c, l.head? = some c → bad.contains c = false)
    (h2 : ∀ c, l.getLast? = some c → bad.contains c = false) :
    stripCharsList bad l = l := by
  have hd : l.dropWhile (fun c => bad.contains c) = l := by
    cases l with
    | nil => rfl
    | cons a as =>
      rw [List.dropWhile_cons,
        if_neg (by rw [h1 a rfl]; exact Bool.false_ne_true)]
  unfold stripCharsList
  rw [hd]
  have hd2 : l.reverse.dropWhile (fun c => bad.contains c) = l.reverse := by
    cases hrev : l.reverse with
    | nil => rfl
    | cons a as =>
      have hla : l.getLast? = some a := by
        rw [← List.head?_reverse, hrev]; rfl
      rw [List.dropWhile_cons,
        if_neg (by rw [h2 a hla]; exact Bool.false_ne_true)]
  rw [hd2, List.reverse_reverse]

/-! ### Properties of `sanitize_filename` -/

theorem sanitizeStripped_not_forbidden (x : String) :
    ∀ c ∈ (sanitizeStripped x).data, isForbidden c = false := by
  intro c hc
  have h1 : c ∈ (replaceForbidden x).data := strip_subset _ _ c hc
  have h1' : c ∈ x.data.map (fun c => if isForbidden c then '_' else c) := h1
  obtain ⟨a, _, ha⟩ := List.mem_map.mp h1'
  by_cases hf : isForbidden a
  · rw [if_pos hf] at ha; rw [← ha]; decide
  · rw [if_neg hf] at ha; rw [← ha]; simpa using hf

theorem sanitizeStripped_head (x : String) {c : Char} {cs : List Char}
    (h : (sanitizeStripped x).data = c :: cs) : c ≠ ' ' ∧ c ≠ '.' := by
  have := strip_head_false [' ', '.'] (replaceForbidden x).data h
  constructor <;> (intro hcc; rw [hcc] at this; simp at this)

theorem sanitizeStripped_getLast (x : String) {c : Char}
    (h : (sanitizeStripped x).data.getLast? = some c) : c ≠ ' ' ∧ c ≠ '.' := by
  have := strip_getLast_false [' ', '.'] (replaceForbidden x).data h
  constructor <;> (intro hcc; rw [hcc] at this; simp at this)

theorem sanitizePre_cases (x : String) :
    (sanitizeStripped x = "" ∧ sanitizePre x = "unnamed") ∨
    (sanitizeStripped x ≠ "" ∧ pyUpper (sanitizeStripped x) ∈ reserved_names ∧
      sanitizePre x = "file_" ++ sanitizeStripped x) ∨
    (sanitizeStripped x ≠ "" ∧ pyUpper (sanitizeStripped x) ∉ reserved_names ∧
      sanitizePre x = sanitizeStripped x) := by
  by_cases h1 : sanitizeStripped x = ""
  · left
    refine ⟨h1, ?_⟩
    unfold sanitizePre
    rw [if_pos (Or.inr h1), if_pos h1]
  · by_cases h2 : pyUpper (sanitizeStripped x) ∈ reserved_names
    · right; left
      refine ⟨h1, h2, ?_⟩
      unfold sanitizePre
      rw [if_pos (Or.inl h2), if_neg h1]
    · right; right
      refine ⟨h1, h2, ?_⟩
      unfold sanitizePre
      rw [if_neg (by tauto)]

theorem reserved_short : ∀ r ∈ reserved_names, r.length ≤ 4 := by decide

theorem pyUpper_length (s : String) : (pyUpper s).length = s.length := by
  show (s.data.map Char.toUpper).length = s.data.length
  simp

theorem length_append_str (a b : String) :
    (a ++ b).length = a.length + b.length := by
  show (a ++ b).data.length = a.data.length + b.data.length
  rw [String.data_append]
  simp

theorem sanitizePre_ne_empty (x : String) : sanitizePre x ≠ "" := by
  rcases sanitizePre_cases x with ⟨_, h⟩ | ⟨h1, _, h⟩ | ⟨h1, _, h⟩ <;> rw [h]
  · decide
  · intro hc
    have hlen := congrArg String.length hc
    rw [length_append_str] at hlen
    have h5 : ("file_" : String).length = 5 := by decide
    have h0 : ("" : String).length = 0 := by decide
    omega
  · exact h1

theorem sanitizePre_not_forbidden (x : String) :
    ∀ c ∈ (sanitizePre x).data, isForbidden c = false := by
  rcases sanitizePre_cases x with ⟨_, h⟩ | ⟨_, _, h⟩ | ⟨_, _, h⟩ <;> rw [h]
  · decide
  · intro c hc
    rw [String.data_append] at hc
    rcases List.mem_append.mp hc with h1 | h1
    · fin_cases h1 <;> decide
    · exact sanitizeStripped_not_forbidden x c h1
  · exact sanitizeStripped_not_forbidden x

theorem sanitizePre_not_reserved (x : String) :
    pyUpper (sanitizePre x) ∉ reserved_names := by
  rcases sanitizePre_cases x with ⟨_, h⟩ | ⟨h1, _, h⟩ | ⟨_, h2, h⟩ <;> rw [h]
  · decide
  · intro hc
    have hlen := reserved_short _ hc
    rw [pyUpper_length, length_append_str] at hlen
    have h5 : ("file_" : String).length = 5 := by decide
    omega
  · exact h2

theorem sanitizePre_head (x : String) {c : Char} {cs : List Char}
    (h : (sanitizePre x).data = c :: cs) : c ≠ ' ' ∧ c ≠ '.' := by
  rcases sanitizePre_cases x with ⟨_, hp⟩ | ⟨h1, _, hp⟩ | ⟨h1, _, hp⟩ <;>
      rw [hp] at h
  · have h3 : some 'u' = some c := congrArg List.head? h
    rw [← Option.some.inj h3]; decide
  · rw [String.data_append] at h
    have h3 : some 'f' = some c := congrArg List.head? h
    rw [← Option.some.inj h3]; decide
  · exact sanitizeStripped_head x h

theorem sanitizePre_getLast (x : String) {c : Char}
    (h : (sanitizePre x).data.getLast? = some c) : c ≠ ' ' ∧ c ≠ '.' := by
  rcases sanitizePre_cases x with ⟨_, hp⟩ | ⟨h1, _, hp⟩ | ⟨h1, _, hp⟩ <;>
      rw [hp] at h
  · have h3 : some c = some 'd' := by rw [← h]; decide
    rw [Option.some.inj h3]; decide
  · rw [String.data_append] at h
    have hne : (sanitizeStripped x).data ≠ [] := by
      intro hc
      exact h1 (String.ext hc)
    rw [List.getLast?_append_of_ne_nil _ hne] at h
    exact sanitizeStripped_getLast x h
  · exact sanitizeStripped_getLast x h

theorem sanitize_eq_of_short (x : String)
    (h : (sanitizePre x).length ≤ 255) :
    sanitize_filename x = sanitizePre x := by
  unfold sanitize_filename
  rw [if_neg (by omega)]

theorem sanitize_eq_of_long (x : String)
    (h : 255 < (sanitizePre x).length) :
    sanitize_filename x = ⟨(sanitizePre x).data.take 252⟩ ++ "..." := by
  unfold sanitize_filename
  rw [if_pos h]

/-- C3 helper: every character of the sanitized name is allowed. -/
theorem sanitize_not_forbidden (x : String) :
    ∀ c ∈ (sanitize_filename x).data, isForbidden c = false := by
  by_cases h : 255 < (sanitizePre x).length
  · rw [sanitize_eq_of_long x h]
    intro c hc
    rw [String.data_append] at hc
    rcases List.mem_append.mp hc with h1 | h1
    · exact sanitizePre_not_forbidden x c (List.mem_of_mem_take h1)
    · fin_cases h1 <;> decide
  · rw [sanitize_eq_of_short x (by omega)]
    exact sanitizePre_not_forbidden x

theorem take252_length (x : String) :
    (⟨(sanitizePre x).data.take 252⟩ : String).length =
      min 252 (sanitizePre x).length :=
  List.length_take 252 (sanitizePre x).data

theorem sanitize_len (x : String) : (sanitize_filename x).length ≤ 255 := by
  by_cases h : 255 < (sanitizePre x).length
  · rw [sanitize_eq_of_long x h, length_append_str, take252_length]
    have : ("..." : String).length = 3 := by decide
    omega
  · rw [sanitize_eq_of_short x (by omega)]
    omega

theorem sanitize_ne_empty (x : String) : sanitize_filename x ≠ "" := by
  by_cases h : 255 < (sanitizePre x).length
  · rw [sanitize_eq_of_long x h]
    intro hc
    have hlen := congrArg String.length hc
    rw [length_append_str, take252_length] at hlen
    have h3 : ("..." : String).length = 3 := by decide
    have h0 : ("" : String).length = 0 := by decide
    omega
  · rw [sanitize_eq_of_short x (by omega)]
    exact sanitizePre_ne_empty x

theorem sanitize_not_reserved (x : String) :
    pyUpper (sanitize_filename x) ∉ reserved_names := by
  by_cases h : 255 < (sanitizePre x).length
  · intro hc
    have hlen := reserved_short _ hc
    rw [pyUpper_length] at hlen
    rw [sanitize_eq_of_long x h, length_append_str, take252_length] at hlen
    have h3 : ("..." : String).length = 3 := by decide
    omega
  · rw [sanitize_eq_of_short x (by omega)]
    exact sanitizePre_not_reserved x

/-- C3: For every input string, the output of `sanitize_filename` contains
none of the forbidden characters (backslash, slash, colon, asterisk,
question mark, double quote, angle brackets, pipe, CR, LF, tab), is never
empty, is never case-insensitively a reserved device name
(CON, PRN, AUX, NUL, COM1-COM9, LPT1-LPT9), and has length at most 255. -/
theorem C3_sanitize_safe (name : String) :
    (∀ c ∈ (sanitize_filename name).data, isForbidden c = false) ∧
    sanitize_filename name ≠ "" ∧
    pyUpper (sanitize_filename name) ∉ reserved_names ∧
    (sanitize_filename name).length ≤ 255 :=
  ⟨sanitize_not_forbidden name, sanitize_ne_empty name,
   sanitize_not_reserved name, sanitize_len name⟩

/-! ### Idempotence (C7) -/

theorem replaceForbidden_eq_self (s : String)
    (h : ∀ c ∈ s.data, isForbidden c = false) : replaceForbidden s = s := by
  apply String.ext
  show s.data.map (fun c => if isForbidden c then '_' else c) = s.data
  have h2 : ∀ c ∈ s.data,
      (fun c => if isForbidden c then '_' else c) c = id c := by
    intro c hc
    simp [h c hc]
  rw [List.map_congr_left h2, List.map_id]

theorem sanitizeStripped_of_pre (x : String) :
    sanitizeStripped (sanitizePre x) = sanitizePre x := by
  unfold sanitizeStripped
  rw [replaceForbidden_eq_self _ (sanitizePre_not_forbidden x)]
  apply String.ext
  show stripCharsList [' ', '.'] (sanitizePre x).data = (sanitizePre x).data
  apply stripCharsList_eq_self
  · intro c hc
    cases hd : (sanitizePre x).data with
    | nil => rw [hd] at hc; simp at hc
    | cons a as =>
      rw [hd] at hc
      have ha : c = a := by simpa using hc.symm
      obtain ⟨n1, n2⟩ := sanitizePre_head x hd
      rw [ha]
      simp [n1, n2]
  · intro c hc
    obtain ⟨n1, n2⟩ := sanitizePre_getLast x hc
    simp [n1, n2]

theorem sanitizePre_eq_self (y : String) (hstrip : sanitizeStripped y = y)
    (hres : pyUpper y ∉ reserved_names) (hne : y ≠ "") :
    sanitizePre y = y := by
  unfold sanitizePre
  rw [hstrip, if_neg (by push_neg; exact ⟨hres, hne⟩)]

theorem sanitize_fixes_pre (x : String)
    (h : (sanitizePre x).length ≤ 255) :
    sanitize_filename (sanitizePre x) = sanitizePre x := by
  have hs : sanitizePre (sanitizePre x) = sanitizePre x :=
    sanitizePre_eq_self (sanitizePre x) (sanitizeStripped_of_pre x)
      (sanitizePre_not_reserved x) (sanitizePre_ne_empty x)
  rw [sanitize_eq_of_short, hs]
  rw [hs]
  exact h

set_option maxRecDepth 8000 in
/-- C7 counterexample: on 256 copies of `a`, the first application
truncates to 252 `a`s plus `...`, and the second application strips the
trailing dots, so `sanitize` is not idempotent. -/
theorem C7_counterexample :
    sanitize_filename (sanitize_filename longA) ≠ sanitize_filename longA := by
  decide

/-- C7 (amended): `sanitize` is idempotent on every input whose result
before the final truncation step fits in 255 characters (i.e. whenever no
truncation occurs); truncation appends `...`, which the second
application's dot-stripping removes. -/
theorem C7_sanitize_idempotent (x : String)
    (h : (sanitizePre x).length ≤ 255) :
    sanitize_filename (sanitize_filename x) = sanitize_filename x := by
  rw [sanitize_eq_of_short x h]
  exact sanitize_fixes_pre x h

theorem C7_sanitize_idempotent_witness :
    (sanitizePre "a").length ≤ 255 ∧
    sanitize_filename (sanitize_filename "a") = sanitize_filename "a" :=
  ⟨by decide, C7_sanitize_idempotent "a" (by decide)⟩

/-! ### The `unnamed` placeholder (C8) -/

/-- C8 counterexample: the whitespace-only input `" "` is non-empty, yet
`sanitize` returns the `unnamed` placeholder for it (the placeholder is
chosen whenever the name is empty *after* replacement and trimming, not
only when the original input was empty), and not `"file_"`-prefixed. -/
theorem C8_counterexample :
    sanitize_filename " " = "unnamed" ∧ (" " : String) ≠ "" := by
  decide

/-- C8 (amended): `sanitize` returns `unnamed` whenever the result after
replacement and trimming is empty — even for non-empty inputs; and for
every input whose result after replacement and trimming is non-empty and
equals a reserved device name case-insensitively, the result is that
string prefixed with `file_`. -/
theorem C8_unnamed_placeholder (x : String) :
    (sanitizeStripped x = "" → sanitize_filename x = "unnamed") ∧
    (sanitizeStripped x ≠ "" → pyUpper (sanitizeStripped x) ∈ reserved_names →
      sanitize_filename x = "file_" ++ sanitizeStripped x) := by
  constructor
  · intro h
    have hp : sanitizePre x = "unnamed" := by
      unfold sanitizePre
      rw [if_pos (Or.inr h), if_pos h]
    rw [sanitize_eq_of_short x (by rw [hp]; decide), hp]
  · intro h1 h2
    have hp : sanitizePre x = "file_" ++ sanitizeStripped x := by
      unfold sanitizePre
      rw [if_pos (Or.inl h2), if_neg h1]
    have hlen : (sanitizePre x).length ≤ 255 := by
      rw [hp, length_append_str]
      have := reserved_short _ h2
      rw [pyUpper_length] at this
      have h5 : ("file_" : String).length = 5 := by decide
      omega
    rw [sanitize_eq_of_short x hlen, hp]

theorem C8_unnamed_placeholder_witness :
    sanitize_filename " " = "unnamed" ∧
    sanitize_filename "con" = "file_con" := by
  constructor
  · exact (C8_unnamed_placeholder " ").1 (by decide)
  · have h := (C8_unnamed_placeholder "con").2 (by decide) (by decide)
    rw [show sanitizeStripped "con" = "con" from by decide] at h
    exact h.trans (by decide)

/-! ### Extension resolution (C2) -/

/-- C2 counterexample: with no disposition header and the URL
`.../slides.pptx?x=1`, the code does not strip the query string —
`os.path.splitext` is applied to the whole URL, so the returned extension
is `.pptx?x=1`, not `.pptx` as the claim states. -/
theorem C2_counterexample :
    get_file_extension_from_headers "" "http://x/slides.pptx?x=1" ".pdf"
      = ".pptx?x=1" ∧ (".pptx?x=1" : String) ≠ ".pptx" := by
  decide

/-- C2 (amended): `resolve_extension` returns the lower-cased extension of
the filename carried in a `Content-Disposition`-style header when that
extension is non-empty; otherwise the lower-cased extension that
`os.path.splitext` extracts from the **whole URL string** — the query and
fragment are *not* stripped, so a query suffix stays part of the returned
extension — when non-empty; otherwise the default `.pdf`.  The
`notes.docx` example of the claim holds (see the witness); the
`slides.pptx?x=1` example yields `.pptx?x=1`. -/
theorem C2_resolve_extension (cd url d : String) :
    (∀ e, dispositionExt cd = some e →
      get_file_extension_from_headers cd url d = e) ∧
    (dispositionExt cd = none → ∀ e, urlExtLower url = some e →
      get_file_extension_from_headers cd url d = e) ∧
    (dispositionExt cd = none → urlExtLower url = none →
      get_file_extension_from_headers cd url d = d) := by
  refine ⟨?_, ?_, ?_⟩
  · intro e h
    unfold get_file_extension_from_headers
    rw [h]
  · intro h e h2
    unfold get_file_extension_from_headers
    rw [h]
    by_cases hu : (splitext url).2 = ""
    · rw [urlExtLower, if_pos hu] at h2
      cases h2
    · rw [urlExtLower, if_neg hu] at h2
      simp only [if_neg hu]
      exact Option.some.inj h2
  · intro h h2
    unfold get_file_extension_from_headers
    rw [h]
    by_cases hu : (splitext url).2 = ""
    · simp only [if_pos hu]
    · rw [urlExtLower, if_neg hu] at h2
      cases h2

theorem C2_resolve_extension_witness :
    dispositionExt "attachment; filename=\"notes.docx\"" = some ".docx" ∧
    get_file_extension_from_headers "attachment; filename=\"notes.docx\""
      "http://h/x.bin" ".pdf" = ".docx" :=
  ⟨by decide,
   (C2_resolve_extension "attachment; filename=\"notes.docx\""
     "http://h/x.bin" ".pdf").1 ".docx" (by decide)⟩

/-! ### The collision resolver (C4) -/

/-- C4: `get_unique_filename` returns the path unchanged if it does not
exist; otherwise the first non-existing path `f"{base}_{m}{ext}"` with
`m = 2, 3, ...` in increasing order (all smaller counters exist).  The
returned path never exists at call time; and when called again after
materialising the first result, the new result carries a strictly higher
counter. -/
theorem C4_unique_path (fs : List String) (fp : String) :
    get_unique_filename fs fp ∉ fs ∧
    (fp ∉ fs → get_unique_filename fs fp = fp) ∧
    (fp ∈ fs →
      ∃ m, 2 ≤ m ∧ get_unique_filename fs fp = uniqueCand fp m ∧
        uniqueCand fp m ∉ fs ∧
        (∀ j, 2 ≤ j → j < m → uniqueCand fp j ∈ fs) ∧
        ∃ m', m < m' ∧
          get_unique_filename (uniqueCand fp m :: fs) fp = uniqueCand fp m') ∧
    (fp ∉ fs → ∃ m', 2 ≤ m' ∧
      get_unique_filename (fp :: fs) fp = uniqueCand fp m') := by
  refine ⟨get_unique_filename_not_mem fs fp,
    get_unique_filename_of_not_mem fs fp, ?_, ?_⟩
  · intro h
    obtain ⟨m, hm2, heq, hfree, hmin⟩ := get_unique_filename_spec fs fp h
    refine ⟨m, hm2, heq, hfree, hmin, ?_⟩
    have h' : fp ∈ uniqueCand fp m :: fs := List.mem_cons_of_mem _ h
    obtain ⟨m', hm'2, heq', hfree', _hmin'⟩ :=
      get_unique_filename_spec (uniqueCand fp m :: fs) fp h'
    refine ⟨m', ?_, heq'⟩
    by_contra hle
    push_neg at hle
    rcases Nat.lt_or_ge m' m with hlt | hge
    · exact hfree' (List.mem_cons_of_mem _ (hmin m' hm'2 hlt))
    · have : m' = m := by omega
      rw [this] at hfree'
      exact hfree' (List.mem_cons_self _ _)
  · intro h
    have h' : fp ∈ fp :: fs := List.mem_cons_self _ _
    obtain ⟨m', hm'2, heq', _, _⟩ :=
      get_unique_filename_spec (fp :: fs) fp h'
    exact ⟨m', hm'2, heq'⟩

theorem C4_unique_path_witness :
    ("a.pdf" : String) ∈ (["a.pdf", "a_2.pdf"] : List String) ∧
    (∃ m, 2 ≤ m ∧
      get_unique_filename ["a.pdf", "a_2.pdf"] "a.pdf" = uniqueCand "a.pdf" m ∧
      uniqueCand "a.pdf" m ∉ (["a.pdf", "a_2.pdf"] : List String) ∧
      (∀ j, 2 ≤ j → j < m → uniqueCand "a.pdf" j ∈ (["a.pdf", "a_2.pdf"] : List String)) ∧
      ∃ m', m < m' ∧
        get_unique_filename (uniqueCand "a.pdf" m :: ["a.pdf", "a_2.pdf"]) "a.pdf"
          = uniqueCand "a.pdf" m') :=
  ⟨by decide, (C4_unique_path ["a.pdf", "a_2.pdf"] "a.pdf").2.2.1 (by decide)⟩

/-! ### The unsanitized extension in final names (C9) -/

/-- C9: every final filename is `sanitize(material.title.strip())`
concatenated with the resolved extension, the extension appended verbatim
without passing through the sanitizer — in folder mode of
`download_material.py` (`dmFinalFilename`) and in `download_using_lib.py`
(`libDest`).  Consequently, for a URL whose last segment continues after
the final period (`http://x/a.pdf?y=1`) and no disposition filename, the
final filename contains the forbidden character `?`. -/
theorem C9_extension_unsanitized :
    (∀ env m, dmFinalFilename env m
      = sanitize_filename (pyStripWS m.title) ++ dmFinalExt env m) ∧
    (∀ m, libDest m = sanitize_filename (pyStripWS m.title) ++ libExt m) ∧
    dmFinalFilename queryEnv queryMat = "notes.pdf?y=1" ∧
    (dmFinalFilename queryEnv queryMat).data.any isForbidden = true ∧
    sanitize_filename (dmFinalFilename queryEnv queryMat)
      ≠ dmFinalFilename queryEnv queryMat := by
  refine ⟨fun env m => rfl, fun m => rfl, by decide, by decide, by decide⟩

/-! ### Splitting names into stem and extension -/

theorem takeWhile_append_stop {p : Char → Bool} :
    ∀ (a : List Char), (∀ x ∈ a, p x = true) → ∀ (q : Char), p q = false →
      ∀ (b : List Char), (a ++ q :: b).takeWhile p = a := by
  intro a
  induction a with
  | nil =>
    intro _ q hq b
    rw [List.nil_append, List.takeWhile_cons, if_neg (by rw [hq]; exact Bool.false_ne_true)]
  | cons x xs ih =>
    intro ha q hq b
    rw [List.cons_append, List.takeWhile_cons, if_pos (ha x (by simp))]
    rw [ih (fun y hy => ha y (by simp [hy])) q hq b]

theorem dropWhile_append_stop {p : Char → Bool} :
    ∀ (a : List Char), (∀ x ∈ a, p x = true) → ∀ (q : Char), p q = false →
      ∀ (b : List Char), (a ++ q :: b).dropWhile p = q :: b := by
  intro a
  induction a with
  | nil =>
    intro _ q hq b
    rw [List.nil_append, List.dropWhile_cons, if_neg (by rw [hq]; exact Bool.false_ne_true)]
  | cons x xs ih =>
    intro ha q hq b
    rw [List.cons_append, List.dropWhile_cons, if_pos (ha x (by simp))]
    exact ih (fun y hy => ha y (by simp [hy])) q hq b

theorem dot_append_inj {l l' c c' : List Char}
    (hc : '.' ∉ c) (hc' : '.' ∉ c')
    (h : l ++ '.' :: c = l' ++ '.' :: c') : l = l' ∧ c = c' := by
  have hrev := congrArg List.reverse h
  rw [List.reverse_append, List.reverse_append, List.reverse_cons,
    List.reverse_cons, List.append_assoc, List.append_assoc,
    List.singleton_append, List.singleton_append] at hrev
  have hsat : ∀ (z : List Char), '.' ∉ z →
      ∀ x ∈ z.reverse, notDot x = true := by
    intro z hz x hx
    have hxz : x ∈ z := List.mem_reverse.mp hx
    simp only [notDot, decide_eq_true_eq]
    intro he
    exact hz (he ▸ hxz)
  have hq : notDot '.' = false := by decide
  have ht1 := congrArg (List.takeWhile notDot) hrev
  rw [takeWhile_append_stop _ (hsat c hc) _ hq,
    takeWhile_append_stop _ (hsat c' hc') _ hq] at ht1
  have hd1 := congrArg (List.dropWhile notDot) hrev
  rw [dropWhile_append_stop _ (hsat c hc) _ hq,
    dropWhile_append_stop _ (hsat c' hc') _ hq] at hd1
  constructor
  · have := List.tail_eq_of_cons_eq hd1
    simpa using congrArg List.reverse this
  · simpa using congrArg List.reverse ht1

theorem append_ext_inj {s s' e e' : String}
    (he : ExtShape e) (he' : ExtShape e')
    (h : s ++ e = s' ++ e') : s = s' ∧ e = e' := by
  obtain ⟨c, hc1, hc2, _⟩ := he
  obtain ⟨c', hc1', hc2', _⟩ := he'
  have hd := congrArg String.data h
  rw [String.data_append, String.data_append, hc1, hc1'] at hd
  obtain ⟨h1, h2⟩ := dot_append_inj hc2 hc2' hd
  exact ⟨String.ext h1, String.ext (by rw [hc1, hc1', h2])⟩

/-! ### Shapes of resolved extensions -/

theorem extShape_pdf : ExtShape ".pdf" :=
  ⟨['p', 'd', 'f'], rfl, by decide, by decide⟩

theorem extShape_pptx : ExtShape ".pptx" :=
  ⟨['p', 'p', 't', 'x'], rfl, by decide, by decide⟩

theorem base_no_slash (l : List Char) : '/' ∉ (splitLastSep l).2 := by
  intro h
  unfold splitLastSep at h
  have h1 : '/' ∈ l.reverse.takeWhile notSep := by
    simpa using h
  have := List.mem_takeWhile_imp h1
  simp [notSep] at this

theorem splitext_snd_shape (l : List Char) :
    (splitextList l).2 = [] ∨
    ∃ cs, (splitextList l).2 = '.' :: cs ∧ '.' ∉ cs ∧ '/' ∉ cs := by
  unfold splitextList
  cases hm : (splitLastSep l).2.reverse.dropWhile notDot with
  | nil => left; simp [hm]
  | cons d revPre =>
    by_cases hall : revPre.all isDot
    · left; simp [hm, hall]
    · right
      refine ⟨((splitLastSep l).2.reverse.takeWhile notDot).reverse,
        by simp [hm, hall], ?_, ?_⟩
      · intro hmem
        have h1 : ('.' : Char) ∈ (splitLastSep l).2.reverse.takeWhile notDot := by
          simpa using hmem
        have := List.mem_takeWhile_imp h1
        simp [notDot] at this
      · intro hmem
        have h1 : ('/' : Char) ∈ (splitLastSep l).2.reverse.takeWhile notDot := by
          simpa using hmem
        have h2 : ('/' : Char) ∈ (splitLastSep l).2.reverse :=
          List.IsPrefix.mem h1 (List.takeWhile_prefix _)
        exact base_no_slash l (List.mem_reverse.mp h2)

theorem charOfNat_toNat (n : Nat) (hv : Nat.isValidChar n) :
    (Char.ofNat n).toNat = n := by
  simp [Char.ofNat, hv, Char.ofNatAux, Char.toNat, UInt32.toNat,
    BitVec.toNat_ofNatLt]

theorem toLower_low {c d : Char} (hd : d.toNat < 97)
    (h : Char.toLower c = d) : c = d := by
  unfold Char.toLower at h
  by_cases hc : c.toNat ≥ 65 ∧ c.toNat ≤ 90
  · rw [if_pos hc] at h
    have hv : Nat.isValidChar (c.toNat + 32) := Or.inl (by omega)
    have h2 := congrArg Char.toNat h
    rw [charOfNat_toNat _ hv] at h2
    omega
  · rw [if_neg hc] at h
    exact h

theorem lower_shape {cs : List Char} (h1 : '.' ∉ cs) (h2 : '/' ∉ cs) :
    ExtShape (pyLower ⟨'.' :: cs⟩) := by
  refine ⟨cs.map Char.toLower, ?_, ?_, ?_⟩
  · show ('.' :: cs).map Char.toLower = '.' :: cs.map Char.toLower
    rw [List.map_cons]
    have : Char.toLower '.' = '.' := by decide
    rw [this]
  · intro hmem
    obtain ⟨a, ha, hla⟩ := List.mem_map.mp hmem
    have : a = '.' := toLower_low (by decide) hla
    exact h1 (this ▸ ha)
  · intro hmem
    obtain ⟨a, ha, hla⟩ := List.mem_map.mp hmem
    have : a = '/' := toLower_low (by decide) hla
    exact h2 (this ▸ ha)

theorem splitext_shape_of_ne {l : List Char} (h : (splitextList l).2 ≠ []) :
    ExtShape (pyLower ⟨(splitextList l).2⟩) := by
  rcases splitext_snd_shape l with h0 | ⟨cs, hc1, hc2, hc3⟩
  · exact absurd h0 h
  · rw [hc1]
    exact lower_shape hc2 hc3

theorem dispositionExt_shape {cd : String} {e : String}
    (h : dispositionExt cd = some e) : ExtShape e := by
  unfold dispositionExt at h
  by_cases h0 : cd = ""
  · rw [if_pos h0] at h; cases h
  · rw [if_neg h0] at h
    cases hre : reSearchFilename cd.data with
    | none => rw [hre] at h; cases h
    | some g =>
      rw [hre] at h
      simp only at h
      by_cases hext : ((splitextList (stripQuotes g)).2).isEmpty
      · rw [if_pos hext] at h; cases h
      · rw [if_neg hext] at h
        have he := Option.some.inj h
        rw [← he]
        exact splitext_shape_of_ne (by simpa using hext)

theorem get_ext_shape (cd url : String) :
    ExtShape (get_file_extension_from_headers cd url ".pdf") := by
  unfold get_file_extension_from_headers
  cases hdisp : dispositionExt cd with
  | some e =>
    simp only []
    exact dispositionExt_shape hdisp
  | none =>
    simp only []
    by_cases hu : (splitext url).2 = ""
    · rw [if_pos hu]; exact extShape_pdf
    · rw [if_neg hu]
      have : (splitextList url.data).2 ≠ [] := by
        intro hc
        exact hu (String.ext hc)
      exact splitext_shape_of_ne this

theorem extOf_shape (env : Env) (m : Material) : ExtShape (extOf env m) := by
  unfold extOf
  cases h : (download_file env m.url).1 with
  | none => exact extShape_pdf
  | some r => exact get_ext_shape r.1 m.url

theorem dmFinalExt_shape (env : Env) (m : Material) :
    ExtShape (dmFinalExt env m) := by
  unfold dmFinalExt
  by_cases h : pyLower (extOf env m) = ".ppt"
  · rw [if_pos h]; exact extShape_pptx
  · rw [if_neg h]; exact extOf_shape env m

theorem libExt_shape (m : Material) : ExtShape (libExt m) := by
  unfold libExt
  by_cases h : (splitext m.url).2 = ""
  · rw [if_pos h]; exact extShape_pdf
  · rw [if_neg h]
    have h2 : (splitextList m.url.data).2 ≠ [] := by
      intro hc
      exact h (String.ext hc)
    rcases splitext_snd_shape m.url.data with h0 | ⟨cs, hc1, hc2, hc3⟩
    · exact absurd h0 h2
    · exact ⟨cs, hc1, hc2, hc3⟩

/-! ### The `temp_` staging marker -/

theorem tempMark_pref (s : String) : tempMark <+: ("temp_" ++ s).data := by
  refine ⟨s.data, ?_⟩
  rw [String.data_append]
  rfl

theorem not_temp_pref_append {s : List Char} (hs : ¬ tempMark <+: s ++ ['_'])
    {c : Char} (hc : c = '.' ∨ c = '_') (rest : List Char) :
    ¬ tempMark <+: s ++ c :: rest := by
  intro h
  obtain ⟨t, ht⟩ := h
  have ht' : ('t' : Char) :: 'e' :: 'm' :: 'p' :: '_' :: t = s ++ c :: rest := ht
  rcases s with _ | ⟨a1, _ | ⟨a2, _ | ⟨a3, _ | ⟨a4, _ | ⟨a5, s5⟩⟩⟩⟩⟩
  · rw [List.nil_append] at ht'
    injection ht' with h1 _
    rcases hc with rfl | rfl <;> exact absurd h1 (by decide)
  · simp only [List.cons_append, List.nil_append, List.cons.injEq] at ht'
    obtain ⟨_, h2, _⟩ := ht'
    rcases hc with rfl | rfl <;> exact absurd h2 (by decide)
  · simp only [List.cons_append, List.nil_append, List.cons.injEq] at ht'
    obtain ⟨_, _, h3, _⟩ := ht'
    rcases hc with rfl | rfl <;> exact absurd h3 (by decide)
  · simp only [List.cons_append, List.nil_append, List.cons.injEq] at ht'
    obtain ⟨_, _, _, h4, _⟩ := ht'
    rcases hc with rfl | rfl <;> exact absurd h4 (by decide)
  · simp only [List.cons_append, List.nil_append, List.cons.injEq] at ht'
    obtain ⟨e1, e2, e3, e4, h5, _⟩ := ht'
    rcases hc with rfl | rfl
    · exact absurd h5 (by decide)
    · apply hs
      refine ⟨[], ?_⟩
      simp [tempMark, ← e1, ← e2, ← e3, ← e4]
  · simp only [List.cons_append, List.nil_append, List.cons.injEq] at ht'
    obtain ⟨e1, e2, e3, e4, e5, _⟩ := ht'
    apply hs
    refine ⟨s5 ++ ['_'], ?_⟩
    simp [tempMark, ← e1, ← e2, ← e3, ← e4, ← e5]

theorem not_temp_pref_ext {s e : String}
    (hs : ¬ tempMark <+: (s ++ "_").data) (he : ExtShape e) :
    ¬ tempMark <+: (s ++ e).data := by
  obtain ⟨cs, hc1, _, _⟩ := he
  rw [String.data_append, hc1]
  rw [String.data_append] at hs
  exact not_temp_pref_append hs (Or.inl rfl) cs

theorem not_temp_pref_cand {s e : String}
    (hs : ¬ tempMark <+: (s ++ "_").data) (k : Nat) :
    ¬ tempMark <+: (s ++ "_" ++ Nat.repr k ++ e).data := by
  have hd : (s ++ "_" ++ Nat.repr k ++ e).data
      = s.data ++ '_' :: ((Nat.repr k).data ++ e.data) := by
    rw [String.data_append, String.data_append, String.data_append]
    rw [List.append_assoc, List.append_assoc]
    rfl
  rw [hd]
  rw [String.data_append] at hs
  exact not_temp_pref_append hs (Or.inr rfl) _

/-! ### `basename`, `dirname`, `joinPath` on the names the runs build -/

theorem splitLastSep_no_slash {l : List Char} (h : '/' ∉ l) :
    splitLastSep l = ([], l) := by
  unfold splitLastSep
  have hsat : ∀ x ∈ l.reverse, notSep x = true := by
    intro x hx
    have hxl : x ∈ l := List.mem_reverse.mp hx
    simp only [notSep, decide_eq_true_eq]
    intro he
    exact h (he ▸ hxl)
  have h1 : l.reverse.dropWhile notSep = [] :=
    List.dropWhile_eq_nil_iff.mpr hsat
  have h2 : l.reverse.takeWhile notSep = l.reverse :=
    List.takeWhile_eq_self_iff.mpr hsat
  show ((l.reverse.dropWhile notSep).reverse,
    (l.reverse.takeWhile notSep).reverse) = ([], l)
  rw [h1, h2]
  simp

theorem splitext_name {s e : String}
    (hs1 : '/' ∉ s.data) (hs2 : ∃ c ∈ s.data, c ≠ '.')
    (he : ExtShape e) :
    splitextList (s ++ e).data = (s.data, e.data) := by
  obtain ⟨cs, he1, he2, he3⟩ := he
  rw [String.data_append, he1]
  have hsl : '/' ∉ s.data ++ '.' :: cs := by
    intro hmem
    rcases List.mem_append.mp hmem with h | h
    · exact hs1 h
    · rcases List.mem_cons.mp h with h | h
      · exact absurd h (by decide)
      · exact he3 h
  unfold splitextList
  rw [splitLastSep_no_slash hsl]
  have hrev : (s.data ++ '.' :: cs).reverse
      = cs.reverse ++ '.' :: s.data.reverse := by
    rw [List.reverse_append, List.reverse_cons, List.append_assoc,
      List.singleton_append]
  have hsat : ∀ x ∈ cs.reverse, notDot x = true := by
    intro x hx
    have hxc : x ∈ cs := List.mem_reverse.mp hx
    simp only [notDot, decide_eq_true_eq]
    intro he'
    exact he2 (he' ▸ hxc)
  have hq : notDot '.' = false := by decide
  have hdrop : (s.data ++ '.' :: cs).reverse.dropWhile notDot
      = '.' :: s.data.reverse := by
    rw [hrev]
    exact dropWhile_append_stop _ hsat _ hq _
  have htake : (s.data ++ '.' :: cs).reverse.takeWhile notDot
      = cs.reverse := by
    rw [hrev]
    exact takeWhile_append_stop _ hsat _ hq _
  simp only [hdrop, htake]
  have hall : s.data.reverse.all isDot = false := by
    obtain ⟨c, hcm, hcne⟩ := hs2
    rw [List.all_eq_false]
    refine ⟨c, List.mem_reverse.mpr hcm, ?_⟩
    simp [isDot, hcne]
  rw [if_neg (by rw [hall]; exact Bool.false_ne_true)]
  simp

theorem basename_no_slash {n : String} (h : '/' ∉ n.data) : basename n = n := by
  unfold basename
  rw [splitLastSep_no_slash h]

theorem dirname_no_slash {n : String} (h : '/' ∉ n.data) : dirname n = "" := by
  unfold dirname
  rw [splitLastSep_no_slash h]
  simp

theorem joinPath_empty_left (b : String) : joinPath "" b = b := by
  unfold joinPath
  by_cases h : b.data.head? = some '/'
  · rw [if_pos h]
  · rw [if_neg h, if_pos (Or.inl rfl)]
    apply String.ext
    rw [String.data_append]
    rfl

theorem basename_append_slash_end {x n : String}
    (hx : x.data = [] ∨ x.data.getLast? = some '/')
    (hs : '/' ∉ n.data) : basename (x ++ n) = n := by
  unfold basename
  rw [String.data_append]
  have hsat : ∀ c ∈ n.data.reverse, notSep c = true := by
    intro c hc
    have hcl : c ∈ n.data := List.mem_reverse.mp hc
    simp only [notSep, decide_eq_true_eq]
    intro he
    exact hs (he ▸ hcl)
  rcases hx with hx | hx
  · rw [hx, List.nil_append]
    apply String.ext
    show (n.data.reverse.takeWhile notSep).reverse = n.data
    rw [List.takeWhile_eq_self_iff.mpr hsat, List.reverse_reverse]
  · cases hxr : x.data.reverse with
    | nil =>
      rw [← List.head?_reverse, hxr] at hx
      cases hx
    | cons a as =>
      have ha : a = '/' := by
        rw [← List.head?_reverse, hxr] at hx
        exact Option.some.inj hx
      apply String.ext
      show (((x.data ++ n.data).reverse).takeWhile notSep).reverse = n.data
      rw [List.reverse_append, hxr, ha]
      rw [takeWhile_append_stop _ hsat '/' (by decide) as, List.reverse_reverse]

theorem basename_join {a n : String}
    (hs : '/' ∉ n.data) : basename (joinPath a n) = n := by
  have hhead : ¬ n.data.head? = some '/' := by
    intro hcc
    cases hd : n.data with
    | nil => rw [hd] at hcc; cases hcc
    | cons c cs =>
      rw [hd] at hcc
      have hc : c = '/' := Option.some.inj hcc
      exact hs (by rw [hd, hc]; exact List.mem_cons_self _ _)
  unfold joinPath
  rw [if_neg hhead]
  by_cases h2 : a = "" ∨ a.data.getLast? = some '/'
  · rw [if_pos h2]
    apply basename_append_slash_end _ hs
    rcases h2 with h2 | h2
    · left; rw [h2]
    · right; exact h2
  · rw [if_neg h2]
    rw [show a ++ "/" ++ n = (a ++ "/") ++ n from rfl]
    apply basename_append_slash_end _ hs
    right
    rw [String.data_append]
    exact List.getLast?_append_of_ne_nil _ (by decide)

/-! ### Properties of sanitized titles as file name stems -/

theorem sanitize_no_slash (x : String) : '/' ∉ (sanitize_filename x).data := by
  intro h
  have := sanitize_not_forbidden x '/' h
  exact absurd this (by decide)

theorem sanitize_head_ne_dot (x : String) :
    ∀ c cs, (sanitize_filename x).data = c :: cs → c ≠ '.' := by
  intro c cs hd
  by_cases h : 255 < (sanitizePre x).length
  · rw [sanitize_eq_of_long x h, String.data_append] at hd
    cases hp : (sanitizePre x).data with
    | nil => exact absurd (String.ext hp) (sanitizePre_ne_empty x)
    | cons a as =>
      have h252 : (sanitizePre x).data.take 252 = a :: as.take 251 := by
        rw [hp]
        rfl
      rw [show ((⟨(sanitizePre x).data.take 252⟩ : String)).data
          = (sanitizePre x).data.take 252 from rfl, h252] at hd
      rw [List.cons_append] at hd
      have hac : a = c := (List.cons.injEq _ _ _ _ ▸ hd).1
      exact hac ▸ (sanitizePre_head x hp).2
  · rw [sanitize_eq_of_short x (by omega)] at hd
    exact (sanitizePre_head x hd).2

theorem sanitize_nondot (x : String) :
    ∃ c ∈ (sanitize_filename x).data, c ≠ '.' := by
  cases hd : (sanitize_filename x).data with
  | nil => exact absurd (String.ext hd) (sanitize_ne_empty x)
  | cons c cs =>
    exact ⟨c, List.mem_cons_self _ _, sanitize_head_ne_dot x c cs hd⟩

theorem safeOf_ne_nil (m : Material) : (safeOf m).data ≠ [] := by
  intro h
  exact sanitize_ne_empty _ (String.ext h)

theorem safeOf_no_slash (m : Material) : '/' ∉ (safeOf m).data :=
  sanitize_no_slash _

theorem safeOf_nondot (m : Material) : ∃ c ∈ (safeOf m).data, c ≠ '.' :=
  sanitize_nondot _

theorem ext_no_slash {e : String} (he : ExtShape e) : '/' ∉ e.data := by
  obtain ⟨cs, h1, _, h3⟩ := he
  rw [h1]
  intro hmem
  rcases List.mem_cons.mp hmem with h | h
  · exact absurd h (by decide)
  · exact h3 h

theorem append_no_slash {s e : String} (h1 : '/' ∉ s.data)
    (h2 : '/' ∉ e.data) : '/' ∉ (s ++ e).data := by
  rw [String.data_append]
  intro hmem
  rcases List.mem_append.mp hmem with h | h
  · exact h1 h
  · exact h2 h

theorem decDigits_digits (n : Nat) : ∀ c ∈ decDigits n,
    c ∈ (['0', '1', '2', '3', '4', '5', '6', '7', '8', '9'] : List Char) := by
  induction n using Nat.strong_induction_on with
  | _ n ih =>
    intro c hc
    by_cases h : n < 10
    · rw [decDigits_lt n h] at hc
      have : c = Nat.digitChar n := by simpa using hc
      rw [this]
      interval_cases n <;> decide
    · rw [decDigits_ge n h] at hc
      rcases List.mem_append.mp hc with h1 | h1
      · exact ih (n / 10) (Nat.div_lt_self (by omega) (by omega)) c h1
      · have : c = Nat.digitChar (n % 10) := by simpa using h1
        rw [this]
        have h2 : n % 10 < 10 := Nat.mod_lt n (by omega)
        interval_cases hh : (n % 10) <;> decide

theorem natRepr_no_slash (k : Nat) : '/' ∉ (Nat.repr k).data := by
  rw [natRepr_eq]
  intro h
  have := decDigits_digits k '/' h
  simp at this

theorem splitext_name_str {s e : String} (hs1 : '/' ∉ s.data)
    (hs2 : ∃ c ∈ s.data, c ≠ '.') (he : ExtShape e) :
    splitext (s ++ e) = (s, e) := by
  unfold splitext
  rw [splitext_name hs1 hs2 he]

theorem candName_no_slash {s e : String} (hs1 : '/' ∉ s.data)
    (he : ExtShape e) (k : Nat) :
    '/' ∉ (s ++ "_" ++ Nat.repr k ++ e).data :=
  append_no_slash (append_no_slash (append_no_slash hs1 (by decide))
    (natRepr_no_slash k)) (ext_no_slash he)

/-- The collision candidate for a bare (slash-free) name: the counter is
inserted between the stem and the extension. -/
theorem uniqueCand_bare {s e : String} (hs1 : '/' ∉ s.data)
    (hs2 : ∃ c ∈ s.data, c ≠ '.') (he : ExtShape e) (k : Nat) :
    uniqueCand (s ++ e) k = s ++ "_" ++ Nat.repr k ++ e := by
  unfold uniqueCand uniqueCandName
  have hno : '/' ∉ (s ++ e).data := append_no_slash hs1 (ext_no_slash he)
  rw [basename_no_slash hno, splitext_name_str hs1 hs2 he,
    dirname_no_slash hno]
  exact joinPath_empty_left _

/-- The basename of the collision candidate for a joined topic-folder
path. -/
theorem uniqueCand_join_basename {tf s e : String} (hs1 : '/' ∉ s.data)
    (hs2 : ∃ c ∈ s.data, c ≠ '.') (he : ExtShape e) (k : Nat) :
    basename (uniqueCand (joinPath tf (s ++ e)) k)
      = s ++ "_" ++ Nat.repr k ++ e := by
  unfold uniqueCand uniqueCandName
  have hno : '/' ∉ (s ++ e).data := append_no_slash hs1 (ext_no_slash he)
  rw [basename_join hno, splitext_name_str hs1 hs2 he]
  exact basename_join (candName_no_slash hs1 he k)

/-! ### Filesystem lemmas -/

theorem fsKeys_cons (p : String) (c : List Nat) (fs : Fs) :
    fsKeys ((p, c) :: fs) = p :: fsKeys fs := rfl

theorem fsErase_not_mem {fs : Fs} {p : String} (h : p ∉ fsKeys fs) :
    fsErase fs p = fs := by
  apply List.filter_eq_self.mpr
  intro e he
  have hne : e.1 ≠ p := by
    intro hc
    exact h (hc ▸ List.mem_map_of_mem _ he)
  simp [hne]

theorem fsWrite_fresh {fs : Fs} {p : String} (c : List Nat)
    (h : p ∉ fsKeys fs) : fsWrite fs p c = (p, c) :: fs := by
  unfold fsWrite
  rw [fsErase_not_mem h]

theorem fsGet_head (p : String) (c : List Nat) (fs : Fs) :
    fsGet ((p, c) :: fs) p = some c := by
  unfold fsGet
  rw [List.find?_cons_of_pos _ (by simp)]
  rfl

theorem fsGet_tail {q p : String} {c : List Nat} {fs : Fs} (h : p ≠ q) :
    fsGet ((p, c) :: fs) q = fsGet fs q := by
  unfold fsGet
  rw [List.find?_cons_of_neg _ (by simp [h])]

theorem fsErase_cons_self (p : String) (c : List Nat) (fs : Fs) :
    fsErase ((p, c) :: fs) p = fsErase fs p := by
  unfold fsErase
  rw [List.filter_cons_of_neg (by simp)]

theorem fsGet_of_mem_nodup {E : Fs} {p : String} {c : List Nat}
    (hmem : (p, c) ∈ E) (hnd : (fsKeys E).Nodup) : fsGet E p = some c := by
  induction E with
  | nil => simp at hmem
  | cons e rest ih =>
    rcases List.mem_cons.mp hmem with heq | hmem'
    · rw [← heq]
      exact fsGet_head _ _ _
    · have hne : e.1 ≠ p := by
        intro hc
        have h1 : p ∈ fsKeys rest := by
          have : (p, c).1 ∈ fsKeys rest := List.mem_map_of_mem _ hmem'
          exact this
        have h2 : e.1 ∉ fsKeys rest := by
          have := hnd
          rw [show fsKeys (e :: rest) = e.1 :: fsKeys rest from rfl] at this
          exact (List.nodup_cons.mp this).1
        exact h2 (hc ▸ h1)
      cases e with
      | mk q d =>
        rw [fsGet_tail hne]
        apply ih hmem'
        rw [show fsKeys ((q, d) :: rest) = q :: fsKeys rest from rfl] at hnd
        exact (List.nodup_cons.mp hnd).2

theorem fsGet_append_left {E S : Fs} {p : String} {c : List Nat}
    (h : fsGet E p = some c) : fsGet (E ++ S) p = some c := by
  unfold fsGet at h ⊢
  rw [List.find?_append]
  cases hf : E.find? (fun e => e.1 = p) with
  | none => rw [hf] at h; cases h
  | some e =>
    rw [hf] at h
    simpa using h

theorem fsGet_rev_entries {E S : Fs} {p : String} {c : List Nat}
    (hmem : (p, c) ∈ E) (hnd : (fsKeys E).Nodup) :
    fsGet (E.reverse ++ S) p = some c := by
  apply fsGet_append_left
  apply fsGet_of_mem_nodup (List.mem_reverse.mpr hmem)
  have : fsKeys E.reverse = (fsKeys E).reverse := by
    unfold fsKeys
    rw [List.map_reverse]
  rw [this]
  exact List.nodup_reverse.mpr hnd

/-! ### The merge-mode material step of `download_material.py` -/

theorem extOf_of_some {env : Env} {m : Material} {cd : String}
    {body : List Nat} (h : (download_file env m.url).1 = some (cd, body)) :
    extOf env m = get_file_extension_from_headers cd m.url := by
  unfold extOf
  rw [h]

theorem download_file_of_some {env : Env} {url : String}
    {r : String × List Nat} (h : (download_file env url).1 = some r) :
    download_file env url = (some r, []) := by
  unfold download_file at h ⊢
  by_cases hs : (env.fetch url).1 = 200
  · rw [if_pos hs] at h ⊢
    have h2 : ((env.fetch url).2.1, (env.fetch url).2.2) = r := Option.some.inj h
    rw [h2]
  · rw [if_neg hs] at h
    cases h

theorem eNameOf_ne {env : Env} {m m' : Material}
    (h : safeOf m ≠ safeOf m') : eNameOf env m ≠ eNameOf env m' := by
  intro hc
  exact h (append_ext_inj (extOf_shape env m) (extOf_shape env m') hc).1

theorem eNameOf_not_temp {env : Env} {m : Material} (htf : TempFree m) :
    ¬ tempMark <+: (eNameOf env m).data :=
  not_temp_pref_ext htf (extOf_shape env m)

theorem dmMergeMaterial_fail {env : Env} {st : DmUnitSt} {m : Material}
    (h : (download_file env m.url).1 = none) :
    dmMergeMaterial env st m =
      { st with failLog := st.failLog ++ (download_file env m.url).2 } := by
  cases hdf : download_file env m.url with
  | mk o msgs =>
    have ho : o = none := by rw [hdf] at h; exact h
    subst ho
    unfold dmMergeMaterial
    rw [hdf]

theorem dmMergeMaterial_some (env : Env) (st : DmUnitSt) (m : Material)
    {cd : String} {body : List Nat}
    (hdf : download_file env m.url = (some (cd, body), []))
    (htf : TempFree m)
    (hkt : ∀ k ∈ fsKeys st.scratch, ¬ tempMark <+: k.data)
    (hke : eNameOf env m ∉ fsKeys st.scratch) :
    dmMergeMaterial env st m =
      if pyLower (extOf env m) = ".pptx" ∨ pyLower (extOf env m) = ".ppt" then
        st
      else if pyLower (extOf env m) = ".pdf" then
        { st with
            scratch := (eNameOf env m, body) :: st.scratch
            pdfPaths := st.pdfPaths ++ [eNameOf env m]
            placedPdf := st.placedPdf ++ [eNameOf env m] }
      else st := by
  have hext : get_file_extension_from_headers cd m.url = extOf env m :=
    (extOf_of_some (by rw [hdf])).symm
  have htk : ("temp_" ++ safeOf m) ∉ fsKeys st.scratch := by
    intro hc
    exact hkt _ hc (tempMark_pref (safeOf m))
  have hne2 : eNameOf env m ≠ "temp_" ++ safeOf m := by
    intro hc
    exact eNameOf_not_temp htf (hc ▸ tempMark_pref (safeOf m))
  unfold dmMergeMaterial
  simp only [hdf]
  rw [hext]
  rw [show safeOf m ++ extOf env m = eNameOf env m from rfl]
  rw [fsWrite_fresh body htk]
  rw [show fsKeys (("temp_" ++ safeOf m, body) :: st.scratch)
    = ("temp_" ++ safeOf m) :: fsKeys st.scratch from rfl]
  have h3 : get_unique_filename
      (("temp_" ++ safeOf m) :: fsKeys st.scratch) (eNameOf env m)
      = eNameOf env m := by
    apply get_unique_filename_of_not_mem
    intro hc
    rcases List.mem_cons.mp hc with hc | hc
    · exact hne2 hc
    · exact hke hc
  rw [h3]
  have h4 : fsRename (("temp_" ++ safeOf m, body) :: st.scratch)
      ("temp_" ++ safeOf m) (eNameOf env m)
      = (eNameOf env m, body) :: st.scratch := by
    unfold fsRename
    rw [fsGet_head]
    rw [fsErase_cons_self, fsErase_not_mem htk]
    exact fsWrite_fresh body hke
  rw [h4]
  have h5 : fsErase ((eNameOf env m, body) :: st.scratch) (eNameOf env m)
      = st.scratch := by
    rw [fsErase_cons_self, fsErase_not_mem hke]
  rw [h5]

theorem dmStepSpec_fail {env : Env} {m : Material}
    (h : (download_file env m.url).1 = none) : dmStepSpec env m = none := by
  unfold dmStepSpec
  rw [h]

theorem dmStepSpec_some {env : Env} {m : Material} {cd : String}
    {body : List Nat} (h : (download_file env m.url).1 = some (cd, body)) :
    dmStepSpec env m =
      if pyLower (extOf env m) = ".pdf" then some (eNameOf env m, body)
      else none := by
  unfold dmStepSpec
  rw [h]
  have hext : get_file_extension_from_headers cd m.url = extOf env m :=
    (extOf_of_some h).symm
  simp only [hext]
  rfl

set_option maxHeartbeats 1000000 in
theorem dmMergeMaterials_fold (env : Env) :
    ∀ (M : List Material) (st : DmUnitSt),
      (∀ k ∈ fsKeys st.scratch, ¬ tempMark <+: k.data) →
      (∀ m ∈ M, TempFree m) →
      (∀ m ∈ M, eNameOf env m ∉ fsKeys st.scratch) →
      M.Pairwise (fun m m' => safeOf m ≠ safeOf m') →
      M.foldl (dmMergeMaterial env) st =
        { scratch := (M.filterMap (dmStepSpec env)).reverse ++ st.scratch,
          pdfPaths := st.pdfPaths
            ++ (M.filterMap (dmStepSpec env)).map (fun e => e.1),
          failLog := st.failLog
            ++ M.flatMap (fun m => (download_file env m.url).2),
          placedPdf := st.placedPdf
            ++ (M.filterMap (dmStepSpec env)).map (fun e => e.1) } := by
  intro M
  induction M with
  | nil =>
    intro st _ _ _ _
    simp
  | cons m M ih =>
    intro st hkt htfM hkeM hpw
    rw [List.foldl_cons]
    have htf : TempFree m := htfM m (List.mem_cons_self _ _)
    have hke : eNameOf env m ∉ fsKeys st.scratch :=
      hkeM m (List.mem_cons_self _ _)
    cases ho : (download_file env m.url).1 with
    | none =>
      rw [dmMergeMaterial_fail ho]
      rw [ih { st with failLog := st.failLog ++ (download_file env m.url).2 }
        hkt (fun m' hm' => htfM m' (List.mem_cons_of_mem _ hm'))
        (fun m' hm' => hkeM m' (List.mem_cons_of_mem _ hm'))
        (List.Pairwise.of_cons hpw)]
      rw [List.filterMap_cons_none (dmStepSpec_fail ho)]
      simp [List.append_assoc]
    | some r =>
      obtain ⟨cd, body⟩ := r
      have hdf : download_file env m.url = (some (cd, body), []) :=
        download_file_of_some ho
      rw [dmMergeMaterial_some env st m hdf htf hkt hke]
      have hstep := dmStepSpec_some ho
      by_cases hpdf : pyLower (extOf env m) = ".pdf"
      · rw [if_neg (by rw [hpdf]; decide), if_pos hpdf]
        have hkt' : ∀ k ∈ fsKeys ((eNameOf env m, body) :: st.scratch),
            ¬ tempMark <+: k.data := by
          intro k hk
          rcases List.mem_cons.mp hk with hk | hk
          · rw [hk]; exact eNameOf_not_temp htf
          · exact hkt k hk
        have hke' : ∀ m' ∈ M,
            eNameOf env m' ∉ fsKeys ((eNameOf env m, body) :: st.scratch) := by
          intro m' hm' hc
          rcases List.mem_cons.mp hc with hc | hc
          · exact eNameOf_ne
              (Ne.symm (List.rel_of_pairwise_cons hpw hm')) hc
          · exact hkeM m' (List.mem_cons_of_mem _ hm') hc
        rw [ih { st with
              scratch := (eNameOf env m, body) :: st.scratch,
              pdfPaths := st.pdfPaths ++ [eNameOf env m],
              placedPdf := st.placedPdf ++ [eNameOf env m] }
          hkt' (fun m' hm' => htfM m' (List.mem_cons_of_mem _ hm'))
          hke' (List.Pairwise.of_cons hpw)]
        have hsome : dmStepSpec env m = some (eNameOf env m, body) := by
          rw [hstep, if_pos hpdf]
        rw [List.filterMap_cons_some hsome]
        simp [hdf, List.append_assoc]
      · have hnone : dmStepSpec env m = none := by
          rw [hstep, if_neg hpdf]
        by_cases hppt : pyLower (extOf env m) = ".pptx"
          ∨ pyLower (extOf env m) = ".ppt"
        · rw [if_pos hppt]
          rw [ih st hkt (fun m' hm' => htfM m' (List.mem_cons_of_mem _ hm'))
            (fun m' hm' => hkeM m' (List.mem_cons_of_mem _ hm'))
            (List.Pairwise.of_cons hpw)]
          rw [List.filterMap_cons_none hnone]
          simp [hdf, List.append_assoc]
        · rw [if_neg hppt, if_neg hpdf]
          rw [ih st hkt (fun m' hm' => htfM m' (List.mem_cons_of_mem _ hm'))
            (fun m' hm' => hkeM m' (List.mem_cons_of_mem _ hm'))
            (List.Pairwise.of_cons hpw)]
          rw [List.filterMap_cons_none hnone]
          simp [hdf, List.append_assoc]

/-! ### The merge phase of one unit -/

theorem dmMergeAppend_eval {env : Env} {scratch : Fs} {p : String}
    {c : List Nat} (acc : List Nat × Nat) (h : fsGet scratch p = some c) :
    dmMergeAppend env scratch acc p =
      if env.appendOk c then (acc.1 ++ c, acc.2 + 1) else acc := by
  unfold dmMergeAppend
  rw [h]

theorem dmMergeAppend_fold (env : Env) (scratch : Fs) :
    ∀ (E : Fs) (acc : List Nat × Nat),
      (∀ e ∈ E, fsGet scratch e.1 = some e.2) →
      (E.map (fun e => e.1)).foldl (dmMergeAppend env scratch) acc =
        (acc.1 ++ (E.filter (fun e => env.appendOk e.2)).flatMap (fun e => e.2),
         acc.2 + (E.filter (fun e => env.appendOk e.2)).length) := by
  intro E
  induction E with
  | nil => intro acc _; simp
  | cons e E ih =>
    intro acc hget
    rw [List.map_cons, List.foldl_cons]
    rw [dmMergeAppend_eval acc (hget e (List.mem_cons_self _ _))]
    by_cases hok : env.appendOk e.2
    · rw [if_pos hok]
      rw [ih _ (fun e' he' => hget e' (List.mem_cons_of_mem _ he'))]
      rw [List.filter_cons_of_pos (by simp [hok])]
      refine Prod.ext ?_ ?_
      · simp [List.append_assoc]
      · simp
        omega
    · rw [if_neg hok]
      rw [ih _ (fun e' he' => hget e' (List.mem_cons_of_mem _ he'))]
      rw [List.filter_cons_of_neg (by simp [hok])]

theorem dmStepSpec_fst {env : Env} {m : Material} {e : String × List Nat}
    (h : dmStepSpec env m = some e) : e.1 = eNameOf env m := by
  unfold dmStepSpec at h
  cases ho : (download_file env m.url).1 with
  | none => rw [ho] at h; cases h
  | some r =>
    rw [ho] at h
    obtain ⟨cd, body⟩ := r
    simp only at h
    by_cases hp : pyLower (get_file_extension_from_headers cd m.url) = ".pdf"
    · rw [if_pos hp] at h
      rw [← Option.some.inj h]
      show safeOf m ++ get_file_extension_from_headers cd m.url = eNameOf env m
      unfold eNameOf
      rw [extOf_of_some ho]
    · rw [if_neg hp] at h
      cases h

theorem mem_entries_keys {env : Env} {M : List Material} {k : String}
    (h : k ∈ fsKeys (M.filterMap (dmStepSpec env))) :
    ∃ m' ∈ M, k = eNameOf env m' := by
  unfold fsKeys at h
  obtain ⟨e, he, hk⟩ := List.mem_map.mp h
  obtain ⟨m', hm', hsp⟩ := List.mem_filterMap.mp he
  exact ⟨m', hm', by rw [← hk]; exact dmStepSpec_fst hsp⟩

theorem entries_keys_nodup (env : Env) :
    ∀ (M : List Material), M.Pairwise (fun m m' => safeOf m ≠ safeOf m') →
      (fsKeys (M.filterMap (dmStepSpec env))).Nodup := by
  intro M
  induction M with
  | nil => intro _; simp [fsKeys]
  | cons m M ih =>
    intro hpw
    cases hs : dmStepSpec env m with
    | none =>
      rw [List.filterMap_cons_none hs]
      exact ih (List.Pairwise.of_cons hpw)
    | some e =>
      rw [List.filterMap_cons_some hs, fsKeys_cons]
      rw [List.nodup_cons]
      refine ⟨?_, ih (List.Pairwise.of_cons hpw)⟩
      intro hc
      obtain ⟨m', hm', hk⟩ := mem_entries_keys hc
      rw [dmStepSpec_fst hs] at hk
      exact eNameOf_ne (List.rel_of_pairwise_cons hpw hm') hk

theorem contribs_eq (env : Env) :
    ∀ (M : List Material),
      M.filterMap (mergeContrib env)
        = ((M.filterMap (dmStepSpec env)).filter
            (fun e => env.appendOk e.2)).map (fun e => e.2) := by
  intro M
  induction M with
  | nil => rfl
  | cons m M ih =>
    cases hs : dmStepSpec env m with
    | none =>
      have hc : mergeContrib env m = none := by
        unfold mergeContrib
        rw [hs]
      rw [List.filterMap_cons_none hc, List.filterMap_cons_none hs, ih]
    | some e =>
      by_cases hok : env.appendOk e.2
      · have hc : mergeContrib env m = some e.2 := by
          simp [mergeContrib, hs, hok]
        rw [List.filterMap_cons_some hc, List.filterMap_cons_some hs,
          List.filter_cons_of_pos (by simp [hok]), List.map_cons, ih]
      · have hc : mergeContrib env m = none := by
          simp [mergeContrib, hs, hok]
        rw [List.filterMap_cons_none hc, List.filterMap_cons_some hs,
          List.filter_cons_of_neg (by simp [hok]), ih]

set_option maxHeartbeats 1000000 in
theorem dmMergeUnit_spec (env : Env) (st : DmMergeSt) (u : MUnit)
    (hkt : ∀ k ∈ fsKeys st.scratch, ¬ tempMark <+: k.data)
    (htfM : ∀ m ∈ unitMaterials u, TempFree m)
    (hkeM : ∀ m ∈ unitMaterials u, eNameOf env m ∉ fsKeys st.scratch)
    (hpw : (unitMaterials u).Pairwise (fun m m' => safeOf m ≠ safeOf m')) :
    dmMergeUnit env st u =
      { scratch := ((unitMaterials u).filterMap (dmStepSpec env)).reverse
          ++ st.scratch,
        outWrites := st.outWrites ++ [dmUnitWriteSpec env u],
        failLog := st.failLog
          ++ (unitMaterials u).flatMap (fun m => (download_file env m.url).2),
        placedPdf := st.placedPdf
          ++ ((unitMaterials u).filterMap (dmStepSpec env)).map
              (fun e => e.1) } := by
  simp only [dmMergeUnit]
  rw [dmMergeMaterials_fold env (unitMaterials u)
    { scratch := st.scratch, pdfPaths := [], failLog := st.failLog,
      placedPdf := st.placedPdf } hkt htfM hkeM hpw]
  simp only [List.nil_append]
  have hgets : ∀ e ∈ (unitMaterials u).filterMap (dmStepSpec env),
      fsGet (((unitMaterials u).filterMap (dmStepSpec env)).reverse
        ++ st.scratch) e.1 = some e.2 := by
    intro e he
    exact fsGet_rev_entries he (entries_keys_nodup env _ hpw)
  by_cases hE : (unitMaterials u).filterMap (dmStepSpec env) = []
  · rw [hE]
    have hspec : dmUnitWriteSpec env u = none := by
      unfold dmUnitWriteSpec
      rw [if_pos (by rw [contribs_eq, hE]; rfl)]
    rw [hspec]
    simp
  · have hmapE : ((unitMaterials u).filterMap (dmStepSpec env)).map
        (fun e => e.1) ≠ [] := by
      simpa using hE
    rw [if_neg hmapE]
    rw [dmMergeAppend_fold env _ _ ([], 0) hgets]
    simp only [List.nil_append, Nat.zero_add]
    by_cases hF : ((unitMaterials u).filterMap (dmStepSpec env)).filter
        (fun e => env.appendOk e.2) = []
    · rw [if_pos (by rw [hF]; rfl)]
      have hspec : dmUnitWriteSpec env u = none := by
        unfold dmUnitWriteSpec
        rw [if_pos (by rw [contribs_eq, hF]; rfl)]
      rw [hspec]
    · rw [if_neg (by
        intro hc
        exact hF (List.length_eq_zero.mp hc))]
      have hspec : dmUnitWriteSpec env u =
          some (sanitize_filename (pyStripWS u.title) ++ ".pdf",
            (((unitMaterials u).filterMap (dmStepSpec env)).filter
              (fun e => env.appendOk e.2)).flatMap (fun e => e.2)) := by
        unfold dmUnitWriteSpec
        rw [if_neg (by
          rw [contribs_eq]
          simpa using hF)]
        rw [contribs_eq]
        rfl
      rw [hspec]

theorem fsKeys_append (A B : Fs) : fsKeys (A ++ B) = fsKeys A ++ fsKeys B :=
  List.map_append _ _ _

theorem fsKeys_reverse (A : Fs) : fsKeys A.reverse = (fsKeys A).reverse := by
  unfold fsKeys
  rw [List.map_reverse]

set_option maxHeartbeats 1000000 in
theorem dmMergeUnits_fold (env : Env) :
    ∀ (us : List MUnit) (st : DmMergeSt),
      (∀ k ∈ fsKeys st.scratch, ¬ tempMark <+: k.data) →
      (∀ m ∈ us.flatMap unitMaterials, TempFree m) →
      (∀ m ∈ us.flatMap unitMaterials, eNameOf env m ∉ fsKeys st.scratch) →
      (us.flatMap unitMaterials).Pairwise (fun m m' => safeOf m ≠ safeOf m') →
      us.foldl (dmMergeUnit env) st =
        { scratch := ((us.flatMap unitMaterials).filterMap
            (dmStepSpec env)).reverse ++ st.scratch,
          outWrites := st.outWrites ++ us.map (dmUnitWriteSpec env),
          failLog := st.failLog ++ (us.flatMap unitMaterials).flatMap
            (fun m => (download_file env m.url).2),
          placedPdf := st.placedPdf ++ ((us.flatMap unitMaterials).filterMap
            (dmStepSpec env)).map (fun e => e.1) } := by
  intro us
  induction us with
  | nil =>
    intro st _ _ _ _
    simp
  | cons u us ih =>
    intro st hkt htfM hkeM hpw
    rw [List.foldl_cons]
    have hflat : (u :: us).flatMap unitMaterials
        = unitMaterials u ++ us.flatMap unitMaterials := by
      simp
    rw [hflat] at htfM hkeM hpw
    obtain ⟨hpwu, hpwus, hcross⟩ := List.pairwise_append.mp hpw
    rw [dmMergeUnit_spec env st u hkt
      (fun m hm => htfM m (List.mem_append_left _ hm))
      (fun m hm => hkeM m (List.mem_append_left _ hm)) hpwu]
    have hkt' : ∀ k ∈ fsKeys (((unitMaterials u).filterMap
        (dmStepSpec env)).reverse ++ st.scratch),
        ¬ tempMark <+: k.data := by
      intro k hk
      rw [fsKeys_append, fsKeys_reverse] at hk
      rcases List.mem_append.mp hk with hk | hk
      · obtain ⟨m', hm', hk'⟩ := mem_entries_keys (List.mem_reverse.mp hk)
        rw [hk']
        exact eNameOf_not_temp (htfM m' (List.mem_append_left _ hm'))
      · exact hkt k hk
    have hke' : ∀ m ∈ us.flatMap unitMaterials,
        eNameOf env m ∉ fsKeys (((unitMaterials u).filterMap
          (dmStepSpec env)).reverse ++ st.scratch) := by
      intro m hm hc
      rw [fsKeys_append, fsKeys_reverse] at hc
      rcases List.mem_append.mp hc with hc | hc
      · obtain ⟨m', hm', hk'⟩ := mem_entries_keys (List.mem_reverse.mp hc)
        exact eNameOf_ne (Ne.symm (hcross m' hm' m hm)) hk'
      · exact hkeM m (List.mem_append_right _ hm) hc
    rw [ih (DmMergeSt.mk
        (((unitMaterials u).filterMap (dmStepSpec env)).reverse ++ st.scratch)
        (st.outWrites ++ [dmUnitWriteSpec env u])
        (st.failLog ++ (unitMaterials u).flatMap
          (fun m => (download_file env m.url).2))
        (st.placedPdf ++ ((unitMaterials u).filterMap
          (dmStepSpec env)).map (fun e => e.1)))
      hkt' (fun m hm => htfM m (List.mem_append_right _ hm)) hke' hpwus]
    rw [hflat]
    simp [List.filterMap_append, List.append_assoc, List.reverse_append]

/-- The merge-mode run of `download_material.py`, characterised under the
collision-freedom hypotheses. -/
theorem dmRunMerge_spec (env : Env)
    (h1 : (allMaterials env).Pairwise (fun m m' => safeOf m ≠ safeOf m'))
    (h2 : ∀ m ∈ allMaterials env, TempFree m) :
    (dmRunMerge env).outWrites = env.units.map (dmUnitWriteSpec env) := by
  unfold dmRunMerge
  rw [dmMergeUnits_fold env env.units
    { scratch := [], outWrites := [], failLog := [], placedPdf := [] }
    (by intro k hk; simp [fsKeys] at hk) h2 (by intro m _ hc; simp [fsKeys] at hc) h1]
  simp

/-! ### Merge mode of `download_material.py` without distinct titles

The collision resolver makes the per-unit merged output independent of
title collisions: a material whose final name is taken is staged under a
fresh suffixed name, and every placed pdf entry persists in the scratch
directory (later temp writes use `temp_`-prefixed names, later renames
target fresh names, later erases remove only the just-renamed name).  The
characterisation below therefore assumes only that no sanitized title
starts with the staging marker. -/

theorem fsGet_mem_keys {fs : Fs} {p : String} {c : List Nat}
    (h : fsGet fs p = some c) : p ∈ fsKeys fs := by
  unfold fsGet at h
  cases hf : fs.find? (fun e => e.1 = p) with
  | none => rw [hf] at h; cases h
  | some e =>
    have hmem := List.mem_of_find?_eq_some hf
    have hp := List.find?_some hf
    have heq : e.1 = p := by simpa using hp
    exact heq ▸ List.mem_map_of_mem _ hmem

theorem filter_snd_map (ok : List Nat → Bool) :
    ∀ (l : Fs),
      (l.filter (fun e => ok e.2)).map (fun e => e.2)
        = (l.map (fun e => e.2)).filter ok := by
  intro l
  induction l with
  | nil => rfl
  | cons e l ih =>
    cases h : ok e.2 with
    | true =>
      rw [List.filter_cons_of_pos (by simp [h]), List.map_cons,
        List.map_cons, List.filter_cons_of_pos (by simp [h]), ih]
    | false =>
      rw [List.filter_cons_of_neg (by simp [h]), List.map_cons,
        List.filter_cons_of_neg (by simp [h]), ih]

theorem unique_bare_not_temp {m : Material} (htf : TempFree m)
    (keys : List String) {e : String} (he : ExtShape e) :
    ¬ tempMark <+: (get_unique_filename keys (safeOf m ++ e)).data := by
  by_cases hmem : safeOf m ++ e ∈ keys
  · obtain ⟨k, _, heq, _, _⟩ := get_unique_filename_spec keys _ hmem
    rw [heq, uniqueCand_bare (safeOf_no_slash m) (safeOf_nondot m) he]
    exact not_temp_pref_cand htf k
  · rw [get_unique_filename_of_not_mem _ _ hmem]
    exact not_temp_pref_ext htf he

set_option maxHeartbeats 2000000 in
theorem dmMergeMaterial_step2 (env : Env) (st : DmUnitSt) (m : Material)
    {cd : String} {body : List Nat}
    (hdf : download_file env m.url = (some (cd, body), []))
    (hkt : ∀ k ∈ fsKeys st.scratch, ¬ tempMark <+: k.data) :
    dmMergeMaterial env st m =
      if pyLower (get_file_extension_from_headers cd m.url) = ".pptx"
         ∨ pyLower (get_file_extension_from_headers cd m.url) = ".ppt" then st
      else if pyLower (get_file_extension_from_headers cd m.url) = ".pdf" then
        { st with
            scratch :=
              (get_unique_filename
                (("temp_" ++ safeOf m) :: fsKeys st.scratch)
                (safeOf m ++ get_file_extension_from_headers cd m.url),
               body) :: st.scratch
            pdfPaths := st.pdfPaths ++
              [get_unique_filename
                (("temp_" ++ safeOf m) :: fsKeys st.scratch)
                (safeOf m ++ get_file_extension_from_headers cd m.url)]
            placedPdf := st.placedPdf ++
              [get_unique_filename
                (("temp_" ++ safeOf m) :: fsKeys st.scratch)
                (safeOf m ++ get_file_extension_from_headers cd m.url)] }
      else st := by
  have htk : ("temp_" ++ safeOf m) ∉ fsKeys st.scratch := by
    intro hc
    exact hkt _ hc (tempMark_pref (safeOf m))
  have hun : get_unique_filename (("temp_" ++ safeOf m) :: fsKeys st.scratch)
      (safeOf m ++ get_file_extension_from_headers cd m.url)
      ∉ ("temp_" ++ safeOf m) :: fsKeys st.scratch :=
    get_unique_filename_not_mem _ _
  have hun_sc : get_unique_filename
      (("temp_" ++ safeOf m) :: fsKeys st.scratch)
      (safeOf m ++ get_file_extension_from_headers cd m.url)
      ∉ fsKeys st.scratch :=
    fun hc => hun (List.mem_cons_of_mem _ hc)
  unfold dmMergeMaterial
  simp only [hdf]
  rw [fsWrite_fresh body htk]
  rw [show fsKeys (("temp_" ++ safeOf m, body) :: st.scratch)
    = ("temp_" ++ safeOf m) :: fsKeys st.scratch from rfl]
  have h4 : fsRename (("temp_" ++ safeOf m, body) :: st.scratch)
      ("temp_" ++ safeOf m)
      (get_unique_filename (("temp_" ++ safeOf m) :: fsKeys st.scratch)
        (safeOf m ++ get_file_extension_from_headers cd m.url))
      = (get_unique_filename (("temp_" ++ safeOf m) :: fsKeys st.scratch)
          (safeOf m ++ get_file_extension_from_headers cd m.url), body)
        :: st.scratch := by
    unfold fsRename
    rw [fsGet_head]
    rw [fsErase_cons_self, fsErase_not_mem htk]
    exact fsWrite_fresh body hun_sc
  rw [h4]
  have h5 : fsErase
      ((get_unique_filename (("temp_" ++ safeOf m) :: fsKeys st.scratch)
          (safeOf m ++ get_file_extension_from_headers cd m.url), body)
        :: st.scratch)
      (get_unique_filename (("temp_" ++ safeOf m) :: fsKeys st.scratch)
        (safeOf m ++ get_file_extension_from_headers cd m.url))
      = st.scratch := by
    rw [fsErase_cons_self, fsErase_not_mem hun_sc]
  rw [h5]

set_option maxHeartbeats 1000000 in
theorem dmMergeMaterials_fold2 (env : Env) :
    ∀ (M : List Material) (st : DmUnitSt),
      (∀ m ∈ M, TempFree m) →
      (fsKeys st.scratch).Nodup →
      (∀ k ∈ fsKeys st.scratch, ¬ tempMark <+: k.data) →
      ∃ E : Fs,
        (M.foldl (dmMergeMaterial env) st).pdfPaths
          = st.pdfPaths ++ E.map (fun e => e.1) ∧
        E.map (fun e => e.2)
          = (M.filterMap (dmStepSpec env)).map (fun e => e.2) ∧
        (∀ e ∈ E, fsGet (M.foldl (dmMergeMaterial env) st).scratch e.1
          = some e.2) ∧
        (∀ p c, fsGet st.scratch p = some c →
          fsGet (M.foldl (dmMergeMaterial env) st).scratch p = some c) ∧
        (fsKeys (M.foldl (dmMergeMaterial env) st).scratch).Nodup ∧
        (∀ k ∈ fsKeys (M.foldl (dmMergeMaterial env) st).scratch,
          ¬ tempMark <+: k.data) := by
  intro M
  induction M with
  | nil =>
    intro st _ hnd hkt
    refine ⟨[], by simp, rfl, ?_, ?_, hnd, hkt⟩
    · intro e he
      cases he
    · intro p c hpc
      exact hpc
  | cons m M ih =>
    intro st htfM hnd hkt
    have htf : TempFree m := htfM m (List.mem_cons_self _ _)
    have htfM' : ∀ m' ∈ M, TempFree m' :=
      fun m' hm' => htfM m' (List.mem_cons_of_mem _ hm')
    rw [List.foldl_cons]
    cases ho : (download_file env m.url).1 with
    | none =>
      have hsc : (dmMergeMaterial env st m).scratch = st.scratch := by
        rw [dmMergeMaterial_fail ho]
      have hppp : (dmMergeMaterial env st m).pdfPaths = st.pdfPaths := by
        rw [dmMergeMaterial_fail ho]
      have hnd2 : (fsKeys (dmMergeMaterial env st m).scratch).Nodup := by
        rw [hsc]
        exact hnd
      have hkt2 : ∀ k ∈ fsKeys (dmMergeMaterial env st m).scratch,
          ¬ tempMark <+: k.data := by
        rw [hsc]
        exact hkt
      obtain ⟨E, h1, h2, h3, h4, h5, h6⟩ :=
        ih (dmMergeMaterial env st m) htfM' hnd2 hkt2
      refine ⟨E, ?_, ?_, h3, ?_, h5, h6⟩
      · rw [h1, hppp]
      · rw [h2, List.filterMap_cons_none (dmStepSpec_fail ho)]
      · intro p c hpc
        exact h4 p c (by rw [hsc]; exact hpc)
    | some r =>
      obtain ⟨cd, body⟩ := r
      have hdf : download_file env m.url = (some (cd, body), []) :=
        download_file_of_some ho
      by_cases hppt :
          pyLower (get_file_extension_from_headers cd m.url) = ".pptx"
          ∨ pyLower (get_file_extension_from_headers cd m.url) = ".ppt"
      · have hsc : (dmMergeMaterial env st m).scratch = st.scratch := by
          rw [dmMergeMaterial_step2 env st m hdf hkt, if_pos hppt]
        have hppp : (dmMergeMaterial env st m).pdfPaths = st.pdfPaths := by
          rw [dmMergeMaterial_step2 env st m hdf hkt, if_pos hppt]
        have hnone : dmStepSpec env m = none := by
          rw [dmStepSpec_some ho, if_neg (by
            rw [extOf_of_some ho]
            rcases hppt with h | h
            · rw [h]; decide
            · rw [h]; decide)]
        have hnd2 : (fsKeys (dmMergeMaterial env st m).scratch).Nodup := by
          rw [hsc]
          exact hnd
        have hkt2 : ∀ k ∈ fsKeys (dmMergeMaterial env st m).scratch,
            ¬ tempMark <+: k.data := by
          rw [hsc]
          exact hkt
        obtain ⟨E, h1, h2, h3, h4, h5, h6⟩ :=
          ih (dmMergeMaterial env st m) htfM' hnd2 hkt2
        refine ⟨E, ?_, ?_, h3, ?_, h5, h6⟩
        · rw [h1, hppp]
        · rw [h2, List.filterMap_cons_none hnone]
        · intro p c hpc
          exact h4 p c (by rw [hsc]; exact hpc)
      · by_cases hpdf :
            pyLower (get_file_extension_from_headers cd m.url) = ".pdf"
        · obtain ⟨un, hsc, hppp, hun_sc, hun_t⟩ :
              ∃ un : String,
                (dmMergeMaterial env st m).scratch
                  = (un, body) :: st.scratch ∧
                (dmMergeMaterial env st m).pdfPaths
                  = st.pdfPaths ++ [un] ∧
                un ∉ fsKeys st.scratch ∧
                ¬ tempMark <+: un.data := by
            refine ⟨get_unique_filename
                (("temp_" ++ safeOf m) :: fsKeys st.scratch)
                (safeOf m ++ get_file_extension_from_headers cd m.url),
              ?_, ?_, ?_, ?_⟩
            · rw [dmMergeMaterial_step2 env st m hdf hkt, if_neg hppt,
                if_pos hpdf]
            · rw [dmMergeMaterial_step2 env st m hdf hkt, if_neg hppt,
                if_pos hpdf]
            · exact fun hc => get_unique_filename_not_mem _ _
                (List.mem_cons_of_mem _ hc)
            · exact unique_bare_not_temp htf _ (get_ext_shape cd m.url)
          have hnd2 : (fsKeys (dmMergeMaterial env st m).scratch).Nodup := by
            rw [hsc, show fsKeys ((un, body) :: st.scratch)
              = un :: fsKeys st.scratch from rfl, List.nodup_cons]
            exact ⟨hun_sc, hnd⟩
          have hkt2 : ∀ k ∈ fsKeys (dmMergeMaterial env st m).scratch,
              ¬ tempMark <+: k.data := by
            rw [hsc, show fsKeys ((un, body) :: st.scratch)
              = un :: fsKeys st.scratch from rfl]
            intro k hk
            rcases List.mem_cons.mp hk with hk | hk
            · rw [hk]
              exact hun_t
            · exact hkt k hk
          obtain ⟨E, h1, h2, h3, h4, h5, h6⟩ :=
            ih (dmMergeMaterial env st m) htfM' hnd2 hkt2
          have hsome : dmStepSpec env m = some (eNameOf env m, body) := by
            rw [dmStepSpec_some ho,
              if_pos (by rw [extOf_of_some ho]; exact hpdf)]
          refine ⟨(un, body) :: E, ?_, ?_, ?_, ?_, h5, h6⟩
          · rw [h1, hppp]
            simp [List.append_assoc]
          · simp only [List.map_cons, List.filterMap_cons_some hsome, h2]
          · intro e he
            rcases List.mem_cons.mp he with he | he
            · rw [he]
              exact h4 un body (by rw [hsc]; exact fsGet_head _ _ _)
            · exact h3 e he
          · intro p c hpc
            have hne : un ≠ p := by
              intro hc
              exact hun_sc (by rw [hc]; exact fsGet_mem_keys hpc)
            exact h4 p c (by rw [hsc, fsGet_tail hne]; exact hpc)
        · have hsc : (dmMergeMaterial env st m).scratch = st.scratch := by
            rw [dmMergeMaterial_step2 env st m hdf hkt, if_neg hppt,
              if_neg hpdf]
          have hppp : (dmMergeMaterial env st m).pdfPaths = st.pdfPaths := by
            rw [dmMergeMaterial_step2 env st m hdf hkt, if_neg hppt,
              if_neg hpdf]
          have hnone : dmStepSpec env m = none := by
            rw [dmStepSpec_some ho,
              if_neg (by rw [extOf_of_some ho]; exact hpdf)]
          have hnd2 : (fsKeys (dmMergeMaterial env st m).scratch).Nodup := by
            rw [hsc]
            exact hnd
          have hkt2 : ∀ k ∈ fsKeys (dmMergeMaterial env st m).scratch,
              ¬ tempMark <+: k.data := by
            rw [hsc]
            exact hkt
          obtain ⟨E, h1, h2, h3, h4, h5, h6⟩ :=
            ih (dmMergeMaterial env st m) htfM' hnd2 hkt2
          refine ⟨E, ?_, ?_, h3, ?_, h5, h6⟩
          · rw [h1, hppp]
          · rw [h2, List.filterMap_cons_none hnone]
          · intro p c hpc
            exact h4 p c (by rw [hsc]; exact hpc)

set_option maxHeartbeats 2000000 in
theorem dmMergeUnit_spec2 (env : Env) (st : DmMergeSt) (u : MUnit)
    (htfM : ∀ m ∈ unitMaterials u, TempFree m)
    (hnd : (fsKeys st.scratch).Nodup)
    (hkt : ∀ k ∈ fsKeys st.scratch, ¬ tempMark <+: k.data) :
    (dmMergeUnit env st u).outWrites
      = st.outWrites ++ [dmUnitWriteSpec env u] ∧
    (fsKeys (dmMergeUnit env st u).scratch).Nodup ∧
    (∀ k ∈ fsKeys (dmMergeUnit env st u).scratch,
      ¬ tempMark <+: k.data) := by
  obtain ⟨E, h1, h2, h3, h4, h5, h6⟩ := dmMergeMaterials_fold2 env
    (unitMaterials u)
    ⟨st.scratch, [], st.failLog, st.placedPdf⟩ htfM hnd hkt
  have h712 : (unitMaterials u).filterMap (mergeContrib env)
      = (E.filter (fun e => env.appendOk e.2)).map (fun e => e.2) := by
    rw [contribs_eq, filter_snd_map, filter_snd_map, h2]
  simp only [dmMergeUnit]
  by_cases hE : E = []
  · have hpp : ((unitMaterials u).foldl (dmMergeMaterial env)
        ⟨st.scratch, [], st.failLog, st.placedPdf⟩).pdfPaths = [] := by
      rw [h1, hE]
      rfl
    rw [if_pos hpp]
    have hspec : dmUnitWriteSpec env u = none := by
      unfold dmUnitWriteSpec
      rw [if_pos (by rw [h712, hE]; rfl)]
    refine ⟨?_, h5, h6⟩
    show st.outWrites ++ [none] = st.outWrites ++ [dmUnitWriteSpec env u]
    rw [hspec]
  · have hpp : ¬ ((unitMaterials u).foldl (dmMergeMaterial env)
        ⟨st.scratch, [], st.failLog, st.placedPdf⟩).pdfPaths = [] := by
      rw [h1]
      simp [hE]
    rw [if_neg hpp]
    have hmerged : ((unitMaterials u).foldl (dmMergeMaterial env)
          ⟨st.scratch, [], st.failLog, st.placedPdf⟩).pdfPaths.foldl
        (dmMergeAppend env ((unitMaterials u).foldl (dmMergeMaterial env)
          ⟨st.scratch, [], st.failLog, st.placedPdf⟩).scratch) ([], 0)
        = ((E.filter (fun e => env.appendOk e.2)).flatMap (fun e => e.2),
           (E.filter (fun e => env.appendOk e.2)).length) := by
      rw [h1, show (⟨st.scratch, [], st.failLog,
          st.placedPdf⟩ : DmUnitSt).pdfPaths = [] from rfl,
        List.nil_append, dmMergeAppend_fold env _ E ([], 0) h3]
      simp
    have hm1 : (((unitMaterials u).foldl (dmMergeMaterial env)
          ⟨st.scratch, [], st.failLog, st.placedPdf⟩).pdfPaths.foldl
        (dmMergeAppend env ((unitMaterials u).foldl (dmMergeMaterial env)
          ⟨st.scratch, [], st.failLog, st.placedPdf⟩).scratch) ([], 0)).1
        = (E.filter (fun e => env.appendOk e.2)).flatMap (fun e => e.2) := by
      rw [hmerged]
    have hm2 : (((unitMaterials u).foldl (dmMergeMaterial env)
          ⟨st.scratch, [], st.failLog, st.placedPdf⟩).pdfPaths.foldl
        (dmMergeAppend env ((unitMaterials u).foldl (dmMergeMaterial env)
          ⟨st.scratch, [], st.failLog, st.placedPdf⟩).scratch) ([], 0)).2
        = (E.filter (fun e => env.appendOk e.2)).length := by
      rw [hmerged]
    rw [hm1, hm2]
    by_cases hF : E.filter (fun e => env.appendOk e.2) = []
    · rw [if_pos (by rw [hF]; rfl)]
      have hspec : dmUnitWriteSpec env u = none := by
        unfold dmUnitWriteSpec
        rw [if_pos (by rw [h712, hF]; rfl)]
      refine ⟨?_, h5, h6⟩
      show st.outWrites ++ [none] = st.outWrites ++ [dmUnitWriteSpec env u]
      rw [hspec]
    · rw [if_neg (fun hc => hF (List.length_eq_zero.mp hc))]
      have hspec : dmUnitWriteSpec env u =
          some (sanitize_filename (pyStripWS u.title) ++ ".pdf",
            (E.filter (fun e => env.appendOk e.2)).flatMap (fun e => e.2)) := by
        unfold dmUnitWriteSpec
        rw [if_neg (by rw [h712]; simpa using hF)]
        rw [h712]
        rfl
      refine ⟨?_, h5, h6⟩
      show st.outWrites ++
          [some (sanitize_filename (pyStripWS u.title) ++ ".pdf",
            (E.filter (fun e => env.appendOk e.2)).flatMap (fun e => e.2))]
        = st.outWrites ++ [dmUnitWriteSpec env u]
      rw [hspec]

theorem dmMergeUnits_fold2 (env : Env) :
    ∀ (us : List MUnit) (st : DmMergeSt),
      (∀ m ∈ us.flatMap unitMaterials, TempFree m) →
      (fsKeys st.scratch).Nodup →
      (∀ k ∈ fsKeys st.scratch, ¬ tempMark <+: k.data) →
      (us.foldl (dmMergeUnit env) st).outWrites
        = st.outWrites ++ us.map (dmUnitWriteSpec env) := by
  intro us
  induction us with
  | nil =>
    intro st _ _ _
    simp
  | cons u us ih =>
    intro st htfM hnd hkt
    have hflat : (u :: us).flatMap unitMaterials
        = unitMaterials u ++ us.flatMap unitMaterials := by
      simp
    rw [hflat] at htfM
    obtain ⟨hw, hnd', hkt'⟩ := dmMergeUnit_spec2 env st u
      (fun m hm => htfM m (List.mem_append_left _ hm)) hnd hkt
    rw [List.foldl_cons,
      ih (dmMergeUnit env st u)
        (fun m hm => htfM m (List.mem_append_right _ hm)) hnd' hkt',
      hw]
    simp

/-- The merge-mode run of `download_material.py`, characterised assuming
only that no sanitized title starts with the staging marker: the collision
resolver makes the per-unit output independent of duplicate titles. -/
theorem dmRunMerge_spec2 (env : Env)
    (h2 : ∀ m ∈ allMaterials env, TempFree m) :
    (dmRunMerge env).outWrites = env.units.map (dmUnitWriteSpec env) := by
  unfold dmRunMerge
  rw [dmMergeUnits_fold2 env env.units
    { scratch := [], outWrites := [], failLog := [], placedPdf := [] }
    h2 List.nodup_nil (by intro k hk; simp [fsKeys] at hk)]
  simp

/-! ### The merge mode of `download_using_lib.py` -/

theorem libDest_ne {m m' : Material} (h : safeOf m ≠ safeOf m') :
    libDest m ≠ libDest m' := by
  intro hc
  exact h (append_ext_inj (libExt_shape m) (libExt_shape m') hc).1

theorem fsGet_not_mem {fs : Fs} {p : String} (h : p ∉ fsKeys fs) :
    fsGet fs p = none := by
  unfold fsGet
  cases hf : fs.find? (fun e => e.1 = p) with
  | none => rfl
  | some e =>
    have hmem := List.mem_of_find?_eq_some hf
    have hp := List.find?_some hf
    have heq : e.1 = p := by simpa using hp
    exact absurd (heq ▸ List.mem_map_of_mem _ hmem) h

theorem libMergeMaterial_skip {env : Env}
    {st : Fs × List String × List String} {m : Material}
    (h : ¬ libPdfIsh m) : libMergeMaterial env st m = st := by
  have hcond : pyLower (libExt m) ≠ ".pdf" := by
    unfold libPdfIsh at h
    exact h
  unfold libMergeMaterial
  rw [if_pos hcond]

theorem libMergeMaterial_fail {env : Env}
    {st : Fs × List String × List String} {m : Material}
    (hp : libPdfIsh m) (h : (download_file env m.url).1 = none) :
    libMergeMaterial env st m =
      (st.1, st.2.1 ++ [libDest m], st.2.2 ++ (download_file env m.url).2) := by
  have hcond : ¬ pyLower (libExt m) ≠ ".pdf" := by
    unfold libPdfIsh at hp
    exact not_not_intro hp
  cases hdf : download_file env m.url with
  | mk o msgs =>
    have ho : o = none := by rw [hdf] at h; exact h
    subst ho
    unfold libMergeMaterial
    rw [if_neg hcond, hdf]

theorem libMergeMaterial_ok {env : Env}
    {st : Fs × List String × List String} {m : Material}
    {cd : String} {body : List Nat} (hp : libPdfIsh m)
    (hdf : download_file env m.url = (some (cd, body), [])) :
    libMergeMaterial env st m =
      (fsWrite st.1 (libDest m) body, st.2.1 ++ [libDest m], st.2.2) := by
  have hcond : ¬ pyLower (libExt m) ≠ ".pdf" := by
    unfold libPdfIsh at hp
    exact not_not_intro hp
  unfold libMergeMaterial
  rw [if_neg hcond, hdf]

theorem libPlace_fst {env : Env} {m : Material} {e : String × List Nat}
    (h : libPlace env m = some e) :
    (download_file env m.url).1 ≠ none ∧ e.1 = libDest m := by
  unfold libPlace at h
  by_cases hp : libPdfIsh m
  · rw [if_pos hp] at h
    cases ho : (download_file env m.url).1 with
    | none => rw [ho] at h; cases h
    | some r =>
      rw [ho, Option.map_some'] at h
      refine ⟨by simp [ho], ?_⟩
      rw [← Option.some.inj h]
  · rw [if_neg hp] at h
    cases h

theorem mem_libEntries_keys {env : Env} {M : List Material} {k : String}
    (h : k ∈ fsKeys (M.filterMap (libPlace env))) :
    ∃ m' ∈ M, (download_file env m'.url).1 ≠ none ∧ k = libDest m' := by
  unfold fsKeys at h
  obtain ⟨e, he, hk⟩ := List.mem_map.mp h
  obtain ⟨m', hm', hsp⟩ := List.mem_filterMap.mp he
  obtain ⟨hdl, hfst⟩ := libPlace_fst hsp
  exact ⟨m', hm', hdl, by rw [← hk, hfst]⟩

theorem dest_eq_of_pairwise {M : List Material}
    (hpw : M.Pairwise (fun a b => safeOf a ≠ safeOf b))
    {m m' : Material} (hm : m ∈ M) (hm' : m' ∈ M)
    (h : libDest m = libDest m') : m = m' := by
  by_contra hne
  exact libDest_ne (hpw.forall (fun _ _ hx => Ne.symm hx) hm hm' hne) h

theorem libEntries_keys_nodup (env : Env) :
    ∀ (M : List Material), M.Pairwise (fun m m' => safeOf m ≠ safeOf m') →
      (fsKeys (M.filterMap (libPlace env))).Nodup := by
  intro M
  induction M with
  | nil => intro _; simp [fsKeys]
  | cons m M ih =>
    intro hpw
    cases hs : libPlace env m with
    | none =>
      rw [List.filterMap_cons_none hs]
      exact ih (List.Pairwise.of_cons hpw)
    | some e =>
      rw [List.filterMap_cons_some hs,
        show fsKeys (e :: M.filterMap (libPlace env))
          = e.1 :: fsKeys (M.filterMap (libPlace env)) from rfl,
        List.nodup_cons]
      refine ⟨?_, ih (List.Pairwise.of_cons hpw)⟩
      intro hc
      obtain ⟨m', hm', _, hk⟩ := mem_libEntries_keys hc
      rw [(libPlace_fst hs).2] at hk
      exact libDest_ne (List.rel_of_pairwise_cons hpw hm') hk

set_option maxHeartbeats 1000000 in
theorem libMergeMaterials_fold (env : Env) :
    ∀ (M : List Material) (scratch : Fs) (paths logL : List String),
      (∀ m ∈ M, libPdfIsh m → libDest m ∉ fsKeys scratch) →
      M.Pairwise (fun m m' => safeOf m ≠ safeOf m') →
      M.foldl (libMergeMaterial env) (scratch, paths, logL) =
        ((M.filterMap (libPlace env)).reverse ++ scratch,
         paths ++ M.filterMap libRecord,
         logL ++ M.flatMap (fun m =>
           if libPdfIsh m then (download_file env m.url).2 else [])) := by
  intro M
  induction M with
  | nil =>
    intro scratch paths logL _ _
    simp
  | cons m M ih =>
    intro scratch paths logL hfresh hpw
    rw [List.foldl_cons]
    by_cases hp : libPdfIsh m
    · have hrec : libRecord m = some (libDest m) := by
        unfold libRecord
        rw [if_pos hp]
      cases ho : (download_file env m.url).1 with
      | none =>
        rw [libMergeMaterial_fail hp ho]
        rw [ih scratch (paths ++ [libDest m])
          (logL ++ (download_file env m.url).2)
          (fun m' hm' hp' => hfresh m' (List.mem_cons_of_mem _ hm') hp')
          (List.Pairwise.of_cons hpw)]
        have hplace : libPlace env m = none := by
          unfold libPlace
          rw [if_pos hp, ho]
          rfl
        rw [List.filterMap_cons_none hplace,
          List.filterMap_cons_some hrec]
        simp [hp, List.append_assoc]
      | some r =>
        obtain ⟨cd, body⟩ := r
        have hdf : download_file env m.url = (some (cd, body), []) :=
          download_file_of_some ho
        rw [libMergeMaterial_ok hp hdf]
        have hfr : libDest m ∉ fsKeys scratch :=
          hfresh m (List.mem_cons_self _ _) hp
        rw [show fsWrite scratch (libDest m) body
          = (libDest m, body) :: scratch from fsWrite_fresh body hfr]
        have hfresh' : ∀ m' ∈ M, libPdfIsh m' →
            libDest m' ∉ fsKeys ((libDest m, body) :: scratch) := by
          intro m' hm' hp' hc
          rcases List.mem_cons.mp hc with hc | hc
          · exact libDest_ne
              (Ne.symm (List.rel_of_pairwise_cons hpw hm')) hc
          · exact hfresh m' (List.mem_cons_of_mem _ hm') hp' hc
        rw [ih ((libDest m, body) :: scratch) (paths ++ [libDest m]) logL
          hfresh' (List.Pairwise.of_cons hpw)]
        have hplace : libPlace env m = some (libDest m, body) := by
          unfold libPlace
          rw [if_pos hp, ho]
          rfl
        rw [List.filterMap_cons_some hplace,
          List.filterMap_cons_some hrec]
        simp [hp, hdf, List.append_assoc]
    · rw [libMergeMaterial_skip hp]
      rw [ih scratch paths logL
        (fun m' hm' hp' => hfresh m' (List.mem_cons_of_mem _ hm') hp')
        (List.Pairwise.of_cons hpw)]
      have hplace : libPlace env m = none := by
        unfold libPlace
        rw [if_neg hp]
      have hrec : libRecord m = none := by
        unfold libRecord
        rw [if_neg hp]
      rw [List.filterMap_cons_none hplace, List.filterMap_cons_none hrec]
      simp [hp]

theorem libMergeAppendAll_cons_none {env : Env} {S : Fs} {p : String}
    {ps : List String} (h : fsGet S p = none) :
    libMergeAppendAll env S (p :: ps) = none := by
  rw [show libMergeAppendAll env S (p :: ps) =
    match fsGet S p with
    | none => none
    | some c =>
      if env.appendOk c then (libMergeAppendAll env S ps).map (fun d => c ++ d)
      else none
    from rfl, h]

theorem libMergeAppendAll_cons_some {env : Env} {S : Fs} {p : String}
    {ps : List String} {c : List Nat} (h : fsGet S p = some c) :
    libMergeAppendAll env S (p :: ps) =
      if env.appendOk c then (libMergeAppendAll env S ps).map (fun d => c ++ d)
      else none := by
  rw [show libMergeAppendAll env S (p :: ps) =
    match fsGet S p with
    | none => none
    | some c =>
      if env.appendOk c then (libMergeAppendAll env S ps).map (fun d => c ++ d)
      else none
    from rfl, h]

set_option maxHeartbeats 1000000 in
theorem libMergeAppendAll_eval (env : Env) (S : Fs) :
    ∀ (M : List Material),
      (∀ m ∈ M, libPdfIsh m →
        fsGet S (libDest m) = ((download_file env m.url).1).map (fun r => r.2)) →
      libMergeAppendAll env S (M.filterMap libRecord) =
        if ∀ m ∈ M, libPdfIsh m → libContrib env m ≠ none
        then some ((M.filterMap (libContrib env)).flatten)
        else none := by
  intro M
  induction M with
  | nil =>
    intro _
    rw [if_pos (by intro m hm; cases hm)]
    rfl
  | cons m M ih =>
    intro hget
    have hgetM : ∀ m' ∈ M, libPdfIsh m' →
        fsGet S (libDest m') = ((download_file env m'.url).1).map (fun r => r.2) :=
      fun m' hm' => hget m' (List.mem_cons_of_mem _ hm')
    by_cases hp : libPdfIsh m
    · have hrec : libRecord m = some (libDest m) := by
        unfold libRecord
        rw [if_pos hp]
      rw [List.filterMap_cons_some hrec]
      cases ho : (download_file env m.url).1 with
      | none =>
        have hS : fsGet S (libDest m) = none := by
          rw [hget m (List.mem_cons_self _ _) hp, ho]
          rfl
        rw [libMergeAppendAll_cons_none hS]
        have hcon : libContrib env m = none := by
          simp [libContrib, hp, ho]
        rw [if_neg (fun hA => (hA m (List.mem_cons_self _ _) hp) hcon)]
      | some r =>
        have hS : fsGet S (libDest m) = some r.2 := by
          rw [hget m (List.mem_cons_self _ _) hp, ho]
          rfl
        rw [libMergeAppendAll_cons_some hS]
        cases hok : env.appendOk r.2 with
        | false =>
          rw [if_neg Bool.false_ne_true]
          have hcon : libContrib env m = none := by
            simp [libContrib, hp, ho, hok]
          rw [if_neg (fun hA => (hA m (List.mem_cons_self _ _) hp) hcon)]
        | true =>
          rw [if_pos rfl, ih hgetM]
          have hcon : libContrib env m = some r.2 := by
            simp [libContrib, hp, ho, hok]
          rw [List.filterMap_cons_some hcon]
          by_cases hC : ∀ m' ∈ M, libPdfIsh m' → libContrib env m' ≠ none
          · have hCC : ∀ m' ∈ m :: M, libPdfIsh m' → libContrib env m' ≠ none := by
              intro m' hm' hp'
              rcases List.mem_cons.mp hm' with he | hm'
              · rw [he, hcon]
                exact Option.some_ne_none _
              · exact hC m' hm' hp'
            rw [if_pos hC, if_pos hCC]
            simp
          · rw [if_neg hC,
              if_neg (fun hCC => hC
                (fun m' hm' hp' => hCC m' (List.mem_cons_of_mem _ hm') hp'))]
            rfl
    · have hrec : libRecord m = none := by
        unfold libRecord
        rw [if_neg hp]
      have hcon : libContrib env m = none := by
        unfold libContrib
        rw [if_neg hp]
      rw [List.filterMap_cons_none hrec, List.filterMap_cons_none hcon, ih hgetM]
      have hiff : (∀ m' ∈ m :: M, libPdfIsh m' → libContrib env m' ≠ none)
          ↔ (∀ m' ∈ M, libPdfIsh m' → libContrib env m' ≠ none) := by
        constructor
        · exact fun hA m' hm' => hA m' (List.mem_cons_of_mem _ hm')
        · intro hA m' hm' hp'
          rcases List.mem_cons.mp hm' with he | hm'
          · exact absurd (he ▸ hp') hp
          · exact hA m' hm' hp'
      by_cases hC : ∀ m' ∈ M, libPdfIsh m' → libContrib env m' ≠ none
      · rw [if_pos hC, if_pos (hiff.mpr hC)]
      · rw [if_neg hC, if_neg (fun hCC => hC (hiff.mp hCC))]

theorem libScratch_get (env : Env) {M : List Material} {scratch : Fs}
    (hpw : M.Pairwise (fun a b => safeOf a ≠ safeOf b))
    (hOld : ∀ m ∈ M, libPdfIsh m → libDest m ∉ fsKeys scratch) :
    ∀ m ∈ M, libPdfIsh m →
      fsGet ((M.filterMap (libPlace env)).reverse ++ scratch) (libDest m)
        = ((download_file env m.url).1).map (fun r => r.2) := by
  intro m hm hp
  cases ho : (download_file env m.url).1 with
  | some r =>
    have hplace : libPlace env m = some (libDest m, r.2) := by
      unfold libPlace
      rw [if_pos hp, ho]
      rfl
    have hmem : (libDest m, r.2) ∈ M.filterMap (libPlace env) :=
      List.mem_filterMap.mpr ⟨m, hm, hplace⟩
    rw [fsGet_rev_entries hmem (libEntries_keys_nodup env M hpw)]
    rfl
  | none =>
    have hnot : libDest m
        ∉ fsKeys ((M.filterMap (libPlace env)).reverse ++ scratch) := by
      rw [fsKeys_append, fsKeys_reverse]
      intro hc
      rcases List.mem_append.mp hc with hc | hc
      · obtain ⟨m', hm', hdl, hk⟩ :=
          mem_libEntries_keys (List.mem_reverse.mp hc)
        have hmm : m = m' := dest_eq_of_pairwise hpw hm hm' hk
        exact hdl (hmm ▸ ho)
      · exact hOld m hm hp hc
    rw [fsGet_not_mem hnot]
    rfl

theorem libMergeAppendAll_spec (env : Env) {M : List Material} {scratch : Fs}
    (hpw : M.Pairwise (fun a b => safeOf a ≠ safeOf b))
    (hOld : ∀ m ∈ M, libPdfIsh m → libDest m ∉ fsKeys scratch) :
    libMergeAppendAll env ((M.filterMap (libPlace env)).reverse ++ scratch)
        (M.filterMap libRecord) =
      if ∀ m ∈ M, libPdfIsh m → libContrib env m ≠ none
      then some ((M.filterMap (libContrib env)).flatten) else none :=
  libMergeAppendAll_eval env _ M (libScratch_get env hpw hOld)

set_option maxHeartbeats 1000000 in
theorem libMergeUnit_spec (env : Env) (st : LibMergeSt) (u : MUnit)
    (hab : st.aborted = false)
    (hpw : (unitMaterials u).Pairwise (fun a b => safeOf a ≠ safeOf b))
    (hOld : ∀ m ∈ unitMaterials u, libPdfIsh m → libDest m ∉ fsKeys st.scratch) :
    libMergeUnit env st u =
      { scratch := ((unitMaterials u).filterMap (libPlace env)).reverse
          ++ st.scratch,
        outWrites := st.outWrites ++ [libUnitWrite env u],
        failLog := st.failLog ++ (unitMaterials u).flatMap (fun m =>
          if libPdfIsh m then (download_file env m.url).2 else []),
        aborted := decide (libUnitAborts env u) } := by
  have hfold := libMergeMaterials_fold env (unitMaterials u) st.scratch []
    st.failLog hOld hpw
  simp only [libMergeUnit, hab, Bool.false_eq_true, if_false, hfold]
  rw [show ([] : List String) ++ (unitMaterials u).filterMap libRecord
    = (unitMaterials u).filterMap libRecord from List.nil_append _]
  by_cases hrec : (unitMaterials u).filterMap libRecord = []
  · rw [if_pos hrec]
    have hW : libUnitWrite env u = none := by
      unfold libUnitWrite
      rw [if_pos hrec]
    have hA : decide (libUnitAborts env u) = false :=
      decide_eq_false (fun hua => hua.1 hrec)
    rw [hW, hA]
  · rw [if_neg hrec, libMergeAppendAll_spec env hpw hOld]
    by_cases hC : ∀ m ∈ unitMaterials u, libPdfIsh m → libContrib env m ≠ none
    · rw [if_pos hC]
      have hW : libUnitWrite env u =
          some (sanitize_filename (pyStripWS u.title) ++ ".pdf",
            ((unitMaterials u).filterMap (libContrib env)).flatten) := by
        unfold libUnitWrite
        rw [if_neg hrec, if_pos hC]
      have hA : decide (libUnitAborts env u) = false :=
        decide_eq_false (fun hua => hua.2 hC)
      rw [hW, hA]
    · rw [if_neg hC]
      have hW : libUnitWrite env u = none := by
        unfold libUnitWrite
        rw [if_neg hrec, if_neg hC]
      have hA : decide (libUnitAborts env u) = true :=
        decide_eq_true ⟨hrec, hC⟩
      rw [hW, hA]

theorem libMergeUnits_aborted (env : Env) :
    ∀ (us : List MUnit) (st : LibMergeSt), st.aborted = true →
      us.foldl (libMergeUnit env) st =
        { st with outWrites := st.outWrites ++ us.map (fun _ => none) } := by
  intro us
  induction us with
  | nil =>
    intro st _
    simp
  | cons u us ih =>
    intro st hab
    rw [List.foldl_cons]
    have h1 : libMergeUnit env st u
        = { st with outWrites := st.outWrites ++ [none] } := by
      unfold libMergeUnit
      rw [hab, if_pos rfl]
    rw [h1, ih (LibMergeSt.mk st.scratch (st.outWrites ++ [none])
      st.failLog st.aborted) hab]
    simp

set_option maxHeartbeats 1000000 in
theorem libMergeUnits_fold (env : Env) :
    ∀ (us : List MUnit) (st : LibMergeSt),
      st.aborted = false →
      (us.flatMap unitMaterials).Pairwise (fun a b => safeOf a ≠ safeOf b) →
      (∀ m ∈ us.flatMap unitMaterials, libPdfIsh m →
        libDest m ∉ fsKeys st.scratch) →
      (us.foldl (libMergeUnit env) st).outWrites
        = st.outWrites ++ libWritesSpec env us ∧
      (us.foldl (libMergeUnit env) st).aborted = libAbortedSpec env us := by
  intro us
  induction us with
  | nil =>
    intro st hab _ _
    refine ⟨by simp [libWritesSpec], ?_⟩
    simpa [libAbortedSpec] using hab
  | cons u us ih =>
    intro st hab hpw hOld
    have hsplit : (u :: us).flatMap unitMaterials
        = unitMaterials u ++ us.flatMap unitMaterials := by
      simp [List.flatMap_cons]
    rw [hsplit] at hpw hOld
    obtain ⟨hpwu, hpwus, hcross⟩ := List.pairwise_append.mp hpw
    have hOldu : ∀ m ∈ unitMaterials u, libPdfIsh m →
        libDest m ∉ fsKeys st.scratch :=
      fun m hm => hOld m (List.mem_append_left _ hm)
    rw [List.foldl_cons, libMergeUnit_spec env st u hab hpwu hOldu]
    by_cases habort : libUnitAborts env u
    · rw [show decide (libUnitAborts env u) = true from decide_eq_true habort]
      rw [libMergeUnits_aborted env us
        (LibMergeSt.mk
          (((unitMaterials u).filterMap (libPlace env)).reverse ++ st.scratch)
          (st.outWrites ++ [libUnitWrite env u])
          (st.failLog ++ (unitMaterials u).flatMap (fun m =>
            if libPdfIsh m then (download_file env m.url).2 else []))
          true)
        rfl]
      refine ⟨?_, ?_⟩
      · rw [show libWritesSpec env (u :: us) = libUnitWrite env u ::
          (if libUnitAborts env u then us.map (fun _ => none)
           else libWritesSpec env us) from rfl, if_pos habort]
        simp
      · rw [show libAbortedSpec env (u :: us)
          = if libUnitAborts env u then true else libAbortedSpec env us
          from rfl, if_pos habort]
    · rw [show decide (libUnitAborts env u) = false from decide_eq_false habort]
      have hOld' : ∀ m ∈ us.flatMap unitMaterials, libPdfIsh m →
          libDest m ∉ fsKeys
            (((unitMaterials u).filterMap (libPlace env)).reverse
              ++ st.scratch) := by
        intro m hm hp hc
        rw [fsKeys_append, fsKeys_reverse] at hc
        rcases List.mem_append.mp hc with hc | hc
        · obtain ⟨m', hm', _, hk⟩ :=
            mem_libEntries_keys (List.mem_reverse.mp hc)
          exact libDest_ne (hcross m' hm' m hm) hk.symm
        · exact hOld m (List.mem_append_right _ hm) hp hc
      obtain ⟨ho1, ho2⟩ := ih
        (LibMergeSt.mk
          (((unitMaterials u).filterMap (libPlace env)).reverse ++ st.scratch)
          (st.outWrites ++ [libUnitWrite env u])
          (st.failLog ++ (unitMaterials u).flatMap (fun m =>
            if libPdfIsh m then (download_file env m.url).2 else []))
          false)
        rfl hpwus hOld'
      refine ⟨?_, ?_⟩
      · rw [ho1]
        rw [show libWritesSpec env (u :: us) = libUnitWrite env u ::
          (if libUnitAborts env u then us.map (fun _ => none)
           else libWritesSpec env us) from rfl, if_neg habort]
        simp
      · rw [ho2]
        rw [show libAbortedSpec env (u :: us)
          = if libUnitAborts env u then true else libAbortedSpec env us
          from rfl, if_neg habort]

theorem libRunMerge_spec (env : Env)
    (h1 : (allMaterials env).Pairwise (fun m m' => safeOf m ≠ safeOf m')) :
    (libRunMerge env).outWrites = libWritesSpec env env.units ∧
    (libRunMerge env).aborted = libAbortedSpec env env.units := by
  have h := libMergeUnits_fold env env.units
    { scratch := [], outWrites := [], failLog := [], aborted := false }
    rfl h1 (by intro m _ _ hc; simp [fsKeys] at hc)
  simpa [libRunMerge] using h

theorem libWritesSpec_get (env : Env) :
    ∀ (us : List MUnit) (i : Nat) (u : MUnit) (nm : String) (doc : List Nat),
      us.get? i = some u →
      (libWritesSpec env us).get? i = some (some (nm, doc)) →
      doc = ((unitMaterials u).filterMap (libContrib env)).flatten := by
  intro us
  induction us with
  | nil =>
    intro i u nm doc h _
    cases i with
    | zero => cases h
    | succ i => cases h
  | cons u' us ih =>
    intro i u nm doc hu hw
    rw [show libWritesSpec env (u' :: us) = libUnitWrite env u' ::
      (if libUnitAborts env u' then us.map (fun _ => none)
       else libWritesSpec env us) from rfl] at hw
    cases i with
    | zero =>
      rw [List.get?_cons_zero] at hu hw
      have hu' : u' = u := Option.some.inj hu
      have hWu : libUnitWrite env u' = some (nm, doc) := Option.some.inj hw
      unfold libUnitWrite at hWu
      by_cases hrec : (unitMaterials u').filterMap libRecord = []
      · rw [if_pos hrec] at hWu
        cases hWu
      · rw [if_neg hrec] at hWu
        by_cases hC : ∀ m ∈ unitMaterials u', libPdfIsh m →
            libContrib env m ≠ none
        · rw [if_pos hC] at hWu
          injection hWu with hpair
          injection hpair with h1 h2
          rw [← hu', ← h2]
        · rw [if_neg hC] at hWu
          cases hWu
    | succ i =>
      rw [List.get?_cons_succ] at hu hw
      by_cases habort : libUnitAborts env u'
      · rw [if_pos habort, List.get?_map, hu] at hw
        simp at hw
      · rw [if_neg habort] at hw
        exact ih i u nm doc hu hw

/-- **C1 counterexample.**  In `dupEnv` the one unit lists two materials
(titled `"a"`, bodies `[1]` and `[2]`); both are fetched, both have the
mergeable `.pdf` url extension, and both recorded paths are appended
successfully — yet the merged output of `download_using_lib.py` carries the
pages `[2, 2]`, not the listing-order restriction `[1] ++ [2]`: the second
staging write (lines 119-120, 137-139 of `download_using_lib.py`)
overwrites the first because both materials sanitize to the same
destination name. -/
theorem C1_counterexample :
    (libRunMerge dupEnv).outWrites = [some ("U.pdf", [2, 2])] ∧
    ((allMaterials dupEnv).map (fun m => (dupEnv.fetch m.url).2.2)).flatten
      = [1, 2] := by decide

set_option maxHeartbeats 400000 in
/-- In `dupEnv` (two same-titled materials), `download_material.py`'s
collision resolver stages the second material under `a_2.pdf` and the
merged output follows listing order — the invariant needs no
distinct-title proviso for this script. -/
example : (dmRunMerge dupEnv).outWrites = [some ("U.pdf", [1, 2])] := by
  decide

set_option maxHeartbeats 1000000 in
/-- **C1** (amended).  In merge mode the pages of every unit's merged
output are the concatenation, in material listing order (topics in
listing order, then materials in listing order within each topic), of the
bodies of exactly those materials that were successfully fetched,
classified mergeable, and successfully appended.  For
`download_material.py` this holds whenever no sanitized title starts with
the staging marker `temp_` — even when distinct materials sanitize to the
same title, because the collision resolver stages each under a fresh
suffixed name: the per-unit output equals `dmUnitWriteSpec`.  For
`download_using_lib.py` it holds only when all materials of the run have
pairwise distinct sanitized titles; without that the claim fails for that
script (see `C1_counterexample`). -/
theorem C1_merge_page_order (env : Env)
    (h2 : ∀ m ∈ allMaterials env, TempFree m) :
    (∀ i u, env.units.get? i = some u →
      (dmRunMerge env).outWrites.get? i = some (dmUnitWriteSpec env u)) ∧
    ((allMaterials env).Pairwise (fun m m' => safeOf m ≠ safeOf m') →
      ∀ i u nm doc, env.units.get? i = some u →
        (libRunMerge env).outWrites.get? i = some (some (nm, doc)) →
        doc = ((unitMaterials u).filterMap (libContrib env)).flatten) := by
  constructor
  · intro i u hu
    rw [dmRunMerge_spec2 env h2, List.get?_map, hu]
    rfl
  · intro h1 i u nm doc hu hw
    rw [(libRunMerge_spec env h1).1] at hw
    exact libWritesSpec_get env env.units i u nm doc hu hw

/-- Witness for `C1_merge_page_order` at the concrete `dupEnv`, whose two
materials share a sanitized title: the `download_material.py` half applies
to it unconditionally. -/
theorem C1_merge_page_order_witness :
    (∀ m ∈ allMaterials dupEnv, TempFree m) ∧
    ((∀ i u, dupEnv.units.get? i = some u →
       (dmRunMerge dupEnv).outWrites.get? i
         = some (dmUnitWriteSpec dupEnv u)) ∧
     ((allMaterials dupEnv).Pairwise (fun m m' => safeOf m ≠ safeOf m') →
       ∀ i u nm doc, dupEnv.units.get? i = some u →
         (libRunMerge dupEnv).outWrites.get? i = some (some (nm, doc)) →
         doc = ((unitMaterials u).filterMap (libContrib dupEnv)).flatten)) :=
  ⟨by decide, C1_merge_page_order dupEnv (by decide)⟩

/-! ### Distinctness of placed paths in `download_material.py` (claim C5) -/

theorem fsKeys_erase_mem {fs : Fs} {p q : String} (hp : p ∈ fsKeys fs)
    (hne : p ≠ q) : p ∈ fsKeys (fsErase fs q) := by
  unfold fsKeys fsErase
  unfold fsKeys at hp
  obtain ⟨e, he, hk⟩ := List.mem_map.mp hp
  exact List.mem_map.mpr
    ⟨e, List.mem_filter.mpr ⟨he, by simp [hk, hne]⟩, hk⟩

theorem unique_join_basename_not_temp {m : Material} (htf : TempFree m)
    (tf : String) (keys : List String) {e : String} (he : ExtShape e) :
    ¬ tempMark <+:
      (basename (get_unique_filename keys (joinPath tf (safeOf m ++ e)))).data := by
  by_cases hmem : joinPath tf (safeOf m ++ e) ∈ keys
  · obtain ⟨k, _, heq, _, _⟩ := get_unique_filename_spec keys _ hmem
    rw [heq, uniqueCand_join_basename (safeOf_no_slash m) (safeOf_nondot m) he]
    exact not_temp_pref_cand htf k
  · rw [get_unique_filename_of_not_mem _ _ hmem,
      basename_join (append_no_slash (safeOf_no_slash m) (ext_no_slash he))]
    exact not_temp_pref_ext htf he

theorem basename_tempPath (tf : String) (m : Material) :
    basename (joinPath tf ("temp_" ++ safeOf m)) = "temp_" ++ safeOf m :=
  basename_join (append_no_slash (by decide) (safeOf_no_slash m))

theorem placed_ne_tempPath {p : String}
    (hp : ¬ tempMark <+: (basename p).data) (tf : String) (m : Material) :
    p ≠ joinPath tf ("temp_" ++ safeOf m) := by
  intro hc
  rw [hc, basename_tempPath] at hp
  exact hp (tempMark_pref (safeOf m))

theorem dmPlaced_abstract {fs : Fs} {placed : List String} {tp up : String}
    {body : List Nat}
    (hnd : placed.Nodup) (hmem : ∀ p ∈ placed, p ∈ fsKeys fs)
    (hnt : ∀ p ∈ placed, ¬ tempMark <+: (basename p).data)
    (htemp : tempMark <+: (basename tp).data)
    (hup_not : up ∉ fsKeys (fsWrite fs tp body))
    (hup_nt : ¬ tempMark <+: (basename up).data) :
    (placed ++ [up]).Nodup ∧
    (∀ p ∈ placed ++ [up],
      p ∈ fsKeys (fsRename (fsWrite fs tp body) tp up)) ∧
    (∀ p ∈ placed ++ [up], ¬ tempMark <+: (basename p).data) := by
  have hne_tp : ∀ p ∈ placed, p ≠ tp := by
    intro p hp hc
    exact hnt p hp (by rw [hc]; exact htemp)
  have hmemfs1 : ∀ p ∈ placed, p ∈ fsKeys (fsWrite fs tp body) := by
    intro p hp
    rw [show fsKeys (fsWrite fs tp body)
      = tp :: fsKeys (fsErase fs tp) from rfl]
    exact List.mem_cons_of_mem _
      (fsKeys_erase_mem (hmem p hp) (hne_tp p hp))
  have hnotin : up ∉ placed := fun hc => hup_not (hmemfs1 up hc)
  have hren : fsRename (fsWrite fs tp body) tp up
      = (up, body) :: fsErase (fsErase (fsWrite fs tp body) tp) up := by
    unfold fsRename
    rw [show fsGet (fsWrite fs tp body) tp = some body
      from fsGet_head tp body _]
    rfl
  refine ⟨?_, ?_, ?_⟩
  · exact List.Nodup.append hnd (List.nodup_singleton up)
      (by
        intro a ha hb
        rw [List.mem_singleton] at hb
        exact hnotin (hb ▸ ha))
  · intro p hp
    rw [hren, show fsKeys ((up, body) ::
        fsErase (fsErase (fsWrite fs tp body) tp) up)
      = up :: fsKeys (fsErase (fsErase (fsWrite fs tp body) tp) up) from rfl]
    rcases List.mem_append.mp hp with hp | hp
    · refine List.mem_cons_of_mem _ ?_
      refine fsKeys_erase_mem
        (fsKeys_erase_mem (hmemfs1 p hp) (hne_tp p hp)) ?_
      intro hc
      exact hup_not (hc ▸ hmemfs1 p hp)
    · rw [List.mem_singleton] at hp
      subst hp
      exact List.mem_cons_self _ _
  · intro p hp
    rcases List.mem_append.mp hp with hp | hp
    · exact hnt p hp
    · rw [List.mem_singleton] at hp
      subst hp
      exact hup_nt

theorem dmPdf_abstract {fs : Fs} {placed : List String} {tp up : String}
    {body : List Nat}
    (hnd : placed.Nodup) (hmem : ∀ p ∈ placed, p ∈ fsKeys fs)
    (hnt : ∀ p ∈ placed, ¬ tempMark <+: p.data)
    (htemp : tempMark <+: tp.data)
    (hup_not : up ∉ fsKeys (fsWrite fs tp body))
    (hup_nt : ¬ tempMark <+: up.data) :
    (placed ++ [up]).Nodup ∧
    (∀ p ∈ placed ++ [up],
      p ∈ fsKeys (fsRename (fsWrite fs tp body) tp up)) ∧
    (∀ p ∈ placed ++ [up], ¬ tempMark <+: p.data) := by
  have hne_tp : ∀ p ∈ placed, p ≠ tp := by
    intro p hp hc
    exact hnt p hp (by rw [hc]; exact htemp)
  have hmemfs1 : ∀ p ∈ placed, p ∈ fsKeys (fsWrite fs tp body) := by
    intro p hp
    rw [show fsKeys (fsWrite fs tp body)
      = tp :: fsKeys (fsErase fs tp) from rfl]
    exact List.mem_cons_of_mem _
      (fsKeys_erase_mem (hmem p hp) (hne_tp p hp))
  have hnotin : up ∉ placed := fun hc => hup_not (hmemfs1 up hc)
  have hren : fsRename (fsWrite fs tp body) tp up
      = (up, body) :: fsErase (fsErase (fsWrite fs tp body) tp) up := by
    unfold fsRename
    rw [show fsGet (fsWrite fs tp body) tp = some body
      from fsGet_head tp body _]
    rfl
  refine ⟨?_, ?_, ?_⟩
  · exact List.Nodup.append hnd (List.nodup_singleton up)
      (by
        intro a ha hb
        rw [List.mem_singleton] at hb
        exact hnotin (hb ▸ ha))
  · intro p hp
    rw [hren, show fsKeys ((up, body) ::
        fsErase (fsErase (fsWrite fs tp body) tp) up)
      = up :: fsKeys (fsErase (fsErase (fsWrite fs tp body) tp) up) from rfl]
    rcases List.mem_append.mp hp with hp | hp
    · refine List.mem_cons_of_mem _ ?_
      refine fsKeys_erase_mem
        (fsKeys_erase_mem (hmemfs1 p hp) (hne_tp p hp)) ?_
      intro hc
      exact hup_not (hc ▸ hmemfs1 p hp)
    · rw [List.mem_singleton] at hp
      subst hp
      exact List.mem_cons_self _ _
  · intro p hp
    rcases List.mem_append.mp hp with hp | hp
    · exact hnt p hp
    · rw [List.mem_singleton] at hp
      subst hp
      exact hup_nt

theorem dmPdf_abstract_erase {fs : Fs} {placed : List String} {tp up : String}
    {body : List Nat}
    (hmem : ∀ p ∈ placed, p ∈ fsKeys fs)
    (hnt : ∀ p ∈ placed, ¬ tempMark <+: p.data)
    (htemp : tempMark <+: tp.data)
    (hup_not : up ∉ fsKeys (fsWrite fs tp body)) :
    ∀ p ∈ placed,
      p ∈ fsKeys (fsErase (fsRename (fsWrite fs tp body) tp up) up) := by
  have hne_tp : ∀ p ∈ placed, p ≠ tp := by
    intro p hp hc
    exact hnt p hp (by rw [hc]; exact htemp)
  have hmemfs1 : ∀ p ∈ placed, p ∈ fsKeys (fsWrite fs tp body) := by
    intro p hp
    rw [show fsKeys (fsWrite fs tp body)
      = tp :: fsKeys (fsErase fs tp) from rfl]
    exact List.mem_cons_of_mem _
      (fsKeys_erase_mem (hmem p hp) (hne_tp p hp))
  have hren : fsRename (fsWrite fs tp body) tp up
      = (up, body) :: fsErase (fsErase (fsWrite fs tp body) tp) up := by
    unfold fsRename
    rw [show fsGet (fsWrite fs tp body) tp = some body
      from fsGet_head tp body _]
    rfl
  intro p hp
  have hne_up : p ≠ up := by
    intro hc
    exact hup_not (hc ▸ hmemfs1 p hp)
  refine fsKeys_erase_mem ?_ hne_up
  rw [hren, show fsKeys ((up, body) ::
      fsErase (fsErase (fsWrite fs tp body) tp) up)
    = up :: fsKeys (fsErase (fsErase (fsWrite fs tp body) tp) up) from rfl]
  exact List.mem_cons_of_mem _
    (fsKeys_erase_mem (fsKeys_erase_mem (hmemfs1 p hp) (hne_tp p hp)) hne_up)

set_option maxHeartbeats 2000000 in
theorem dmFolderMaterial_inv (env : Env) (tf : String) (m : Material)
    (st : DmFolderSt) (htf : TempFree m) (h : DmPlacedInv st) :
    DmPlacedInv (dmFolderMaterial env tf st m) := by
  obtain ⟨hnd, hmem, hnt⟩ := h
  cases hdf : download_file env m.url with
  | mk o msgs =>
    cases o with
    | none =>
      simp only [dmFolderMaterial, hdf]
      exact ⟨hnd, hmem, hnt⟩
    | some r =>
      obtain ⟨cd, body⟩ := r
      simp only [dmFolderMaterial, hdf]
      have he : ExtShape
          (if pyLower (get_file_extension_from_headers cd m.url) = ".ppt"
           then ".pptx" else get_file_extension_from_headers cd m.url) := by
        by_cases hpp :
            pyLower (get_file_extension_from_headers cd m.url) = ".ppt"
        · rw [if_pos hpp]
          exact extShape_pptx
        · rw [if_neg hpp]
          exact get_ext_shape cd m.url
      refine dmPlaced_abstract hnd hmem hnt ?_ ?_ ?_
      · rw [basename_tempPath]
        exact tempMark_pref (safeOf m)
      · exact get_unique_filename_not_mem _ _
      · exact unique_join_basename_not_temp htf tf _ he

theorem dmFolderMaterials_inv (env : Env) (tf : String) :
    ∀ (M : List Material) (st : DmFolderSt),
      (∀ m ∈ M, TempFree m) → DmPlacedInv st →
      DmPlacedInv (M.foldl (dmFolderMaterial env tf) st) := by
  intro M
  induction M with
  | nil =>
    intro st _ h
    exact h
  | cons m M ih =>
    intro st htf h
    rw [List.foldl_cons]
    exact ih _ (fun m' hm' => htf m' (List.mem_cons_of_mem _ hm'))
      (dmFolderMaterial_inv env tf m st (htf m (List.mem_cons_self _ _)) h)

theorem dmFolderTopic_inv (env : Env) (uf : String) (t : MTopic)
    (st : DmFolderSt) (htf : ∀ m ∈ t.materials, TempFree m)
    (h : DmPlacedInv st) : DmPlacedInv (dmFolderTopic env uf st t) := by
  simp only [dmFolderTopic]
  exact dmFolderMaterials_inv env _ t.materials _ htf h

theorem dmFolderTopics_inv (env : Env) (uf : String) :
    ∀ (ts : List MTopic) (st : DmFolderSt),
      (∀ t ∈ ts, ∀ m ∈ t.materials, TempFree m) → DmPlacedInv st →
      DmPlacedInv (ts.foldl (dmFolderTopic env uf) st) := by
  intro ts
  induction ts with
  | nil =>
    intro st _ h
    exact h
  | cons t ts ih =>
    intro st htf h
    rw [List.foldl_cons]
    exact ih _ (fun t' ht' => htf t' (List.mem_cons_of_mem _ ht'))
      (dmFolderTopic_inv env uf t st (htf t (List.mem_cons_self _ _)) h)

theorem dmFolderUnit_inv (env : Env) (out : String) (u : MUnit)
    (st : DmFolderSt) (htf : ∀ m ∈ unitMaterials u, TempFree m)
    (h : DmPlacedInv st) : DmPlacedInv (dmFolderUnit env out st u) := by
  simp only [dmFolderUnit]
  refine dmFolderTopics_inv env _ u.topics _ ?_ h
  intro t ht m hm
  exact htf m (List.mem_flatMap.mpr ⟨t, ht, hm⟩)

theorem dmFolderUnits_inv (env : Env) (out : String) :
    ∀ (us : List MUnit) (st : DmFolderSt),
      (∀ u ∈ us, ∀ m ∈ unitMaterials u, TempFree m) → DmPlacedInv st →
      DmPlacedInv (us.foldl (dmFolderUnit env out) st) := by
  intro us
  induction us with
  | nil =>
    intro st _ h
    exact h
  | cons u us ih =>
    intro st htf h
    rw [List.foldl_cons]
    exact ih _ (fun u' hu' => htf u' (List.mem_cons_of_mem _ hu'))
      (dmFolderUnit_inv env out u st (htf u (List.mem_cons_self _ _)) h)

theorem dmRunFolder_inv (env : Env) (out : String)
    (h2 : ∀ m ∈ allMaterials env, TempFree m) :
    DmPlacedInv (dmRunFolder env out) := by
  refine dmFolderUnits_inv env out env.units _ ?_ ?_
  · intro u hu m hm
    exact h2 m (List.mem_flatMap.mpr ⟨u, hu, hm⟩)
  · refine ⟨List.nodup_nil, ?_, ?_⟩
    · intro p hp
      cases hp
    · intro p hp
      cases hp

set_option maxHeartbeats 2000000 in
theorem dmMergeMaterial_pdfinv (env : Env) (m : Material) (st : DmUnitSt)
    (htf : TempFree m)
    (h : DmPdfInv st.scratch st.placedPdf) :
    DmPdfInv (dmMergeMaterial env st m).scratch
      (dmMergeMaterial env st m).placedPdf := by
  obtain ⟨hnd, hmem, hnt⟩ := h
  cases hdf : download_file env m.url with
  | mk o msgs =>
    cases o with
    | none =>
      simp only [dmMergeMaterial, hdf]
      exact ⟨hnd, hmem, hnt⟩
    | some r =>
      obtain ⟨cd, body⟩ := r
      simp only [dmMergeMaterial, hdf]
      have he : ExtShape (get_file_extension_from_headers cd m.url) :=
        get_ext_shape cd m.url
      by_cases hppt :
          pyLower (get_file_extension_from_headers cd m.url) = ".pptx"
          ∨ pyLower (get_file_extension_from_headers cd m.url) = ".ppt"
      · rw [if_pos hppt]
        refine ⟨hnd, ?_, hnt⟩
        exact dmPdf_abstract_erase hmem hnt (tempMark_pref (safeOf m))
          (get_unique_filename_not_mem _ _)
      · rw [if_neg hppt]
        by_cases hpdf :
            pyLower (get_file_extension_from_headers cd m.url) = ".pdf"
        · rw [if_pos hpdf]
          refine dmPdf_abstract hnd hmem hnt ?_ ?_ ?_
          · exact tempMark_pref (safeOf m)
          · exact get_unique_filename_not_mem _ _
          · exact unique_bare_not_temp htf _ he
        · rw [if_neg hpdf]
          refine ⟨hnd, ?_, hnt⟩
          exact dmPdf_abstract_erase hmem hnt (tempMark_pref (safeOf m))
            (get_unique_filename_not_mem _ _)

theorem dmMergeMaterials_pdfinv (env : Env) :
    ∀ (M : List Material) (st : DmUnitSt),
      (∀ m ∈ M, TempFree m) → DmPdfInv st.scratch st.placedPdf →
      DmPdfInv (M.foldl (dmMergeMaterial env) st).scratch
        (M.foldl (dmMergeMaterial env) st).placedPdf := by
  intro M
  induction M with
  | nil =>
    intro st _ h
    exact h
  | cons m M ih =>
    intro st htf h
    rw [List.foldl_cons]
    exact ih _ (fun m' hm' => htf m' (List.mem_cons_of_mem _ hm'))
      (dmMergeMaterial_pdfinv env m st (htf m (List.mem_cons_self _ _)) h)

theorem dmMergeUnit_pdfinv (env : Env) (st : DmMergeSt) (u : MUnit)
    (htf : ∀ m ∈ unitMaterials u, TempFree m)
    (h : DmPdfInv st.scratch st.placedPdf) :
    DmPdfInv (dmMergeUnit env st u).scratch
      (dmMergeUnit env st u).placedPdf := by
  have hust := dmMergeMaterials_pdfinv env (unitMaterials u)
    ⟨st.scratch, [], st.failLog, st.placedPdf⟩ htf h
  simp only [dmMergeUnit]
  by_cases hpp : ((unitMaterials u).foldl (dmMergeMaterial env)
      ⟨st.scratch, [], st.failLog, st.placedPdf⟩).pdfPaths = []
  · rw [if_pos hpp]
    exact hust
  · rw [if_neg hpp]
    by_cases hm0 : (((unitMaterials u).foldl (dmMergeMaterial env)
        ⟨st.scratch, [], st.failLog, st.placedPdf⟩).pdfPaths.foldl
        (dmMergeAppend env ((unitMaterials u).foldl (dmMergeMaterial env)
          ⟨st.scratch, [], st.failLog, st.placedPdf⟩).scratch) ([], 0)).2 = 0
    · rw [if_pos hm0]
      exact hust
    · rw [if_neg hm0]
      exact hust

theorem dmMergeUnits_pdfinv (env : Env) :
    ∀ (us : List MUnit) (st : DmMergeSt),
      (∀ u ∈ us, ∀ m ∈ unitMaterials u, TempFree m) →
      DmPdfInv st.scratch st.placedPdf →
      DmPdfInv (us.foldl (dmMergeUnit env) st).scratch
        (us.foldl (dmMergeUnit env) st).placedPdf := by
  intro us
  induction us with
  | nil =>
    intro st _ h
    exact h
  | cons u us ih =>
    intro st htf h
    rw [List.foldl_cons]
    exact ih _ (fun u' hu' => htf u' (List.mem_cons_of_mem _ hu'))
      (dmMergeUnit_pdfinv env st u (htf u (List.mem_cons_self _ _)) h)

theorem dmRunMerge_pdfinv (env : Env)
    (h2 : ∀ m ∈ allMaterials env, TempFree m) :
    DmPdfInv (dmRunMerge env).scratch (dmRunMerge env).placedPdf := by
  refine dmMergeUnits_pdfinv env env.units _ ?_ ?_
  · intro u hu m hm
    exact h2 m (List.mem_flatMap.mpr ⟨u, hu, hm⟩)
  · refine ⟨List.nodup_nil, ?_, ?_⟩
    · intro p hp
      cases hp
    · intro p hp
      cases hp
/-- **C5 counterexample.**  In folder mode of `download_using_lib.py`, the
two materials of `dupEnv` (same title `"a"`, same topic) are both
downloaded to the same `dest_path`: the recorded destination list contains
a duplicate and the second write overwrites the first — placement does
leave two materials on one final path. -/
theorem C5_counterexample :
    ¬ (libRunFolder dupEnv "out").dests.Nodup ∧
    (libRunFolder dupEnv "out").dests.length = 2 := by decide

/-- **C5** (amended).  For `download_material.py`, in both modes, the final
paths of the placed materials are pairwise distinct — even when distinct
materials sanitize to the same title — provided no sanitized title starts
with the staging marker `temp_`.  `download_using_lib.py` has no collision
handling and violates the claim as frozen (see the counterexample). -/
theorem C5_distinct_paths (env : Env) (out : String)
    (h2 : ∀ m ∈ allMaterials env, TempFree m) :
    (dmRunFolder env out).placed.Nodup ∧
    (dmRunMerge env).placedPdf.Nodup :=
  ⟨(dmRunFolder_inv env out h2).1, (dmRunMerge_pdfinv env h2).1⟩

/-- Witness for `C5_distinct_paths` at `dupEnv`, whose two materials share
a sanitized title. -/
theorem C5_distinct_paths_witness :
    (∀ m ∈ allMaterials dupEnv, TempFree m) ∧
    ((dmRunFolder dupEnv "out").placed.Nodup ∧
     (dmRunMerge dupEnv).placedPdf.Nodup) :=
  ⟨by decide, C5_distinct_paths dupEnv "out" (by decide)⟩

/-! ### Behaviour on fetch failure (claim C6) -/

theorem libUnitAborts_of_fail {env : Env} {u : MUnit} {m : Material}
    (hm : m ∈ unitMaterials u) (hp : libPdfIsh m)
    (hf : (download_file env m.url).1 = none) : libUnitAborts env u := by
  constructor
  · exact List.ne_nil_of_mem (List.mem_filterMap.mpr
      ⟨m, hm, by unfold libRecord; rw [if_pos hp]⟩)
  · intro hA
    exact hA m hm hp (by simp [libContrib, hp, hf])

/-- **C6 counterexample.**  In `failEnv`, unit 1's only material fails to
fetch (status 404) while unit 2's only material fetches fine (status 200).
In merge mode of `download_using_lib.py` the recorded path of the failed
material makes `merger.append` raise an uncaught exception at unit 1:
the run aborts and unit 2 — a *sibling unit* — is never processed, so a
failure below the course-lookup level does stop traversal.
`download_material.py` on the same input proceeds and writes unit 2's
merged pdf. -/
theorem C6_counterexample :
    (failEnv.fetch "x/b.pdf").1 = 200 ∧
    (libRunMerge failEnv).aborted = true ∧
    (libRunMerge failEnv).outWrites = [none, none] ∧
    (dmRunMerge failEnv).outWrites = [none, some ("U2.pdf", [2])] := by decide

/-- **C6** (amended).  For every material whose fetch returns a
non-success status: in folder mode of both scripts and in merge mode of
`download_material.py`, the step writes nothing, leaves the state
unchanged except for appending the failure report
`Failed to download {url} (status {code})`, and the surrounding fold
proceeds to the next material.  In merge mode of `download_using_lib.py`
the step also writes nothing and reports the failure, but it records the
missing destination path, so the enclosing unit's merge phase raises
(`libUnitAborts`): the claim's "never stops traversal" is violated there
(see `C6_counterexample`). -/
theorem C6_fetch_failure_local (env : Env) (tf : String)
    (stF : DmFolderSt) (stM : DmUnitSt) (stL : LibFolderSt)
    (stP : Fs × List String × List String)
    (m : Material) (hf : (env.fetch m.url).1 ≠ 200) :
    dmFolderMaterial env tf stF m
      = { stF with failLog := stF.failLog ++ (download_file env m.url).2 } ∧
    dmMergeMaterial env stM m
      = { stM with failLog := stM.failLog ++ (download_file env m.url).2 } ∧
    libFolderMaterial env tf stL m
      = { stL with failLog := stL.failLog ++ (download_file env m.url).2 } ∧
    (download_file env m.url).2
      = ["Failed to download " ++ m.url ++ " (status "
          ++ Nat.repr (env.fetch m.url).1 ++ ")"] ∧
    (libPdfIsh m → libMergeMaterial env stP m
      = (stP.1, stP.2.1 ++ [libDest m],
         stP.2.2 ++ (download_file env m.url).2)) ∧
    (∀ u, m ∈ unitMaterials u → libPdfIsh m → libUnitAborts env u) := by
  have hdf : download_file env m.url
      = (none, ["Failed to download " ++ m.url ++ " (status "
          ++ Nat.repr (env.fetch m.url).1 ++ ")"]) := by
    unfold download_file
    rw [if_neg hf]
  refine ⟨?_, ?_, ?_, ?_, ?_, ?_⟩
  · simp only [dmFolderMaterial, hdf]
  · simp only [dmMergeMaterial, hdf]
  · simp only [libFolderMaterial, hdf]
  · rw [hdf]
  · intro hp
    exact libMergeMaterial_fail hp (by rw [hdf])
  · intro u hm hp
    exact libUnitAborts_of_fail hm hp (by rw [hdf])

/-- Witness for `C6_fetch_failure_local` at `failEnv` and its failing
material. -/
theorem C6_fetch_failure_local_witness :
    (failEnv.fetch "x/a.pdf").1 ≠ 200 ∧
    (dmFolderMaterial failEnv "t" ⟨[], [], [], []⟩ ⟨"a", "x/a.pdf"⟩
        = { dirs := [], fs := [],
            failLog := [] ++ (download_file failEnv "x/a.pdf").2,
            placed := [] } ∧
     dmMergeMaterial failEnv ⟨[], [], [], []⟩ ⟨"a", "x/a.pdf"⟩
        = { scratch := [], pdfPaths := [],
            failLog := [] ++ (download_file failEnv "x/a.pdf").2,
            placedPdf := [] } ∧
     libFolderMaterial failEnv "t" ⟨[], [], [], []⟩ ⟨"a", "x/a.pdf"⟩
        = { dirs := [], fs := [],
            failLog := [] ++ (download_file failEnv "x/a.pdf").2,
            dests := [] } ∧
     (download_file failEnv "x/a.pdf").2
        = ["Failed to download " ++ "x/a.pdf" ++ " (status "
            ++ Nat.repr (failEnv.fetch "x/a.pdf").1 ++ ")"] ∧
     (libPdfIsh ⟨"a", "x/a.pdf"⟩ →
       libMergeMaterial failEnv ([], [], []) ⟨"a", "x/a.pdf"⟩
         = ([], [] ++ [libDest ⟨"a", "x/a.pdf"⟩],
            [] ++ (download_file failEnv "x/a.pdf").2)) ∧
     (∀ u, (⟨"a", "x/a.pdf"⟩ : Material) ∈ unitMaterials u →
       libPdfIsh ⟨"a", "x/a.pdf"⟩ → libUnitAborts failEnv u)) :=
  ⟨by decide, C6_fetch_failure_local failEnv "t" ⟨[], [], [], []⟩
    ⟨[], [], [], []⟩ ⟨[], [], [], []⟩ ([], [], []) ⟨"a", "x/a.pdf"⟩
    (by decide)⟩

/-! ### Directory creation in folder mode (claim C10) -/

theorem insertDir_self (dirs : List String) (d : String) :
    d ∈ insertDir dirs d := by
  unfold insertDir
  by_cases h : d ∈ dirs
  · rw [if_pos h]
    exact h
  · rw [if_neg h]
    exact List.mem_append_right _ (List.mem_singleton_self d)

theorem insertDir_mono {dirs : List String} {x : String} (h : x ∈ dirs)
    (d : String) : x ∈ insertDir dirs d := by
  unfold insertDir
  by_cases hd : d ∈ dirs
  · rw [if_pos hd]
    exact h
  · rw [if_neg hd]
    exact List.mem_append_left _ h

theorem foldl_proj_eq {α σ β : Type} (proj : σ → β) (f : σ → α → σ)
    (hf : ∀ st a, proj (f st a) = proj st) :
    ∀ (l : List α) (st : σ), proj (l.foldl f st) = proj st := by
  intro l
  induction l with
  | nil =>
    intro st
    rfl
  | cons a l ih =>
    intro st
    rw [List.foldl_cons, ih, hf]

theorem foldl_dirs_mono {α σ : Type} (proj : σ → List String) (f : σ → α → σ)
    (hf : ∀ st a x, x ∈ proj st → x ∈ proj (f st a)) :
    ∀ (l : List α) (st : σ) (x : String),
      x ∈ proj st → x ∈ proj (l.foldl f st) := by
  intro l
  induction l with
  | nil =>
    intro st x h
    exact h
  | cons a l ih =>
    intro st x h
    rw [List.foldl_cons]
    exact ih _ x (hf st a x h)

theorem foldl_dirs_mem {α σ : Type} (proj : σ → List String) (f : σ → α → σ)
    (hmono : ∀ st a x, x ∈ proj st → x ∈ proj (f st a)) (x : String) :
    ∀ (l : List α) (st : σ) (a : α), a ∈ l →
      (∀ st', x ∈ proj (f st' a)) → x ∈ proj (l.foldl f st) := by
  intro l
  induction l with
  | nil =>
    intro st a ha _
    cases ha
  | cons b l ih =>
    intro st a ha hself
    rw [List.foldl_cons]
    rcases List.mem_cons.mp ha with ha | ha
    · subst ha
      exact foldl_dirs_mono proj f hmono l _ x (hself st)
    · exact ih _ a ha hself

theorem dmFolderMaterial_dirs (env : Env) (tf : String) (st : DmFolderSt)
    (m : Material) : (dmFolderMaterial env tf st m).dirs = st.dirs := by
  cases hdf : download_file env m.url with
  | mk o msgs =>
    cases o with
    | none => simp only [dmFolderMaterial, hdf]
    | some r =>
      obtain ⟨cd, body⟩ := r
      simp only [dmFolderMaterial, hdf]

theorem libFolderMaterial_dirs (env : Env) (tf : String) (st : LibFolderSt)
    (m : Material) : (libFolderMaterial env tf st m).dirs = st.dirs := by
  cases hdf : download_file env m.url with
  | mk o msgs =>
    cases o with
    | none => simp only [libFolderMaterial, hdf]
    | some r =>
      obtain ⟨cd, body⟩ := r
      simp only [libFolderMaterial, hdf]

theorem dmFolderTopic_dirs (env : Env) (uf : String) (st : DmFolderSt)
    (t : MTopic) :
    (dmFolderTopic env uf st t).dirs
      = insertDir st.dirs (joinPath uf (sanitize_filename (pyStripWS t.title))) := by
  simp only [dmFolderTopic]
  rw [foldl_proj_eq DmFolderSt.dirs (dmFolderMaterial env _)
    (dmFolderMaterial_dirs env _) t.materials _]

theorem libFolderTopic_dirs (env : Env) (uf : String) (st : LibFolderSt)
    (t : MTopic) :
    (libFolderTopic env uf st t).dirs
      = insertDir st.dirs (joinPath uf (sanitize_filename (pyStripWS t.title))) := by
  simp only [libFolderTopic]
  rw [foldl_proj_eq LibFolderSt.dirs (libFolderMaterial env _)
    (libFolderMaterial_dirs env _) t.materials _]

theorem dmFolderTopic_dirs_mono (env : Env) (uf : String) (st : DmFolderSt)
    (t : MTopic) (x : String) (h : x ∈ st.dirs) :
    x ∈ (dmFolderTopic env uf st t).dirs := by
  rw [dmFolderTopic_dirs]
  exact insertDir_mono h _

theorem libFolderTopic_dirs_mono (env : Env) (uf : String) (st : LibFolderSt)
    (t : MTopic) (x : String) (h : x ∈ st.dirs) :
    x ∈ (libFolderTopic env uf st t).dirs := by
  rw [libFolderTopic_dirs]
  exact insertDir_mono h _

theorem dmFolderUnit_dirs_mono (env : Env) (out : String) (st : DmFolderSt)
    (u : MUnit) (x : String) (h : x ∈ st.dirs) :
    x ∈ (dmFolderUnit env out st u).dirs := by
  simp only [dmFolderUnit]
  exact foldl_dirs_mono DmFolderSt.dirs (dmFolderTopic env _)
    (dmFolderTopic_dirs_mono env _) u.topics _ x (insertDir_mono h _)

theorem libFolderUnit_dirs_mono (env : Env) (out : String) (st : LibFolderSt)
    (u : MUnit) (x : String) (h : x ∈ st.dirs) :
    x ∈ (libFolderUnit env out st u).dirs := by
  simp only [libFolderUnit]
  exact foldl_dirs_mono LibFolderSt.dirs (libFolderTopic env _)
    (libFolderTopic_dirs_mono env _) u.topics _ x (insertDir_mono h _)

theorem dmFolderUnit_unitdir (env : Env) (out : String) (st : DmFolderSt)
    (u : MUnit) :
    joinPath out (sanitize_filename (pyStripWS u.title))
      ∈ (dmFolderUnit env out st u).dirs := by
  simp only [dmFolderUnit]
  exact foldl_dirs_mono DmFolderSt.dirs (dmFolderTopic env _)
    (dmFolderTopic_dirs_mono env _) u.topics _ _ (insertDir_self st.dirs _)

theorem libFolderUnit_unitdir (env : Env) (out : String) (st : LibFolderSt)
    (u : MUnit) :
    joinPath out (sanitize_filename (pyStripWS u.title))
      ∈ (libFolderUnit env out st u).dirs := by
  simp only [libFolderUnit]
  exact foldl_dirs_mono LibFolderSt.dirs (libFolderTopic env _)
    (libFolderTopic_dirs_mono env _) u.topics _ _ (insertDir_self st.dirs _)

theorem dmFolderUnit_topicdir (env : Env) (out : String) (st : DmFolderSt)
    (u : MUnit) (t : MTopic) (ht : t ∈ u.topics) :
    joinPath (joinPath out (sanitize_filename (pyStripWS u.title)))
      (sanitize_filename (pyStripWS t.title))
      ∈ (dmFolderUnit env out st u).dirs := by
  simp only [dmFolderUnit]
  refine foldl_dirs_mem DmFolderSt.dirs (dmFolderTopic env _)
    (dmFolderTopic_dirs_mono env _) _ u.topics _ t ht ?_
  intro st'
  rw [dmFolderTopic_dirs]
  exact insertDir_self _ _

theorem libFolderUnit_topicdir (env : Env) (out : String) (st : LibFolderSt)
    (u : MUnit) (t : MTopic) (ht : t ∈ u.topics) :
    joinPath (joinPath out (sanitize_filename (pyStripWS u.title)))
      (sanitize_filename (pyStripWS t.title))
      ∈ (libFolderUnit env out st u).dirs := by
  simp only [libFolderUnit]
  refine foldl_dirs_mem LibFolderSt.dirs (libFolderTopic env _)
    (libFolderTopic_dirs_mono env _) _ u.topics _ t ht ?_
  intro st'
  rw [libFolderTopic_dirs]
  exact insertDir_self _ _

theorem dmRunFolder_unitdir (env : Env) (out : String) (u : MUnit)
    (hu : u ∈ env.units) :
    joinPath out (sanitize_filename (pyStripWS u.title))
      ∈ (dmRunFolder env out).dirs := by
  unfold dmRunFolder
  refine foldl_dirs_mem DmFolderSt.dirs (dmFolderUnit env out)
    (dmFolderUnit_dirs_mono env out) _ env.units _ u hu ?_
  intro st'
  exact dmFolderUnit_unitdir env out st' u

theorem libRunFolder_unitdir (env : Env) (out : String) (u : MUnit)
    (hu : u ∈ env.units) :
    joinPath out (sanitize_filename (pyStripWS u.title))
      ∈ (libRunFolder env out).dirs := by
  unfold libRunFolder
  refine foldl_dirs_mem LibFolderSt.dirs (libFolderUnit env out)
    (libFolderUnit_dirs_mono env out) _ env.units _ u hu ?_
  intro st'
  exact libFolderUnit_unitdir env out st' u

theorem dmRunFolder_topicdir (env : Env) (out : String) (u : MUnit)
    (t : MTopic) (hu : u ∈ env.units) (ht : t ∈ u.topics) :
    joinPath (joinPath out (sanitize_filename (pyStripWS u.title)))
      (sanitize_filename (pyStripWS t.title))
      ∈ (dmRunFolder env out).dirs := by
  unfold dmRunFolder
  refine foldl_dirs_mem DmFolderSt.dirs (dmFolderUnit env out)
    (dmFolderUnit_dirs_mono env out) _ env.units _ u hu ?_
  intro st'
  exact dmFolderUnit_topicdir env out st' u t ht

theorem libRunFolder_topicdir (env : Env) (out : String) (u : MUnit)
    (t : MTopic) (hu : u ∈ env.units) (ht : t ∈ u.topics) :
    joinPath (joinPath out (sanitize_filename (pyStripWS u.title)))
      (sanitize_filename (pyStripWS t.title))
      ∈ (libRunFolder env out).dirs := by
  unfold libRunFolder
  refine foldl_dirs_mem LibFolderSt.dirs (libFolderUnit env out)
    (libFolderUnit_dirs_mono env out) _ env.units _ u hu ?_
  intro st'
  exact libFolderUnit_topicdir env out st' u t ht

theorem dmFolderMaterial_fs_fail (env : Env) (tf : String)
    (hFail : ∀ url, (env.fetch url).1 ≠ 200) (st : DmFolderSt)
    (m : Material) : (dmFolderMaterial env tf st m).fs = st.fs := by
  have hdf : download_file env m.url
      = (none, ["Failed to download " ++ m.url ++ " (status "
          ++ Nat.repr (env.fetch m.url).1 ++ ")"]) := by
    unfold download_file
    rw [if_neg (hFail m.url)]
  simp only [dmFolderMaterial, hdf]

theorem libFolderMaterial_fs_fail (env : Env) (tf : String)
    (hFail : ∀ url, (env.fetch url).1 ≠ 200) (st : LibFolderSt)
    (m : Material) : (libFolderMaterial env tf st m).fs = st.fs := by
  have hdf : download_file env m.url
      = (none, ["Failed to download " ++ m.url ++ " (status "
          ++ Nat.repr (env.fetch m.url).1 ++ ")"]) := by
    unfold download_file
    rw [if_neg (hFail m.url)]
  simp only [libFolderMaterial, hdf]

theorem dmFolderTopic_fs_fail (env : Env) (uf : String)
    (hFail : ∀ url, (env.fetch url).1 ≠ 200) (st : DmFolderSt)
    (t : MTopic) : (dmFolderTopic env uf st t).fs = st.fs := by
  simp only [dmFolderTopic]
  rw [foldl_proj_eq DmFolderSt.fs (dmFolderMaterial env _)
    (dmFolderMaterial_fs_fail env _ hFail) t.materials _]

theorem libFolderTopic_fs_fail (env : Env) (uf : String)
    (hFail : ∀ url, (env.fetch url).1 ≠ 200) (st : LibFolderSt)
    (t : MTopic) : (libFolderTopic env uf st t).fs = st.fs := by
  simp only [libFolderTopic]
  rw [foldl_proj_eq LibFolderSt.fs (libFolderMaterial env _)
    (libFolderMaterial_fs_fail env _ hFail) t.materials _]

theorem dmFolderUnit_fs_fail (env : Env) (out : String)
    (hFail : ∀ url, (env.fetch url).1 ≠ 200) (st : DmFolderSt)
    (u : MUnit) : (dmFolderUnit env out st u).fs = st.fs := by
  simp only [dmFolderUnit]
  rw [foldl_proj_eq DmFolderSt.fs (dmFolderTopic env _)
    (dmFolderTopic_fs_fail env _ hFail) u.topics _]

theorem libFolderUnit_fs_fail (env : Env) (out : String)
    (hFail : ∀ url, (env.fetch url).1 ≠ 200) (st : LibFolderSt)
    (u : MUnit) : (libFolderUnit env out st u).fs = st.fs := by
  simp only [libFolderUnit]
  rw [foldl_proj_eq LibFolderSt.fs (libFolderTopic env _)
    (libFolderTopic_fs_fail env _ hFail) u.topics _]

/-- **C10.**  In folder mode of both scripts, the directory of every
listed unit and of every listed topic is created (it is in the `dirs` set
of the final state, `os.makedirs(..., exist_ok=True)` being idempotent),
regardless of whether any material of that unit or topic downloads; and
if every fetch fails, the filesystem holds no file at all — the created
directories remain empty. -/
theorem C10_folder_dirs (env : Env) (out : String) (u : MUnit) (t : MTopic)
    (hu : u ∈ env.units) (ht : t ∈ u.topics) :
    (joinPath out (sanitize_filename (pyStripWS u.title))
        ∈ (dmRunFolder env out).dirs ∧
     joinPath out (sanitize_filename (pyStripWS u.title))
        ∈ (libRunFolder env out).dirs) ∧
    (joinPath (joinPath out (sanitize_filename (pyStripWS u.title)))
        (sanitize_filename (pyStripWS t.title))
        ∈ (dmRunFolder env out).dirs ∧
     joinPath (joinPath out (sanitize_filename (pyStripWS u.title)))
        (sanitize_filename (pyStripWS t.title))
        ∈ (libRunFolder env out).dirs) ∧
    ((∀ url, (env.fetch url).1 ≠ 200) →
      (dmRunFolder env out).fs = [] ∧ (libRunFolder env out).fs = []) := by
  refine ⟨⟨dmRunFolder_unitdir env out u hu, libRunFolder_unitdir env out u hu⟩,
    ⟨dmRunFolder_topicdir env out u t hu ht,
     libRunFolder_topicdir env out u t hu ht⟩, ?_⟩
  intro hFail
  constructor
  · show (dmRunFolder env out).fs = []
    unfold dmRunFolder
    rw [foldl_proj_eq DmFolderSt.fs (dmFolderUnit env out)
      (dmFolderUnit_fs_fail env out hFail) env.units _]
  · show (libRunFolder env out).fs = []
    unfold libRunFolder
    rw [foldl_proj_eq LibFolderSt.fs (libFolderUnit env out)
      (libFolderUnit_fs_fail env out hFail) env.units _]

/-- Witness for `C10_folder_dirs` at `allFailEnv` and its empty topic
`T2`. -/
theorem C10_folder_dirs_witness :
    ((⟨"U", [⟨"T", [⟨"a", "x/a.pdf"⟩]⟩, ⟨"T2", []⟩]⟩ : MUnit)
        ∈ allFailEnv.units ∧
     (⟨"T2", []⟩ : MTopic)
        ∈ (⟨"U", [⟨"T", [⟨"a", "x/a.pdf"⟩]⟩, ⟨"T2", []⟩]⟩ : MUnit).topics) ∧
    ((joinPath "out" (sanitize_filename (pyStripWS "U"))
        ∈ (dmRunFolder allFailEnv "out").dirs ∧
      joinPath "out" (sanitize_filename (pyStripWS "U"))
        ∈ (libRunFolder allFailEnv "out").dirs) ∧
     (joinPath (joinPath "out" (sanitize_filename (pyStripWS "U")))
        (sanitize_filename (pyStripWS "T2"))
        ∈ (dmRunFolder allFailEnv "out").dirs ∧
      joinPath (joinPath "out" (sanitize_filename (pyStripWS "U")))
        (sanitize_filename (pyStripWS "T2"))
        ∈ (libRunFolder allFailEnv "out").dirs) ∧
     ((∀ url, (allFailEnv.fetch url).1 ≠ 200) →
       (dmRunFolder allFailEnv "out").fs = [] ∧
       (libRunFolder allFailEnv "out").fs = [])) :=
  ⟨⟨by decide, by decide⟩,
   C10_folder_dirs allFailEnv "out"
     ⟨"U", [⟨"T", [⟨"a", "x/a.pdf"⟩]⟩, ⟨"T2", []⟩]⟩ ⟨"T2", []⟩
     (by decide) (by decide)⟩

end Pesu
